import Mathlib

/-!
# PRESTO `minifft.c`: candidate search over short FFTs

A shallow embedding of `src/minifft.c` (`search_fft`, `search_minifft`,
`padfftlen`, `percolate_fftcands`, `percolate_rawbincands`,
`not_already_there_rawbin`) and the properties of it that are proved below.

Conventions of the embedding:

* `float` / `double` values are exact rationals (`ℚ`): the properties of the
  searches are about the order and the algebra of the powers, not about
  rounding. The one place where rounding decides a value returned is the test
  `fabs(list[ii].mini_r - newcand.mini_r) < 0.6` of `not_already_there_rawbin`:
  there the subtraction and the constant are those of IEEE 754 binary64
  (`round_double`, `double_sub`, `double_0_6`).
* C `int` lengths, counts and indices are natural numbers: the routines are
  called with non-negative lengths and all sizes stay far below `2^31`.
  Differences that C evaluates as signed integers (`numfft-lobin`) are `ℤ`.
* C arrays are lists. A read outside the array (undefined in C) yields zero,
  a write outside the array is dropped.
* Freshly allocated memory (`malloc`, `realloc`, `gen_fvect`) reads as zero.
* Routines of PRESTO that live outside `minifft.c` are the fields of `Env`.
-/

namespace Minifft

/-! ## Data model (`presto.h`) -/

/-- The complex sample type `fcomplex`. -/
structure fcomplex where
  r : ℚ
  i : ℚ
deriving DecidableEq

/-- The simple candidate `fftcand`: position, power, harmonics summed. -/
structure fftcand where
  r : ℚ
  p : ℚ
  nsum : ℕ
deriving DecidableEq

/-- The binary-search candidate `rawbincand`. -/
structure rawbincand where
  full_N : ℚ
  full_T : ℚ
  full_lo_r : ℚ
  mini_N : ℚ
  mini_r : ℚ
  mini_power : ℚ
  mini_numsum : ℚ
  mini_sigma : ℚ
  psr_p : ℚ
  orb_p : ℚ
deriving DecidableEq

/-- The interpolation mode. -/
inductive presto_interptype where
  | INTERBIN
  | INTERPOLATE
deriving DecidableEq

/-- The aliasing mode of `search_minifft`. -/
inductive presto_checkaliased where
  | CHECK_ALIASED
  | NO_CHECK_ALIASED
deriving DecidableEq

/-- The routines and constants `minifft.c` takes from the rest of PRESTO.
`gen_kernel numbetween numkern numspread` stands for the sequence
`gen_r_response`, `gen_cvect`, `place_complex_kernel`, `COMPLEXFFT`;
`spread_with_pad fft numfft numspread numbetween` and
`complex_corr_conv spread kernel numspread` are called with the fixed last
arguments of the source. -/
structure Env where
  power_for_sigma : ℚ → ℤ → ℤ → ℚ
  candidate_sigma : ℚ → ℤ → ℤ → ℚ
  r_resp_halfwidth_LOWACC : ℕ
  PIBYTWO : ℚ
  spread_with_pad : List fcomplex → ℕ → ℕ → ℕ → List fcomplex
  gen_kernel : ℕ → ℕ → ℕ → List fcomplex
  complex_corr_conv : List fcomplex → List fcomplex → ℕ → List fcomplex
  avg_var : List ℚ → ℤ → ℚ × ℚ

/-- Modelled from the spec: the macro `POWER(r, i)` of `presto.h`, the squared
magnitude of a complex sample. -/
def POWER (r i : ℚ) : ℚ := r * r + i * i

/-- A zero-filled complex slot. -/
def czero : fcomplex := ⟨0, 0⟩

/-- A zero-filled `fftcand` slot: the sentinel `p = 0`. -/
def blank : fftcand := ⟨0, 0, 0⟩

/-! ## `padfftlen` -/

/-- `padfftlen(minifftlen, numbetween, &padlen)` with
`W = r_resp_halfwidth(LOWACC)`: the pair (returned length, `*padlen`). -/
def padfftlen (W minifftlen numbetween : ℕ) : ℕ × ℕ :=
  let padlen0 := minifftlen / 8
  let lowaccbins := W * (numbetween / 2)
  let padlen := if padlen0 > lowaccbins then lowaccbins else padlen0
  let newlen := (minifftlen + padlen) * numbetween
  (if newlen ≤ 144 then newlen
   else if newlen ≤ 288 then 288
   else if newlen ≤ 540 then 540
   else if newlen ≤ 1080 then 1080
   else if newlen ≤ 2100 then 2100
   else if newlen ≤ 4200 then 4200
   else if newlen ≤ 8232 then 8232
   else if newlen ≤ 16464 then 16464
   else if newlen ≤ 32805 then 32805
   else if newlen ≤ 65610 then 65610
   else if newlen ≤ 131220 then 131220
   else if newlen ≤ 262440 then 262440
   else if newlen ≤ 525000 then 525000
   else if newlen ≤ 1050000 then 1050000
   else (newlen + 1000) / 1000 * 1000,
   padlen)

/-- The requirement `newlen = (minifftlen + *padlen) * numbetween` that
`padfftlen` rounds up. -/
def padfftlen_newlen (W minifftlen numbetween : ℕ) : ℕ :=
  (minifftlen + (padfftlen W minifftlen numbetween).2) * numbetween

/-- The ladder of FFT lengths of `padfftlen`. -/
def ladder : List ℕ :=
  [144, 288, 540, 1080, 2100, 4200, 8232, 16464, 32805, 65610, 131220, 262440,
    525000, 1050000]

/-! ## Percolation -/

/-- `SWAP(cands[ii], cands[ii + 1])`. -/
def swapAdj {α : Type} (cands : List α) (ii : ℕ) : List α :=
  match cands[ii]?, cands[ii + 1]? with
  | some a, some b => (cands.set ii b).set (ii + 1) a
  | _, _ => cands

/-- The loop `for (ii = numcands - 2; ii >= 0; ii--)` shared by the two
percolate routines, on the ranking metric `key`. The first argument is
`ii + 1`, the number of slots still ahead of the moving candidate. -/
def percolateLoop {α : Type} (key : α → ℚ) : ℕ → List α → List α
  | 0, cands => cands
  | ii + 1, cands =>
    match cands[ii]?, cands[ii + 1]? with
    | some a, some b =>
      if key a < key b then percolateLoop key ii (swapAdj cands ii) else cands
    | _, _ => cands

/-- `percolate_fftcands(cands, numcands)`: the array afterwards and the value
returned, `cands[numcands - 1].p`. -/
def percolate_fftcands (cands : List fftcand) (numcands : ℕ) : List fftcand × ℚ :=
  let cands1 := percolateLoop (fun c => c.p) (numcands - 1) cands
  (cands1, match cands1[numcands - 1]? with
           | some c => c.p
           | none => 0)

/-- `percolate_rawbincands(cands, numcands)`: the array afterwards and the
value returned, `cands[numcands - 1].mini_sigma`. -/
def percolate_rawbincands (cands : List rawbincand) (numcands : ℕ) :
    List rawbincand × ℚ :=
  let cands1 := percolateLoop (fun c => c.mini_sigma) (numcands - 1) cands
  (cands1, match cands1[numcands - 1]? with
           | some c => c.mini_sigma
           | none => 0)

/-- Non-increasing order of power over all slots of a candidate vector. -/
def sortedByPower (cands : List fftcand) : Prop :=
  cands.Pairwise (fun a b => b.p ≤ a.p)

instance (cands : List fftcand) : Decidable (sortedByPower cands) := by
  unfold sortedByPower; infer_instance

/-! ## Stages shared by the two search routines -/

/-- The oversampling factor in force after lines 68-69 (256-257):
`if (interptype == INTERBIN) numbetween = 2;`. -/
def eff_numbetween (interptype : presto_interptype) (numbetween : ℕ) : ℕ :=
  match interptype with
  | .INTERBIN => 2
  | .INTERPOLATE => numbetween

/-- The three `static` variables of a search routine: the kernel cache. -/
structure KernelCache where
  firsttime : Bool
  old_numfft : ℕ
  kernel : List fcomplex
deriving DecidableEq

/-- The cache of a fresh process: `firsttime = 1`, `old_numfft = 0`. -/
def KernelCache.fresh : KernelCache := ⟨true, 0, []⟩

/-- The block `if (firsttime || (old_numfft != numfft)) {...}` that rebuilds
the kernel (lines 95-105 and 273-283). -/
def prep_kernel (env : Env) (kc : KernelCache) (numfft numbetween numspread
    kern_half_width : ℕ) : KernelCache :=
  if kc.firsttime || decide (kc.old_numfft ≠ numfft) then
    let numkern := 2 * numbetween * kern_half_width
    ⟨false, numfft, env.gen_kernel numbetween numkern numspread⟩
  else kc

/-- The interbinning loop `for (ii = 1; ii < numtosearch; ii += 2)`. -/
def interbin (twobypi : ℚ) (numtosearch : ℕ) (spread : List fcomplex) : List fcomplex :=
  ((List.range (numtosearch / 2)).map (fun k => 2 * k + 1)).foldl
    (fun sp ii =>
      sp.set ii
        ⟨twobypi * ((sp.getD (ii - 1) czero).r - (sp.getD (ii + 1) czero).r),
         twobypi * ((sp.getD (ii - 1) czero).i - (sp.getD (ii + 1) czero).i)⟩)
    spread

/-- Spreading and interpolation (lines 110-124 and 288-302): the buffer
`spread` from which the powers are taken. -/
def spread_stage (env : Env) (kernel : List fcomplex) (fft : List fcomplex)
    (numfft numspread numbetween numtosearch : ℕ) (interptype : presto_interptype) :
    List fcomplex :=
  let spread0 := env.spread_with_pad fft numfft numspread numbetween
  let spread1 := (spread0.set numtosearch ⟨1, 0⟩).set 0 ⟨1, 0⟩
  match interptype with
  | .INTERPOLATE => env.complex_corr_conv spread1 kernel numspread
  | .INTERBIN => interbin (1 / env.PIBYTWO) numtosearch spread1

/-! ## `search_fft` -/

/-- The loop of lines 130-134: the raw powers written to `fullpows[jj]`,
`jj = ii - lobin`, and the running `*powmax`. -/
def fft_stats (fft : List fcomplex) (lobin numfft : ℕ) (norm : ℚ)
    (fullpows : List ℚ) (powmax : ℚ) : List ℚ × ℚ :=
  (List.range' lobin (numfft - lobin)).foldl
    (fun acc ii =>
      let ftmp := POWER (fft.getD ii czero).r (fft.getD ii czero).i * norm
      (acc.1.set (ii - lobin) ftmp, if ftmp > acc.2 then ftmp else acc.2))
    (fullpows, powmax)

/-- Lines 138-140: `fullpows[0] = 1.0` and the oversampled powers. -/
def fft_fullpows (spread : List fcomplex) (numtosearch : ℕ) (norm : ℚ)
    (fullpows : List ℚ) : List ℚ :=
  (List.range' 1 (numtosearch - 1)).foldl
    (fun fp ii =>
      fp.set ii (POWER (spread.getD ii czero).r (spread.getD ii czero).i * norm))
    (fullpows.set 0 1)

/-- What `search_fft` has computed when the search of the powers starts. -/
structure FftPowers where
  fullpows : List ℚ
  powavg : ℚ
  powvar : ℚ
  powmax : ℚ
  cache : KernelCache

/-- Lines 66-141 of `search_fft`: kernel, spreading, statistics and powers.
`powmax` is the value `*powmax` holds on entry. -/
def search_fft_powers (env : Env) (kc : KernelCache) (fft : List fcomplex)
    (numfft lobin numbetween : ℕ) (interptype : presto_interptype) (norm powmax : ℚ) :
    FftPowers :=
  let numbetween := eff_numbetween interptype numbetween
  let lobin := lobin * numbetween
  let norm := 1 / norm
  let numtosearch := numfft * numbetween
  let numspread := (padfftlen env.r_resp_halfwidth_LOWACC numfft numbetween).1
  let kern_half_width := (padfftlen env.r_resp_halfwidth_LOWACC numfft numbetween).2
  let kc1 :=
    match interptype with
    | .INTERPOLATE => prep_kernel env kc numfft numbetween numspread kern_half_width
    | .INTERBIN => kc
  let spread := spread_stage env kc1.kernel fft numfft numspread numbetween numtosearch
    interptype
  let stats := fft_stats fft lobin numfft norm (List.replicate numtosearch 0) powmax
  let av := env.avg_var stats.1 ((numfft : ℤ) - (lobin : ℤ))
  ⟨fft_fullpows spread numtosearch norm stats.1, av.1, av.2, stats.2, kc1⟩

/-- The candidate list of `search_fft` while the powers are searched: the
array `cands`, its capacity `startnc`, the count `nc` and the threshold
`minpow`. The field `written` is a record kept for the proofs only: every
candidate stored in the last slot, with the threshold it was tested against,
in the order of the stores. -/
structure SearchState where
  cands : List fftcand
  startnc : ℕ
  nc : ℕ
  minpow : ℚ
  written : List (fftcand × ℚ)

/-- The body of `if (fullpows[ii] > minpow) {...}` (lines 147-161, and again
lines 179-193): store position `r` and power `p` in the last slot, percolate,
then the bookkeeping of the dynamic or the fixed mode. -/
def accept_fftcand (dynamic : Bool) (s : SearchState) (r p : ℚ) : SearchState :=
  let newc : fftcand := { s.cands.getD (s.startnc - 1) blank with r := r, p := p }
  let perc := percolate_fftcands (s.cands.set (s.startnc - 1) newc) s.startnc
  let written := s.written ++ [(newc, s.minpow)]
  if dynamic then
    if s.nc = s.startnc then
      { cands := perc.1 ++ List.replicate (s.startnc * 2 - s.nc) blank,
        startnc := s.startnc * 2,
        nc := s.nc + 1,
        minpow := s.minpow,
        written := written }
    else
      { cands := perc.1, startnc := s.startnc, nc := s.nc + 1, minpow := s.minpow,
        written := written }
  else
    { cands := perc.1, startnc := s.startnc,
      nc := if s.nc < s.startnc then s.nc + 1 else s.nc,
      minpow := perc.2,
      written := written }

/-- One iteration of the raw search `for (ii = lobin; ii < numtosearch; ii++)`. -/
def raw_step (dynamic : Bool) (dr : ℚ) (fullpows : List ℚ) (s : SearchState) (ii : ℕ) :
    SearchState :=
  if fullpows.getD ii 0 > s.minpow then
    accept_fftcand dynamic s (dr * (ii : ℚ)) (fullpows.getD ii 0)
  else s

/-- The raw search of lines 145-163. -/
def raw_pass (dynamic : Bool) (dr : ℚ) (fullpows : List ℚ) (lobin numtosearch : ℕ)
    (s : SearchState) : SearchState :=
  (List.range' lobin (numtosearch - lobin)).foldl (raw_step dynamic dr fullpows) s

/-- The value of the loop variable `jj` when the body of the harmonic scan
ends: the growth loop `for (jj=nc; jj<startnc; jj++)` of lines 186-187 runs on
the same variable as the scan, and leaves it at the new capacity. -/
def jj_after (dynamic : Bool) (s : SearchState) (jj : ℕ) : ℕ :=
  if dynamic && decide (s.nc = s.startnc) then
    (if s.nc < s.startnc * 2 then s.startnc * 2 else s.nc)
  else jj

/-- The scan `for (jj = lobin; jj < numtosearch; jj++)` of lines 176-195 for
the harmonic order `ii`, from the current value of `jj`. -/
def harm_inner (dynamic : Bool) (dr : ℚ) (fullpows : List ℚ) (numtosearch ii : ℕ)
    (jj : ℕ) (sumpows : List ℚ) (s : SearchState) : List ℚ × SearchState :=
  if jj < numtosearch then
    let sumpows1 := sumpows.set jj (sumpows.getD jj 0 + fullpows.getD ((jj + ii / 2) / ii) 0)
    if sumpows1.getD jj 0 > s.minpow then
      harm_inner dynamic dr fullpows numtosearch ii (jj_after dynamic s jj + 1) sumpows1
        (accept_fftcand dynamic s (dr * (ii : ℚ)) (sumpows1.getD ii 0))
    else
      harm_inner dynamic dr fullpows numtosearch ii (jj + 1) sumpows1 s
  else (sumpows, s)
termination_by
  (numtosearch - s.startnc + (if s.nc ≤ s.startnc then 1 else 0), numtosearch - jj)
decreasing_by
  all_goals simp_wf
  · rw [Prod.lex_def]
    unfold accept_fftcand jj_after
    cases dynamic <;> by_cases hg : s.nc = s.startnc <;> simp [hg] <;>
      first
        | omega
        | (split_ifs <;> omega)
  · rw [Prod.lex_def]
    right
    exact ⟨rfl, by simp only; omega⟩

/-- One turn of `for (ii = 2; ii <= numharmsum; ii++)` (lines 170-196): the
threshold for the order `ii`, then the scan from `jj = lobin`. -/
def harm_pass (env : Env) (dynamic : Bool) (sigmacutoff : ℚ) (numfft lobin : ℕ) (dr : ℚ)
    (fullpows : List ℚ) (numtosearch : ℕ) (st : List ℚ × SearchState) (ii : ℕ) :
    List ℚ × SearchState :=
  let minpow :=
    if dynamic then env.power_for_sigma sigmacutoff (ii : ℤ) ((numfft : ℤ) - (lobin : ℤ))
    else (st.2.cands.getD (st.2.startnc - 1) blank).p
  harm_inner dynamic dr fullpows numtosearch ii lobin st.1 { st.2 with minpow := minpow }

/-- The harmonic passes for the orders `2, ..., H`, from `sumpows = fullpows`
(the `memcpy` of line 169). -/
def harm_passes (env : Env) (dynamic : Bool) (sigmacutoff : ℚ) (numfft lobin : ℕ) (dr : ℚ)
    (fullpows : List ℚ) (numtosearch H : ℕ) (s : SearchState) : List ℚ × SearchState :=
  (List.range' 2 (H - 1)).foldl
    (harm_pass env dynamic sigmacutoff numfft lobin dr fullpows numtosearch) (fullpows, s)

/-- Lines 73-83 and 143-163 of `search_fft`: the candidate list after the raw
search over the power array `fullpows`. -/
def search_fft_raw (env : Env) (fullpows : List ℚ) (numfft lobin numbetween : ℕ)
    (interptype : presto_interptype) (sigmacutoff : ℚ) (numcands : ℕ) : SearchState :=
  let numbetween := eff_numbetween interptype numbetween
  let lobin := lobin * numbetween
  let dynamic := decide (numcands = 0)
  let startnc := if numcands > 0 then numcands else 10
  let minpow : ℚ :=
    if numcands > 0 then 0
    else env.power_for_sigma sigmacutoff 1 ((numfft : ℤ) - (lobin : ℤ))
  let dr : ℚ := 1 / (numbetween : ℚ)
  let numtosearch := numfft * numbetween
  raw_pass dynamic dr fullpows lobin numtosearch
    ⟨List.replicate startnc blank, startnc, 0, minpow, []⟩

/-- Lines 73-83 and 143-198 of `search_fft`: the candidate list after the raw
search and the harmonic passes over the power array `fullpows`. -/
def search_fft_scan (env : Env) (fullpows : List ℚ) (numfft lobin numharmsum
    numbetween : ℕ) (interptype : presto_interptype) (sigmacutoff : ℚ) (numcands : ℕ) :
    SearchState :=
  let s1 := search_fft_raw env fullpows numfft lobin numbetween interptype sigmacutoff
    numcands
  if numharmsum > 1 then
    (harm_passes env (decide (numcands = 0)) sigmacutoff numfft
      (lobin * eff_numbetween interptype numbetween)
      (1 / ((eff_numbetween interptype numbetween : ℕ) : ℚ)) fullpows
      (numfft * eff_numbetween interptype numbetween) numharmsum s1).2
  else s1

/-- What `search_fft` hands back: the vector returned, the values written
through `numcands`, `powavg`, `powvar`, `powmax`, and the kernel cache left
behind. `capacity` (the final `startnc`) and `written` are kept for the proofs. -/
structure FftResult where
  cands : List fftcand
  numcands : ℕ
  powavg : ℚ
  powvar : ℚ
  powmax : ℚ
  cache : KernelCache
  capacity : ℕ
  written : List (fftcand × ℚ)

/-- Lines 201-211: stamp `nsum`, trim the dynamic array to `nc` slots. -/
def fft_finish (numharmsum numcands : ℕ) (s : SearchState) : List fftcand :=
  let cands := s.cands.map (fun c => { c with nsum := numharmsum })
  if numcands = 0 then cands.take s.nc else cands

/-- The routine `search_fft`. `kc` is the state of its `static` variables on
entry, `numcands` and `powmax` the values `*numcands` and `*powmax` hold on
entry. -/
def search_fft (env : Env) (kc : KernelCache) (fft : List fcomplex) (numfft lobin
    numharmsum numbetween : ℕ) (interptype : presto_interptype) (norm sigmacutoff : ℚ)
    (numcands : ℕ) (powmax : ℚ) : FftResult :=
  let pw := search_fft_powers env kc fft numfft lobin numbetween interptype norm powmax
  let s := search_fft_scan env pw.fullpows numfft lobin numharmsum numbetween interptype
    sigmacutoff numcands
  { cands := fft_finish numharmsum numcands s,
    numcands := s.nc,
    powavg := pw.powavg,
    powvar := pw.powvar,
    powmax := pw.powmax,
    cache := pw.cache,
    capacity := s.startnc,
    written := s.written }

/-! ## `search_minifft` -/

/-- A zero-filled `rawbincand` slot. -/
def rblank : rawbincand := ⟨0, 0, 0, 0, 0, 0, 0, 0, 0, 0⟩

/-- A loop `for (ii = 0; ii < n; ii++) cands[ii] = f(cands[ii])` over the first
`n` slots of an array. -/
def mapFirst {α : Type} (n : ℕ) (f : α → α) (cands : List α) : List α :=
  (cands.take n).map f ++ cands.drop n

/-- Line 304: `numtosearch = (checkaliased == CHECK_ALIASED) ? 2 * fftlen : fftlen`. -/
def mini_numtosearch (checkaliased : presto_checkaliased) (fftlen : ℕ) : ℕ :=
  match checkaliased with
  | .CHECK_ALIASED => 2 * fftlen
  | .NO_CHECK_ALIASED => fftlen

/-- Lines 304-318: the power array `fullpows` of `search_minifft`, of length
`numtosearch`, from the spread buffer. -/
def minifft_fullpows (spread : List fcomplex) (fftlen : ℕ)
    (checkaliased : presto_checkaliased) : List ℚ :=
  match checkaliased with
  | .CHECK_ALIASED =>
    (List.range' 1 (fftlen - 1)).foldl
      (fun fp ii =>
        (fp.set (2 * fftlen - ii) (POWER (spread.getD ii czero).r (spread.getD ii czero).i)).set
          ii (POWER (spread.getD ii czero).r (spread.getD ii czero).i))
      (((List.replicate (2 * fftlen) 0).set 0 1).set fftlen 1)
  | .NO_CHECK_ALIASED =>
    (List.range' 1 (fftlen - 1)).foldl
      (fun fp ii => fp.set ii (POWER (spread.getD ii czero).r (spread.getD ii czero).i))
      ((List.replicate fftlen 0).set 0 1)

/-- Lines 254-319 of `search_minifft`: the power array and the kernel cache
left behind. -/
def search_minifft_powers (env : Env) (kc : KernelCache) (minifft : List fcomplex)
    (numminifft numbetween : ℕ) (interptype : presto_interptype)
    (checkaliased : presto_checkaliased) : List ℚ × KernelCache :=
  let numbetween := eff_numbetween interptype numbetween
  let fftlen := numminifft * numbetween
  let numspread := (padfftlen env.r_resp_halfwidth_LOWACC numminifft numbetween).1
  let kern_half_width := (padfftlen env.r_resp_halfwidth_LOWACC numminifft numbetween).2
  let kc1 :=
    match interptype with
    | .INTERPOLATE => prep_kernel env kc numminifft numbetween numspread kern_half_width
    | .INTERBIN => kc
  let spread := spread_stage env kc1.kernel minifft numminifft numspread numbetween fftlen
    interptype
  (minifft_fullpows spread fftlen checkaliased, kc1)

/-- The candidate array of `search_minifft` while the powers are searched, with
the threshold `minpow`. The field `written` is a record kept for the proofs
only: every candidate stored in the last slot, in the order of the stores. -/
structure MiniState where
  cands : List rawbincand
  minpow : ℚ
  written : List rawbincand

/-- The store of a candidate in the last slot followed by the percolation
(lines 325-330 and 346-351): position, power, number of harmonics and
significance are written to `cands[numcands-1]`, then
`percolate_rawbincands(cands, numcands)` runs. The threshold is left as it is. -/
def store_rawbincand (numcands : ℕ) (s : MiniState) (r power numsum sigma : ℚ) :
    MiniState :=
  let newc : rawbincand :=
    { s.cands.getD (numcands - 1) rblank with
      mini_r := r, mini_power := power, mini_numsum := numsum, mini_sigma := sigma }
  { cands := (percolate_rawbincands (s.cands.set (numcands - 1) newc) numcands).1,
    minpow := s.minpow,
    written := s.written ++ [newc] }

/-- One iteration of the raw search `for (ii = 1; ii < numtosearch; ii++)`
(lines 323-333). -/
def mini_raw_step (env : Env) (dr : ℚ) (fullpows : List ℚ) (numcands : ℕ)
    (s : MiniState) (ii : ℕ) : MiniState :=
  if fullpows.getD ii 0 > s.minpow then
    let s1 := store_rawbincand numcands s (dr * (ii : ℚ)) (fullpows.getD ii 0) 1
      (env.candidate_sigma (fullpows.getD ii 0) 1 1)
    { s1 with minpow := (s1.cands.getD (numcands - 1) rblank).mini_power }
  else s

/-- One iteration of the scan `for (jj = 0; jj < numtosearch; jj++)` for the
harmonic order `ii` (lines 343-355). -/
def mini_harm_step (env : Env) (dr : ℚ) (fullpows : List ℚ) (numcands ii : ℕ)
    (st : List ℚ × MiniState) (jj : ℕ) : List ℚ × MiniState :=
  let sumpows1 := st.1.set jj (st.1.getD jj 0 + fullpows.getD ((jj + ii / 2) / ii) 0)
  if sumpows1.getD jj 0 > st.2.minpow then
    let s1 := store_rawbincand numcands st.2 (dr * (jj : ℚ)) (sumpows1.getD jj 0) (ii : ℚ)
      (env.candidate_sigma (sumpows1.getD jj 0) (ii : ℤ) 1)
    (sumpows1,
      { s1 with
        minpow :=
          env.power_for_sigma (s1.cands.getD (numcands - 1) rblank).mini_sigma (ii : ℤ) 1 })
  else (sumpows1, st.2)

/-- One turn of `for (ii = 2; ii <= numharmsum; ii++)` (lines 340-356). -/
def mini_harm_pass (env : Env) (dr : ℚ) (fullpows : List ℚ) (numcands numtosearch : ℕ)
    (st : List ℚ × MiniState) (ii : ℕ) : List ℚ × MiniState :=
  (List.range numtosearch).foldl (mini_harm_step env dr fullpows numcands ii)
    (st.1,
      { st.2 with
        minpow :=
          env.power_for_sigma (st.2.cands.getD (numcands - 1) rblank).mini_sigma (ii : ℤ) 1 })

/-- The harmonic passes of `search_minifft` for the orders `2, ..., H`, from
`sumpows = fullpows` (the `memcpy` of line 339). -/
def mini_harm_passes (env : Env) (dr : ℚ) (fullpows : List ℚ) (numcands numtosearch H : ℕ)
    (s : MiniState) : List ℚ × MiniState :=
  (List.range' 2 (H - 1)).foldl (mini_harm_pass env dr fullpows numcands numtosearch)
    (fullpows, s)

/-- The raw search of `search_minifft` (lines 265-268 and 323-333) over the
power array `fullpows`: the candidate array reset, then searched. -/
def search_minifft_raw (env : Env) (fullpows : List ℚ) (numtosearch : ℕ)
    (cands : List rawbincand) (numcands numbetween : ℕ) (interptype : presto_interptype) :
    MiniState :=
  let numbetween := eff_numbetween interptype numbetween
  let dr : ℚ := 1 / (numbetween : ℚ)
  let cands0 := mapFirst numcands (fun c => { c with mini_sigma := 0, mini_power := 0 }) cands
  (List.range' 1 (numtosearch - 1)).foldl (mini_raw_step env dr fullpows numcands)
    ⟨cands0, 0, []⟩

/-- Lines 321-358 of `search_minifft`: the raw search and the harmonic
passes over the power array `fullpows` of length `numtosearch`. -/
def search_minifft_scan (env : Env) (fullpows : List ℚ) (numtosearch : ℕ)
    (cands : List rawbincand) (numcands numharmsum numbetween : ℕ)
    (interptype : presto_interptype) : MiniState :=
  let s1 := search_minifft_raw env fullpows numtosearch cands numcands numbetween interptype
  if numharmsum > 1 then
    (mini_harm_passes env (1 / ((eff_numbetween interptype numbetween : ℕ) : ℚ)) fullpows
      numcands numtosearch numharmsum s1).2
  else s1

/-- Lines 363-370: the remaining fields of every slot. -/
def minifft_finish (numminifft fftlen numcands : ℕ) (numfullfft timefullfft
    lorfullfft : ℚ) (cands : List rawbincand) : List rawbincand :=
  mapFirst numcands
    (fun c =>
      { c with
        full_N := numfullfft,
        full_T := timefullfft,
        full_lo_r := lorfullfft,
        mini_N := (fftlen : ℚ),
        psr_p := timefullfft / (lorfullfft + (numminifft : ℚ)),
        orb_p := timefullfft * c.mini_r / (fftlen : ℚ) })
    cands

/-- What `search_minifft` leaves behind: the array `cands` and the kernel
cache. `written` is kept for the proofs. -/
structure MiniResult where
  cands : List rawbincand
  cache : KernelCache
  written : List rawbincand

/-- The routine `search_minifft`. `kc` is the state of its `static` variables
on entry, `cands` the pre-allocated array of the caller. -/
def search_minifft (env : Env) (kc : KernelCache) (minifft : List fcomplex)
    (numminifft : ℕ) (cands : List rawbincand) (numcands numharmsum numbetween : ℕ)
    (numfullfft timefullfft lorfullfft : ℚ) (interptype : presto_interptype)
    (checkaliased : presto_checkaliased) : MiniResult :=
  let pw := search_minifft_powers env kc minifft numminifft numbetween interptype
    checkaliased
  let s := search_minifft_scan env pw.1
    (mini_numtosearch checkaliased (numminifft * eff_numbetween interptype numbetween))
    cands numcands numharmsum numbetween interptype
  { cands := minifft_finish numminifft (numminifft * eff_numbetween interptype numbetween)
      numcands numfullfft timefullfft lorfullfft s.cands,
    cache := pw.2,
    written := s.written }

/-! ## A concrete environment for evaluating the routines -/

/-- A small instance of `Env`: `spread_with_pad` places bin `k` at index
`k * numbetween` of a zero buffer, the correlation leaves the buffer as it is,
and the two significance conversions are the identity on the power. -/
def toyEnv : Env where
  power_for_sigma := fun sigma _ _ => sigma
  candidate_sigma := fun power _ _ => power
  r_resp_halfwidth_LOWACC := 16
  PIBYTWO := 11 / 7
  spread_with_pad := fun fft numfft numspread numbetween =>
    (List.range numspread).map (fun k =>
      if k % numbetween = 0 ∧ k / numbetween < numfft then fft.getD (k / numbetween) czero
      else czero)
  gen_kernel := fun _ _ numspread => List.replicate numspread ⟨1, 0⟩
  complex_corr_conv := fun spread _ _ => spread
  avg_var := fun pows n =>
    let xs := pows.take n.toNat
    (xs.sum / (n : ℚ), (xs.map (fun x => (x - xs.sum / (n : ℚ)) ^ 2)).sum / (n : ℚ))

/-- A short spectrum with a large DC bin, for evaluating the routines. -/
def sampleFft : List fcomplex :=
  [⟨50, 0⟩, ⟨1, 2⟩, ⟨3, 0⟩, ⟨0, 1⟩, ⟨2, 2⟩, ⟨1, 0⟩, ⟨0, 3⟩, ⟨1, 1⟩]

/-- A spectrum of 16 bins whose bins 1, ..., 11 have the powers
`1, 4, ..., 121` and whose bins 12, ..., 15 are empty. -/
def rampFft : List fcomplex :=
  [⟨50, 0⟩, ⟨1, 0⟩, ⟨2, 0⟩, ⟨3, 0⟩, ⟨4, 0⟩, ⟨5, 0⟩, ⟨6, 0⟩, ⟨7, 0⟩, ⟨8, 0⟩, ⟨9, 0⟩,
    ⟨10, 0⟩, ⟨11, 0⟩, ⟨0, 0⟩, ⟨0, 0⟩, ⟨0, 0⟩, ⟨0, 0⟩]

/-- A dynamic candidate list of capacity 10 whose 10 slots hold genuine
entries, of powers `20, 19, ..., 11`. -/
def fullList : SearchState :=
  { cands := [⟨1, 20, 0⟩, ⟨2, 19, 0⟩, ⟨3, 18, 0⟩, ⟨4, 17, 0⟩, ⟨5, 16, 0⟩, ⟨6, 15, 0⟩,
      ⟨7, 14, 0⟩, ⟨8, 13, 0⟩, ⟨9, 12, 0⟩, ⟨10, 11, 0⟩],
    startnc := 10,
    nc := 10,
    minpow := 5,
    written := [] }

/-! ## The harmonic sum, as specified -/

/-- The harmonic sum of order `H` at the index `j` as the specification words
it: the sum over `h = 1, ..., H` of `fullpows[(j + h/2) / h]` (integer
divisions). -/
def harmonic_sum (fullpows : List ℚ) (H j : ℕ) : ℚ :=
  ((List.range' 1 H).map (fun h => fullpows.getD ((j + h / 2) / h) 0)).sum

/-! ## The harmonic scan with a bound on the number of iterations -/

/-- The scan `harm_inner` with a bound `fuel` on the number of iterations:
the same body, `none` when the bound is reached. It serves to evaluate the
scan on concrete inputs; `harm_inner_of_fuel` shows that its result is the
result of `harm_inner`. -/
def harm_inner_fuel (dynamic : Bool) (dr : ℚ) (fullpows : List ℚ) (numtosearch ii : ℕ) :
    ℕ → ℕ → List ℚ → SearchState → Option (List ℚ × SearchState)
  | 0, _, _, _ => none
  | fuel + 1, jj, sumpows, s =>
    if jj < numtosearch then
      if (sumpows.set jj (sumpows.getD jj 0 + fullpows.getD ((jj + ii / 2) / ii) 0)).getD jj 0
          > s.minpow then
        harm_inner_fuel dynamic dr fullpows numtosearch ii fuel (jj_after dynamic s jj + 1)
          (sumpows.set jj (sumpows.getD jj 0 + fullpows.getD ((jj + ii / 2) / ii) 0))
          (accept_fftcand dynamic s (dr * (ii : ℚ))
            ((sumpows.set jj
              (sumpows.getD jj 0 + fullpows.getD ((jj + ii / 2) / ii) 0)).getD ii 0))
      else
        harm_inner_fuel dynamic dr fullpows numtosearch ii fuel (jj + 1)
          (sumpows.set jj (sumpows.getD jj 0 + fullpows.getD ((jj + ii / 2) / ii) 0)) s
    else some (sumpows, s)

/-- The harmonic passes over the orders `orders`, each scan bounded by `fuel`. -/
def harm_passes_fuel (env : Env) (dynamic : Bool) (sigmacutoff : ℚ) (numfft lobin : ℕ)
    (dr : ℚ) (fullpows : List ℚ) (numtosearch fuel : ℕ) :
    List ℕ → List ℚ × SearchState → Option (List ℚ × SearchState)
  | [], st => some st
  | ii :: orders, st =>
    match harm_inner_fuel dynamic dr fullpows numtosearch ii fuel lobin st.1
        { st.2 with
          minpow :=
            if dynamic then
              env.power_for_sigma sigmacutoff (ii : ℤ) ((numfft : ℤ) - (lobin : ℤ))
            else (st.2.cands.getD (st.2.startnc - 1) blank).p } with
    | none => none
    | some st1 =>
      harm_passes_fuel env dynamic sigmacutoff numfft lobin dr fullpows numtosearch fuel
        orders st1

/-- A spectrum of 8 bins whose bins 1, 2, 3 have the powers 1, 9, 16 and whose
other bins (the DC bin apart) are empty. -/
def stepFft : List fcomplex :=
  [⟨50, 0⟩, ⟨1, 0⟩, ⟨3, 0⟩, ⟨4, 0⟩, ⟨0, 0⟩, ⟨0, 0⟩, ⟨0, 0⟩, ⟨0, 0⟩]

/-- Non-increasing order of significance over all slots of an array of binary
candidates. -/
def sortedBySigma (cands : List rawbincand) : Prop :=
  cands.Pairwise (fun a b => b.mini_sigma ≤ a.mini_sigma)

instance (cands : List rawbincand) : Decidable (sortedBySigma cands) := by
  unfold sortedBySigma; infer_instance

/-- The oversampled powers of the first four bins of `stepFft`. -/
def stepPows : List ℚ := [1, 0, 1, 0, 9, 0, 16, 0]

/-- A fixed candidate list of 2 slots holding the powers 16 and 9, with the
threshold 9. -/
def pairList : SearchState :=
  { cands := [⟨3, 16, 0⟩, ⟨2, 9, 0⟩], startnc := 2, nc := 2, minpow := 9, written := [] }

/-! ## Double precision

The test `fabs(list[ii].mini_r - newcand.mini_r) < 0.6` of
`not_already_there_rawbin` is decided by the rounding of one subtraction and
by the value of the constant `0.6` as a `double`. The definitions below are
those of IEEE 754 binary64 with rounding to nearest, ties to even: 53
significant bits, least normal exponent `-1022`, subnormal numbers the
multiples of `2^-1074`. The exponent is not bounded above: a result beyond
the range of `double`, which C holds as an infinity, is here a number larger
than every `double`, and compares in the same way. -/

/-- The integer logarithm `⌊log₂ n⌋` of `n ≥ 1` by repeated halving; `fuel`
bounds the number of halvings. -/
def log2_fuel : ℕ → ℕ → ℕ
  | 0, _ => 0
  | fuel + 1, n => if 2 ≤ n then log2_fuel fuel (n / 2) + 1 else 0

/-- The integer logarithm `⌊log₂ n⌋` of `n ≥ 1`. -/
def ilog2 (n : ℕ) : ℕ := log2_fuel n n

/-- The nearest integer, a tie going to the even neighbour. -/
def round_half_even (q : ℚ) : ℤ :=
  if q - ⌊q⌋ < 1 / 2 then ⌊q⌋
  else if 1 / 2 < q - ⌊q⌋ then ⌊q⌋ + 1
  else if ⌊q⌋ % 2 = 0 then ⌊q⌋ else ⌊q⌋ + 1

/-- The binade of a positive rational: the exponent `e` with
`2^e ≤ q < 2^(e+1)`. -/
def binade (q : ℚ) : ℤ :=
  if q < (2 : ℚ) ^ ((ilog2 q.num.natAbs : ℤ) - (ilog2 q.den : ℤ)) then
    (ilog2 q.num.natAbs : ℤ) - (ilog2 q.den : ℤ) - 1
  else (ilog2 q.num.natAbs : ℤ) - (ilog2 q.den : ℤ)

/-- The `double` nearest to a non-negative rational: the multiple of the unit
in the last place `2^(e - 52)`, `e` the binade (at least `-1022`), nearest to
it, ties to even. -/
def round_nonneg (q : ℚ) : ℚ :=
  (round_half_even (q / (2 : ℚ) ^ (max (binade q) (-1022) - 52)) : ℚ)
    * (2 : ℚ) ^ (max (binade q) (-1022) - 52)

/-- The `double` nearest to a rational (rounding to nearest, ties to even):
the value a `double` variable holds when the rational is stored in it, and
the value of a decimal constant of the source. -/
def round_double (q : ℚ) : ℚ :=
  if q < 0 then - round_nonneg (-q) else round_nonneg q

/-- The subtraction `a - b` of two `double` operands in C: the exact
difference of the two doubles, rounded to the nearest `double`. The operands
are read as the doubles that hold the values `a` and `b`. -/
def double_sub (a b : ℚ) : ℚ := round_double (round_double a - round_double b)

/-- The constant `0.6` of line 481, a `double`. -/
def double_0_6 : ℚ := round_double (6 / 10)

/-! ## `not_already_there_rawbin` -/

/-- The loop `for (ii = 0; ii < nlist; ii++)` of `not_already_there_rawbin`
over the slots still to be looked at: `break` (and `return 1`) at the first
slot with `mini_sigma == 0.0`, `return 0` at a slot with the same `mini_N`,
a position closer than 0.6 (the test
`fabs(list[ii].mini_r - newcand.mini_r) < 0.6` in double arithmetic) and a
larger significance, `return 1` when the slots are used up. -/
def not_already_there_loop (newcand : rawbincand) : List rawbincand → ℕ
  | [] => 1
  | c :: rest =>
    if c.mini_sigma = 0 then 1
    else if c.mini_N = newcand.mini_N then
      if |double_sub c.mini_r newcand.mini_r| < double_0_6 then
        if c.mini_sigma > newcand.mini_sigma then 0
        else not_already_there_loop newcand rest
      else not_already_there_loop newcand rest
    else not_already_there_loop newcand rest

/-- The routine `not_already_there_rawbin(newcand, list, nlist)`: the value
returned and the array `list` when it returns (the body has no store to it). -/
def not_already_there_rawbin (newcand : rawbincand) (list : List rawbincand) (nlist : ℕ) :
    ℕ × List rawbincand :=
  (not_already_there_loop newcand (list.take nlist), list)

/-! # Theorems -/

/-! ## Percolation: lemmas -/

theorem getElem?_append_cons_length {α : Type} (A B : List α) (a : α) :
    (A ++ a :: B)[A.length]? = some a := by
  rw [List.getElem?_append_right (le_refl _)]; simp

theorem getElem?_append_cons_cons_length {α : Type} (A B : List α) (a x : α) :
    (A ++ a :: x :: B)[A.length + 1]? = some x := by
  rw [List.getElem?_append_right (by omega)]; simp

theorem swapAdj_append {α : Type} (A B : List α) (a x : α) :
    swapAdj (A ++ a :: x :: B) A.length = A ++ x :: a :: B := by
  unfold swapAdj
  rw [getElem?_append_cons_length, getElem?_append_cons_cons_length]
  simp [List.set_append]

/-- Closed form of the percolation loop: the candidate `x` standing behind the
slots `A` moves in front of the longest run of slots at the end of `A` whose
metric is strictly smaller than its own. -/
theorem percolateLoop_append {α : Type} (key : α → ℚ) (x : α) (A : List α) :
    ∀ B : List α, percolateLoop key A.length (A ++ x :: B)
      = A.rdropWhile (fun a => decide (key a < key x)) ++ x ::
          (A.rtakeWhile (fun a => decide (key a < key x)) ++ B) := by
  induction A using List.reverseRecOn with
  | nil => intro B; simp [percolateLoop]
  | append_singleton A a ih =>
    intro B
    have e : A ++ [a] ++ x :: B = A ++ a :: x :: B := by simp
    rw [List.length_append, List.length_singleton, percolateLoop, e]
    simp only [getElem?_append_cons_length, getElem?_append_cons_cons_length]
    by_cases h : key a < key x
    · rw [if_pos h, swapAdj_append, ih]
      rw [List.rdropWhile_concat_pos _ _ _ (by simpa using h),
        List.rtakeWhile_concat_pos _ _ _ (by simpa using h)]
      simp
    · rw [if_neg h]
      rw [List.rdropWhile_concat_neg _ _ _ (by simpa using h),
        List.rtakeWhile_concat_neg _ _ _ (by simpa using h)]
      simp

theorem rdropWhile_append_rtakeWhile {α : Type} (q : α → Bool) (A : List α) :
    A.rdropWhile q ++ A.rtakeWhile q = A := by
  unfold List.rdropWhile List.rtakeWhile
  rw [← List.reverse_append, List.takeWhile_append_dropWhile, List.reverse_reverse]

/-- In a list in non-increasing order of `key`, what `rdropWhile` keeps has a
metric at least that of `x`. -/
theorem le_of_mem_rdropWhile {α : Type} (key : α → ℚ) (x : α) (A : List α)
    (hA : A.Pairwise (fun a b => key b ≤ key a)) :
    ∀ d ∈ A.rdropWhile (fun a => decide (key a < key x)), key x ≤ key d := by
  induction A using List.reverseRecOn with
  | nil => simp
  | append_singleton A a ih =>
    rw [List.pairwise_append] at hA
    by_cases h : key a < key x
    · rw [List.rdropWhile_concat_pos _ _ _ (by simpa using h)]
      exact ih hA.1
    · rw [List.rdropWhile_concat_neg _ _ _ (by simpa using h)]
      intro d hd
      rcases List.mem_append.1 hd with hd | hd
      · exact le_trans (not_lt.1 h) (hA.2.2 d hd a (by simp))
      · rw [List.mem_singleton.1 hd]; exact not_lt.1 h

theorem lt_of_mem_rtakeWhile {α : Type} (key : α → ℚ) (x : α) (A : List α) :
    ∀ t ∈ A.rtakeWhile (fun a => decide (key a < key x)), key t < key x := by
  intro t ht
  simpa using List.mem_rtakeWhile_imp ht

/-- Percolating `x` behind a list in non-increasing order of `key` gives a list
in non-increasing order. -/
theorem percolated_pairwise {α : Type} (key : α → ℚ) (x : α) (A : List α)
    (hA : A.Pairwise (fun a b => key b ≤ key a)) :
    (A.rdropWhile (fun a => decide (key a < key x)) ++ x ::
      A.rtakeWhile (fun a => decide (key a < key x))).Pairwise
        (fun a b => key b ≤ key a) := by
  have hsplit := rdropWhile_append_rtakeWhile (fun a => decide (key a < key x)) A
  have hA2 := hA
  rw [← hsplit, List.pairwise_append] at hA2
  rw [List.pairwise_append]
  refine ⟨hA2.1, ?_, ?_⟩
  · rw [List.pairwise_cons]
    exact ⟨fun t ht => le_of_lt (lt_of_mem_rtakeWhile key x A t ht), hA2.2.1⟩
  · intro d hd b hb
    rcases List.mem_cons.1 hb with hb | hb
    · rw [hb]; exact le_of_mem_rdropWhile key x A hA d hd
    · exact hA2.2.2 d hd b hb

theorem percolated_perm {α : Type} (q : α → Bool) (x : α) (A : List α) :
    (A.rdropWhile q ++ x :: A.rtakeWhile q).Perm (A ++ [x]) := by
  have h1 : (A.rdropWhile q ++ x :: A.rtakeWhile q).Perm
      (A.rdropWhile q ++ (A.rtakeWhile q ++ [x])) :=
    List.Perm.append_left _ (by
      rw [← List.singleton_append]; exact List.perm_append_comm)
  rw [← List.append_assoc, rdropWhile_append_rtakeWhile] at h1
  exact h1

/-- An array of length `n ≥ 1` is its first `n - 1` slots followed by its last
slot. -/
theorem eq_take_append_last {α : Type} (cands : List α) (n : ℕ) (hn : 1 ≤ n)
    (hlen : cands.length = n) :
    ∃ x, cands = cands.take (n - 1) ++ [x] ∧ (cands.take (n - 1)).length = n - 1 := by
  have hne : cands ≠ [] := by
    intro h; rw [h] at hlen; simp at hlen; omega
  refine ⟨cands.getLast hne, ?_, ?_⟩
  · have := List.dropLast_append_getLast hne
    rw [List.dropLast_eq_take] at this
    rw [← hlen]; exact this.symm
  · rw [List.length_take]; omega

/-- The percolation loop over a whole array, in closed form. -/
theorem percolateLoop_full {α : Type} (key : α → ℚ) (A : List α) (x : α) :
    percolateLoop key A.length (A ++ [x])
      = A.rdropWhile (fun a => decide (key a < key x)) ++ x ::
          A.rtakeWhile (fun a => decide (key a < key x)) := by
  have := percolateLoop_append key x A []
  simpa using this

/-- In a list in non-increasing order the last slot holds the least metric. -/
theorem last_le_of_pairwise {α : Type} (key : α → ℚ) (l : List α)
    (hl : l.Pairwise (fun a b => key b ≤ key a)) (z : α)
    (hz : l[l.length - 1]? = some z) : ∀ c ∈ l, key z ≤ key c := by
  intro c hc
  obtain ⟨i, hi, rfl⟩ := List.getElem_of_mem hc
  rw [List.getElem?_eq_some] at hz
  obtain ⟨hlt, hz⟩ := hz
  rcases Nat.lt_or_ge i (l.length - 1) with h | h
  · rw [← hz]
    exact List.pairwise_iff_getElem.1 hl i (l.length - 1) hi hlt h
  · have : i = l.length - 1 := by omega
    subst this
    rw [hz]

theorem percolate_fftcands_snd (cands : List fftcand) (n : ℕ) :
    (percolate_fftcands cands n).2
      = match (percolate_fftcands cands n).1[n - 1]? with
        | some c => c.p
        | none => 0 := rfl

/-- What `percolate_fftcands` does to an array `A ++ [x]` whose slots `A` are in
non-increasing order of power. -/
theorem percolate_fftcands_append (A : List fftcand) (x : fftcand)
    (hA : sortedByPower A) :
    sortedByPower (percolate_fftcands (A ++ [x]) (A.length + 1)).1 ∧
    (percolate_fftcands (A ++ [x]) (A.length + 1)).1.Perm (A ++ [x]) ∧
    (∃ z, (percolate_fftcands (A ++ [x]) (A.length + 1)).1[A.length]? = some z ∧
      (percolate_fftcands (A ++ [x]) (A.length + 1)).2 = z.p) := by
  have hloop := percolateLoop_full (fun c : fftcand => c.p) A x
  have hperm := percolated_perm (fun a : fftcand => decide (a.p < x.p)) x A
  have hres : (percolate_fftcands (A ++ [x]) (A.length + 1)).1
      = A.rdropWhile (fun a => decide (a.p < x.p)) ++ x ::
          A.rtakeWhile (fun a => decide (a.p < x.p)) := by
    simp only [percolate_fftcands, Nat.add_sub_cancel]
    exact hloop
  refine ⟨?_, ?_, ?_⟩
  · rw [hres]; exact percolated_pairwise (fun c : fftcand => c.p) x A hA
  · rw [hres]; exact hperm
  · have hlen : (percolate_fftcands (A ++ [x]) (A.length + 1)).1.length = A.length + 1 := by
      rw [hres, hperm.length_eq]; simp
    have hlt : A.length < (percolate_fftcands (A ++ [x]) (A.length + 1)).1.length := by
      omega
    have hz := List.getElem?_eq_getElem hlt
    refine ⟨_, hz, ?_⟩
    rw [percolate_fftcands_snd]
    simp only [Nat.add_sub_cancel]
    rw [hz]

/-! ## C1 -/

/-- C1: for an `fftcand` array of length `n ≥ 1` whose first `n - 1` slots are
in non-increasing order of power, `percolate_fftcands(cands, n)` leaves the
whole array in non-increasing order of power, the result is a permutation of
the input, and the value returned is the power of the last slot, which is the
least power in the array. -/
theorem percolate_fftcands_sorted_perm_min (cands : List fftcand) (n : ℕ) (hn : 1 ≤ n)
    (hlen : cands.length = n) (hsorted : sortedByPower (cands.take (n - 1))) :
    sortedByPower (percolate_fftcands cands n).1 ∧
    (percolate_fftcands cands n).1.Perm cands ∧
    (∃ z, (percolate_fftcands cands n).1[n - 1]? = some z ∧
      (percolate_fftcands cands n).2 = z.p) ∧
    (∀ c ∈ (percolate_fftcands cands n).1, (percolate_fftcands cands n).2 ≤ c.p) := by
  obtain ⟨x, hx, hA⟩ := eq_take_append_last cands n hn hlen
  have hn1 : n = (cands.take (n - 1)).length + 1 := by omega
  have key := percolate_fftcands_append (cands.take (n - 1)) x hsorted
  rw [← hx, ← hn1] at key
  rw [hA] at key
  obtain ⟨h1, h2, z, hz, hret⟩ := key
  refine ⟨h1, h2, ⟨z, hz, hret⟩, ?_⟩
  rw [hret]
  have hl : (percolate_fftcands cands n).1.length = n := by rw [h2.length_eq, hlen]
  exact last_le_of_pairwise (fun c : fftcand => c.p) _ h1 z (by rw [hl]; exact hz)

/-- C1, the example of the specification: the list of powers
`[10, 8, 6, 4, 2]` with its last slot overwritten by a candidate of power 7
becomes `[10, 8, 7, 6, 4]` and 4 is returned. -/
theorem percolate_fftcands_sorted_perm_min_witness :
    percolate_fftcands [⟨1, 10, 1⟩, ⟨2, 8, 1⟩, ⟨3, 6, 1⟩, ⟨4, 4, 1⟩, ⟨5, 7, 1⟩] 5
      = ([⟨1, 10, 1⟩, ⟨2, 8, 1⟩, ⟨5, 7, 1⟩, ⟨3, 6, 1⟩, ⟨4, 4, 1⟩], 4) ∧
    sortedByPower
      (percolate_fftcands [⟨1, 10, 1⟩, ⟨2, 8, 1⟩, ⟨3, 6, 1⟩, ⟨4, 4, 1⟩, ⟨5, 7, 1⟩] 5).1 ∧
    (percolate_fftcands [⟨1, 10, 1⟩, ⟨2, 8, 1⟩, ⟨3, 6, 1⟩, ⟨4, 4, 1⟩, ⟨5, 7, 1⟩] 5).1.Perm
      [⟨1, 10, 1⟩, ⟨2, 8, 1⟩, ⟨3, 6, 1⟩, ⟨4, 4, 1⟩, ⟨5, 7, 1⟩] :=
  ⟨by decide,
    (percolate_fftcands_sorted_perm_min
      [⟨1, 10, 1⟩, ⟨2, 8, 1⟩, ⟨3, 6, 1⟩, ⟨4, 4, 1⟩, ⟨5, 7, 1⟩] 5 (by decide) (by decide)
      (by decide)).1,
    (percolate_fftcands_sorted_perm_min
      [⟨1, 10, 1⟩, ⟨2, 8, 1⟩, ⟨3, 6, 1⟩, ⟨4, 4, 1⟩, ⟨5, 7, 1⟩] 5 (by decide) (by decide)
      (by decide)).2.1⟩

/-! ## C9, C10: `padfftlen` -/

theorem padfftlen_fst (W minifftlen numbetween : ℕ) :
    (padfftlen W minifftlen numbetween).1
      = if padfftlen_newlen W minifftlen numbetween ≤ 144 then
          padfftlen_newlen W minifftlen numbetween
        else if padfftlen_newlen W minifftlen numbetween ≤ 288 then 288
        else if padfftlen_newlen W minifftlen numbetween ≤ 540 then 540
        else if padfftlen_newlen W minifftlen numbetween ≤ 1080 then 1080
        else if padfftlen_newlen W minifftlen numbetween ≤ 2100 then 2100
        else if padfftlen_newlen W minifftlen numbetween ≤ 4200 then 4200
        else if padfftlen_newlen W minifftlen numbetween ≤ 8232 then 8232
        else if padfftlen_newlen W minifftlen numbetween ≤ 16464 then 16464
        else if padfftlen_newlen W minifftlen numbetween ≤ 32805 then 32805
        else if padfftlen_newlen W minifftlen numbetween ≤ 65610 then 65610
        else if padfftlen_newlen W minifftlen numbetween ≤ 131220 then 131220
        else if padfftlen_newlen W minifftlen numbetween ≤ 262440 then 262440
        else if padfftlen_newlen W minifftlen numbetween ≤ 525000 then 525000
        else if padfftlen_newlen W minifftlen numbetween ≤ 1050000 then 1050000
        else (padfftlen_newlen W minifftlen numbetween + 1000) / 1000 * 1000 := rfl

/-- The steps of the ladder: each entry with the next one. -/
theorem ladder_steps :
    ladder.zip ladder.tail
      = [(144, 288), (288, 540), (540, 1080), (1080, 2100), (2100, 4200), (4200, 8232), (8232, 16464), (16464, 32805), (32805, 65610), (65610, 131220), (131220, 262440), (262440, 525000), (525000, 1050000)] := by
  decide

/-- Above 144 and up to 1050000, `padfftlen` returns the upper end `b` of the
step `a < newlen ≤ b` of the ladder in which the requirement lies. -/
theorem padfftlen_fst_step (W minifftlen numbetween : ℕ)
    (hlo : 144 < padfftlen_newlen W minifftlen numbetween)
    (hhi : padfftlen_newlen W minifftlen numbetween ≤ 1050000) :
    ∃ a b, (a, b) ∈ ladder.zip ladder.tail ∧ a < padfftlen_newlen W minifftlen numbetween ∧
      padfftlen_newlen W minifftlen numbetween ≤ b ∧
      (padfftlen W minifftlen numbetween).1 = b := by
  rw [padfftlen_fst, ladder_steps]
  generalize padfftlen_newlen W minifftlen numbetween = newlen at hlo hhi ⊢
  rw [if_neg (not_le.2 hlo)]
  by_cases h1 : newlen ≤ 288
  · rw [if_pos h1]; exact ⟨144, 288, by decide, by omega, h1, rfl⟩
  rw [if_neg h1]
  by_cases h2 : newlen ≤ 540
  · rw [if_pos h2]; exact ⟨288, 540, by decide, by omega, h2, rfl⟩
  rw [if_neg h2]
  by_cases h3 : newlen ≤ 1080
  · rw [if_pos h3]; exact ⟨540, 1080, by decide, by omega, h3, rfl⟩
  rw [if_neg h3]
  by_cases h4 : newlen ≤ 2100
  · rw [if_pos h4]; exact ⟨1080, 2100, by decide, by omega, h4, rfl⟩
  rw [if_neg h4]
  by_cases h5 : newlen ≤ 4200
  · rw [if_pos h5]; exact ⟨2100, 4200, by decide, by omega, h5, rfl⟩
  rw [if_neg h5]
  by_cases h6 : newlen ≤ 8232
  · rw [if_pos h6]; exact ⟨4200, 8232, by decide, by omega, h6, rfl⟩
  rw [if_neg h6]
  by_cases h7 : newlen ≤ 16464
  · rw [if_pos h7]; exact ⟨8232, 16464, by decide, by omega, h7, rfl⟩
  rw [if_neg h7]
  by_cases h8 : newlen ≤ 32805
  · rw [if_pos h8]; exact ⟨16464, 32805, by decide, by omega, h8, rfl⟩
  rw [if_neg h8]
  by_cases h9 : newlen ≤ 65610
  · rw [if_pos h9]; exact ⟨32805, 65610, by decide, by omega, h9, rfl⟩
  rw [if_neg h9]
  by_cases h10 : newlen ≤ 131220
  · rw [if_pos h10]; exact ⟨65610, 131220, by decide, by omega, h10, rfl⟩
  rw [if_neg h10]
  by_cases h11 : newlen ≤ 262440
  · rw [if_pos h11]; exact ⟨131220, 262440, by decide, by omega, h11, rfl⟩
  rw [if_neg h11]
  by_cases h12 : newlen ≤ 525000
  · rw [if_pos h12]; exact ⟨262440, 525000, by decide, by omega, h12, rfl⟩
  rw [if_neg h12]
  rw [if_pos hhi]; exact ⟨525000, 1050000, by decide, by omega, hhi, rfl⟩


/-- C9, as stated, fails: for length 32, oversampling 2 and half-width 16 the
requirement is `newlen = 72 ≤ 1050000`, and `padfftlen` returns 72, which is
not an entry of the ladder. -/
theorem padfftlen_below_ladder :
    padfftlen_newlen 16 32 2 = 72 ∧ padfftlen_newlen 16 32 2 ≤ 1050000 ∧
    (padfftlen 16 32 2).1 = 72 ∧ (padfftlen 16 32 2).1 ∉ ladder := by
  decide

/-- C9, amended: when the requirement `newlen = (minifftlen + pad) * numbetween`
is below 144, `padfftlen` returns `newlen` itself; when
`144 ≤ newlen ≤ 1050000` it returns an entry of the ladder, namely the smallest
entry that is at least `newlen`. -/
theorem padfftlen_rounds_up (W minifftlen numbetween : ℕ) :
    (padfftlen_newlen W minifftlen numbetween < 144 →
      (padfftlen W minifftlen numbetween).1 = padfftlen_newlen W minifftlen numbetween) ∧
    (144 ≤ padfftlen_newlen W minifftlen numbetween →
      padfftlen_newlen W minifftlen numbetween ≤ 1050000 →
      (padfftlen W minifftlen numbetween).1 ∈ ladder ∧
      padfftlen_newlen W minifftlen numbetween ≤ (padfftlen W minifftlen numbetween).1 ∧
      ∀ L ∈ ladder, padfftlen_newlen W minifftlen numbetween ≤ L →
        (padfftlen W minifftlen numbetween).1 ≤ L) := by
  constructor
  · intro h
    rw [padfftlen_fst, if_pos (by omega)]
  · intro hlo hhi
    rcases Nat.eq_or_lt_of_le hlo with h144 | h144
    · rw [padfftlen_fst, ← h144]
      refine ⟨by decide, by decide, ?_⟩
      intro L hL _
      simp only [ladder, List.mem_cons, List.mem_singleton, List.mem_nil_iff, or_false] at hL
      rw [if_pos (le_refl _)]
      omega
    · obtain ⟨a, b, hab, ha, hb, hres⟩ := padfftlen_fst_step W minifftlen numbetween h144 hhi
      rw [hres]
      rw [ladder_steps] at hab
      simp only [List.mem_cons, List.mem_singleton, List.mem_nil_iff, or_false,
        Prod.mk.injEq] at hab
      refine ⟨?_, hb, ?_⟩
      · rcases hab with h | h | h | h | h | h | h | h | h | h | h | h | h <;>
          (rw [h.2]; decide)
      · intro L hL hle
        simp only [ladder, List.mem_cons, List.mem_singleton, List.mem_nil_iff, or_false]
          at hL
        omega

/-- C9, the example of the specification: length 1024, oversampling 2 and a
half-width of 128 give the pad 128, the requirement 2304 and the length 4200. -/
theorem padfftlen_rounds_up_witness :
    padfftlen_newlen 128 1024 2 = 2304 ∧ padfftlen 128 1024 2 = (4200, 128) ∧
    (padfftlen 128 1024 2).1 ∈ ladder ∧
    (∀ L ∈ ladder, padfftlen_newlen 128 1024 2 ≤ L → (padfftlen 128 1024 2).1 ≤ L) :=
  ⟨by decide, by decide,
    ((padfftlen_rounds_up 128 1024 2).2 (by decide) (by decide)).1,
    ((padfftlen_rounds_up 128 1024 2).2 (by decide) (by decide)).2.2⟩

/-- C10: the pad `padfftlen` reports is the smaller of `minifftlen / 8` and
`W * (numbetween / 2)` (integer divisions), `W` being the low-accuracy
half-width; it never exceeds `minifftlen / 8`; and for length 1024,
oversampling 2 and `W ≥ 128` it is 128. -/
theorem padfftlen_pad (W minifftlen numbetween : ℕ) :
    (padfftlen W minifftlen numbetween).2 = min (minifftlen / 8) (W * (numbetween / 2)) ∧
    (padfftlen W minifftlen numbetween).2 ≤ minifftlen / 8 ∧
    (128 ≤ W → (padfftlen W 1024 2).2 = 128) := by
  have h : ∀ m nb : ℕ, (padfftlen W m nb).2 = min (m / 8) (W * (nb / 2)) := by
    intro m nb
    show (if m / 8 > W * (nb / 2) then W * (nb / 2) else m / 8) = _
    split_ifs with hc
    · exact (min_eq_right (le_of_lt hc)).symm
    · exact (min_eq_left (not_lt.1 hc)).symm
  refine ⟨h _ _, ?_, ?_⟩
  · rw [h]; exact min_le_left _ _
  · intro hW
    rw [h, Nat.min_def]
    split_ifs <;> omega

/-- C10 at the half-width 128 and at the half-width 16 of a run with length
1024: the pads are 128 and 16. -/
theorem padfftlen_pad_witness :
    (padfftlen 128 1024 2).2 = 128 ∧ (padfftlen 16 1024 2).2 = 16 ∧
    (padfftlen 16 1024 2).2 ≤ 1024 / 8 :=
  ⟨(padfftlen_pad 128 1024 2).2.2 (by decide), by decide, (padfftlen_pad 16 1024 2).2.1⟩

/-! ## `search_fft`: invariants of the scan -/

theorem getD_of_forall_mem {Q : ℚ → Prop} (l : List ℚ) (i : ℕ) (h0 : Q 0)
    (hl : ∀ x ∈ l, Q x) : Q (l.getD i 0) := by
  rw [List.getD_eq_getElem?_getD]
  cases h : l[i]? with
  | none => simpa using h0
  | some v => simpa using hl v (List.getElem?_mem h)

theorem forall_mem_set {Q : ℚ → Prop} (l : List ℚ) (i : ℕ) (v : ℚ) (hv : Q v)
    (hl : ∀ x ∈ l, Q x) : ∀ x ∈ l.set i v, Q x := by
  intro x hx
  rcases List.mem_or_eq_of_mem_set hx with h | h
  · exact hl x h
  · rw [h]; exact hv

/-- An invariant of the candidate list that every store keeps (for powers in
the class `Q`) and that does not look at the threshold is kept by the raw
search. -/
theorem raw_pass_inv (Inv : SearchState → Prop) (Q : ℚ → Prop) (dynamic : Bool)
    (hacc : ∀ s r p, Inv s → Q p → Inv (accept_fftcand dynamic s r p))
    (h0 : Q 0) (dr : ℚ) (fullpows : List ℚ) (hfull : ∀ x ∈ fullpows, Q x)
    (lobin numtosearch : ℕ) (s : SearchState) (hs : Inv s) :
    Inv (raw_pass dynamic dr fullpows lobin numtosearch s) := by
  unfold raw_pass
  generalize List.range' lobin (numtosearch - lobin) = idx
  induction idx generalizing s with
  | nil => exact hs
  | cons ii idx ih =>
    rw [List.foldl_cons]
    apply ih
    unfold raw_step
    split_ifs
    · exact hacc _ _ _ hs (getD_of_forall_mem fullpows ii h0 hfull)
    · exact hs

/-- The same for one scan of a harmonic pass, which keeps the sums in `Q`. -/
theorem harm_inner_inv (Inv : SearchState → Prop) (Q : ℚ → Prop) (dynamic : Bool)
    (hacc : ∀ s r p, Inv s → Q p → Inv (accept_fftcand dynamic s r p))
    (h0 : Q 0) (hadd : ∀ a b, Q a → Q b → Q (a + b)) (dr : ℚ) (fullpows : List ℚ)
    (hfull : ∀ x ∈ fullpows, Q x) (numtosearch ii jj : ℕ) (sumpows : List ℚ)
    (s : SearchState) (hsum : ∀ x ∈ sumpows, Q x) (hs : Inv s) :
    (∀ x ∈ (harm_inner dynamic dr fullpows numtosearch ii jj sumpows s).1, Q x) ∧
    Inv (harm_inner dynamic dr fullpows numtosearch ii jj sumpows s).2 := by
  induction jj, sumpows, s using harm_inner.induct dynamic dr fullpows numtosearch ii with
  | case1 jj sumpows s hlt sumpows1 hgt ih =>
    rw [harm_inner, if_pos hlt]
    simp only []
    rw [if_pos hgt]
    have h1 : ∀ x ∈ sumpows1, Q x :=
      forall_mem_set _ _ _ (hadd _ _ (getD_of_forall_mem _ _ h0 hsum)
        (getD_of_forall_mem _ _ h0 hfull)) hsum
    exact ih h1 (hacc _ _ _ hs (getD_of_forall_mem _ _ h0 h1))
  | case2 jj sumpows s hlt sumpows1 hgt ih =>
    rw [harm_inner, if_pos hlt]
    simp only []
    rw [if_neg hgt]
    have h1 : ∀ x ∈ sumpows1, Q x :=
      forall_mem_set _ _ _ (hadd _ _ (getD_of_forall_mem _ _ h0 hsum)
        (getD_of_forall_mem _ _ h0 hfull)) hsum
    exact ih h1 hs
  | case3 jj sumpows s hlt =>
    rw [harm_inner, if_neg hlt]
    exact ⟨hsum, hs⟩

/-- The same for the harmonic passes `2, ..., H`. -/
theorem harm_passes_inv (Inv : SearchState → Prop) (Q : ℚ → Prop) (env : Env)
    (dynamic : Bool)
    (hacc : ∀ s r p, Inv s → Q p → Inv (accept_fftcand dynamic s r p))
    (hmin : ∀ s m, Inv s → Inv { s with minpow := m })
    (h0 : Q 0) (hadd : ∀ a b, Q a → Q b → Q (a + b)) (sigmacutoff : ℚ) (numfft lobin : ℕ)
    (dr : ℚ) (fullpows : List ℚ) (hfull : ∀ x ∈ fullpows, Q x) (numtosearch H : ℕ)
    (s : SearchState) (hs : Inv s) :
    Inv (harm_passes env dynamic sigmacutoff numfft lobin dr fullpows numtosearch H s).2 := by
  unfold harm_passes
  generalize List.range' 2 (H - 1) = orders
  have key : ∀ (st : List ℚ × SearchState), (∀ x ∈ st.1, Q x) → Inv st.2 →
      Inv (orders.foldl
        (harm_pass env dynamic sigmacutoff numfft lobin dr fullpows numtosearch) st).2 := by
    induction orders with
    | nil => intro st _ h; exact h
    | cons ii orders ih =>
      intro st h1 h2
      rw [List.foldl_cons]
      have := harm_inner_inv Inv Q dynamic hacc h0 hadd dr fullpows hfull numtosearch ii
        lobin st.1
        { st.2 with
          minpow :=
            if dynamic then
              env.power_for_sigma sigmacutoff (ii : ℤ) ((numfft : ℤ) - (lobin : ℤ))
            else (st.2.cands.getD (st.2.startnc - 1) blank).p }
        h1 (hmin st.2 _ h2)
      exact ih _ this.1 this.2
  exact key (fullpows, s) hfull hs

/-- An invariant of the candidate list that holds of the initial list, that
every store keeps and that does not look at the threshold holds when the
search of `search_fft` ends. -/
theorem search_fft_scan_inv (Inv : SearchState → Prop) (Q : ℚ → Prop) (env : Env)
    (fullpows : List ℚ) (numfft lobin numharmsum numbetween : ℕ)
    (interptype : presto_interptype) (sigmacutoff : ℚ) (numcands : ℕ)
    (hacc : ∀ s r p, Inv s → Q p → Inv (accept_fftcand (decide (numcands = 0)) s r p))
    (hmin : ∀ s m, Inv s → Inv { s with minpow := m })
    (h0 : Q 0) (hadd : ∀ a b, Q a → Q b → Q (a + b)) (hfull : ∀ x ∈ fullpows, Q x)
    (hinit : ∀ m, Inv ⟨List.replicate (if numcands > 0 then numcands else 10) blank,
      if numcands > 0 then numcands else 10, 0, m, []⟩) :
    Inv (search_fft_scan env fullpows numfft lobin numharmsum numbetween interptype
      sigmacutoff numcands) := by
  unfold search_fft_scan search_fft_raw
  simp only []
  have hraw := raw_pass_inv Inv Q (decide (numcands = 0)) hacc h0
    (1 / ((eff_numbetween interptype numbetween : ℕ) : ℚ)) fullpows hfull
    (lobin * eff_numbetween interptype numbetween)
    (numfft * eff_numbetween interptype numbetween) _ (hinit
      (if numcands > 0 then 0
       else env.power_for_sigma sigmacutoff 1
        ((numfft : ℤ) - ((lobin * eff_numbetween interptype numbetween : ℕ) : ℤ))))
  by_cases hh : numharmsum > 1
  · rw [if_pos hh]
    exact harm_passes_inv Inv Q env _ hacc hmin h0 hadd _ _ _ _ _ hfull _ _ _ hraw
  · rw [if_neg hh]
    exact hraw

/-! ### What a store does to the candidate list -/

theorem set_append_last {α : Type} (A : List α) (x y : α) :
    (A ++ [x]).set A.length y = A ++ [y] := by
  simp [List.set_append]

theorem getD_append_last {α : Type} (A : List α) (x d : α) :
    (A ++ [x]).getD A.length d = x := by
  rw [List.getD_eq_getElem?_getD, getElem?_append_cons_length]; rfl

theorem accept_startnc (dynamic : Bool) (s : SearchState) (r p : ℚ) :
    (accept_fftcand dynamic s r p).startnc
      = if dynamic = true ∧ s.nc = s.startnc then s.startnc * 2 else s.startnc := by
  unfold accept_fftcand
  cases dynamic <;> by_cases h : s.nc = s.startnc <;> simp [h]

theorem accept_nc (dynamic : Bool) (s : SearchState) (r p : ℚ) :
    (accept_fftcand dynamic s r p).nc
      = if dynamic = true then s.nc + 1 else if s.nc < s.startnc then s.nc + 1 else s.nc := by
  unfold accept_fftcand
  cases dynamic <;> by_cases h : s.nc = s.startnc <;> simp [h]

theorem accept_written_length (dynamic : Bool) (s : SearchState) (r p : ℚ) :
    (accept_fftcand dynamic s r p).written.length = s.written.length + 1 := by
  unfold accept_fftcand
  cases dynamic <;> by_cases h : s.nc = s.startnc <;> simp [h]

/-- The array after a store: with `s.cands = A ++ [old]`, the percolation of
`A ++ [new]`, followed in the dynamic mode by the zero-filled slots of the
growth when the count had reached the capacity. -/
theorem accept_cands (dynamic : Bool) (s : SearchState) (r p : ℚ)
    (hlen : s.cands.length = s.startnc) (h1 : 1 ≤ s.startnc) :
    ∃ A old, s.cands = A ++ [old] ∧ A.length + 1 = s.startnc ∧
      (accept_fftcand dynamic s r p).cands
        = (percolate_fftcands (A ++ [⟨r, p, old.nsum⟩]) (A.length + 1)).1 ++
            (if dynamic = true ∧ s.nc = s.startnc then
              List.replicate (s.startnc * 2 - s.nc) blank else []) := by
  obtain ⟨old, hold, hA⟩ := eq_take_append_last s.cands s.startnc h1 hlen
  refine ⟨s.cands.take (s.startnc - 1), old, hold, by omega, ?_⟩
  generalize s.cands.take (s.startnc - 1) = A at hold hA
  have e1 : s.startnc - 1 = A.length := hA.symm
  have e2 : s.startnc = A.length + 1 := by omega
  unfold accept_fftcand
  simp only [e1, hold, set_append_last, getD_append_last]
  rw [e2]
  cases dynamic <;> by_cases h : s.nc = A.length + 1 <;> simp [h]

theorem sortedByPower_replicate_blank (n : ℕ) : sortedByPower (List.replicate n blank) := by
  unfold sortedByPower
  rw [List.pairwise_replicate]
  right; exact le_refl _

/-- A store of a non-negative power keeps the candidate list well formed: as
long as the capacity, in non-increasing order of power over all slots, and with
non-negative powers only. -/
theorem accept_sorted (dynamic : Bool) (s : SearchState) (r p : ℚ)
    (hs : s.cands.length = s.startnc ∧ 1 ≤ s.startnc ∧ sortedByPower s.cands ∧
      ∀ c ∈ s.cands, 0 ≤ c.p) (hp : 0 ≤ p) :
    (accept_fftcand dynamic s r p).cands.length = (accept_fftcand dynamic s r p).startnc ∧
    1 ≤ (accept_fftcand dynamic s r p).startnc ∧
    sortedByPower (accept_fftcand dynamic s r p).cands ∧
    ∀ c ∈ (accept_fftcand dynamic s r p).cands, 0 ≤ c.p := by
  obtain ⟨hlen, h1, hsort, hpos⟩ := hs
  obtain ⟨A, old, hA, hAlen, hc⟩ := accept_cands dynamic s r p hlen h1
  have hAsort : sortedByPower A := by
    unfold sortedByPower at hsort ⊢
    rw [hA, List.pairwise_append] at hsort
    exact hsort.1
  obtain ⟨hps, hpp, -⟩ := percolate_fftcands_append A ⟨r, p, old.nsum⟩ hAsort
  have hpnn : ∀ c ∈ (percolate_fftcands (A ++ [⟨r, p, old.nsum⟩]) (A.length + 1)).1,
      0 ≤ c.p := by
    intro c hc'
    have := hpp.mem_iff.1 hc'
    rcases List.mem_append.1 this with h | h
    · exact hpos c (by rw [hA]; exact List.mem_append_left _ h)
    · rw [List.mem_singleton.1 h]; exact hp
  have hplen : (percolate_fftcands (A ++ [⟨r, p, old.nsum⟩]) (A.length + 1)).1.length
      = s.startnc := by
    rw [hpp.length_eq]; simp [hAlen]
  rw [hc, accept_startnc]
  by_cases hg : dynamic = true ∧ s.nc = s.startnc
  · rw [if_pos hg, if_pos hg]
    refine ⟨?_, by omega, ?_, ?_⟩
    · rw [List.length_append, hplen, List.length_replicate, hg.2]; omega
    · unfold sortedByPower
      rw [List.pairwise_append]
      refine ⟨hps, sortedByPower_replicate_blank _, ?_⟩
      intro a ha b hb
      rw [List.eq_of_mem_replicate hb]
      exact hpnn a ha
    · intro c hc'
      rcases List.mem_append.1 hc' with h | h
      · exact hpnn c h
      · rw [List.eq_of_mem_replicate h]; exact le_refl _
  · rw [if_neg hg, if_neg hg, List.append_nil]
    exact ⟨hplen, h1, hps, hpnn⟩

/-- Stamping `nsum` and trimming keep the order of the powers. -/
theorem fft_finish_sorted (numharmsum numcands : ℕ) (s : SearchState)
    (hs : sortedByPower s.cands) : sortedByPower (fft_finish numharmsum numcands s) := by
  have hmap : sortedByPower (s.cands.map (fun c => { c with nsum := numharmsum })) := by
    unfold sortedByPower at hs ⊢
    rw [List.pairwise_map]
    exact hs
  unfold fft_finish
  simp only []
  split_ifs
  · exact List.Pairwise.sublist (List.take_sublist _ _) hmap
  · exact hmap

/-- The candidate list at the end of the search of `search_fft` is well
formed when the powers searched are non-negative. -/
theorem search_fft_scan_sorted (env : Env) (fullpows : List ℚ) (numfft lobin numharmsum
    numbetween : ℕ) (interptype : presto_interptype) (sigmacutoff : ℚ) (numcands : ℕ)
    (hfull : ∀ x ∈ fullpows, 0 ≤ x) :
    sortedByPower (search_fft_scan env fullpows numfft lobin numharmsum numbetween
      interptype sigmacutoff numcands).cands := by
  have h := search_fft_scan_inv
    (fun s => s.cands.length = s.startnc ∧ 1 ≤ s.startnc ∧ sortedByPower s.cands ∧
      ∀ c ∈ s.cands, 0 ≤ c.p)
    (fun x => 0 ≤ x) env fullpows numfft lobin numharmsum numbetween interptype sigmacutoff
    numcands
    (fun s r p hs hp => accept_sorted _ s r p hs hp)
    (fun s m hs => hs)
    (le_refl _) (fun a b ha hb => add_nonneg ha hb) hfull
    (fun m => by
      refine ⟨by simp, ?_, sortedByPower_replicate_blank _, ?_⟩
      · show 1 ≤ if numcands > 0 then numcands else 10
        split_ifs <;> omega
      · intro c hc
        rw [List.eq_of_mem_replicate hc]; exact le_refl _)
  exact h.2.2.1

/-! ## C2 -/

/-- C2: when the normalised powers that `search_fft` searches are
non-negative, the candidate vector it returns, in the fixed mode
(`numcands > 0`) and in the dynamic mode (`numcands = 0`) alike, is in
non-increasing order of power over all of its slots, and every slot of power
zero comes after every slot of positive power. -/
theorem search_fft_sorted (env : Env) (kc : KernelCache) (fft : List fcomplex)
    (numfft lobin numharmsum numbetween : ℕ) (interptype : presto_interptype)
    (norm sigmacutoff : ℚ) (numcands : ℕ) (powmax : ℚ)
    (hpow : ∀ x ∈ (search_fft_powers env kc fft numfft lobin numbetween interptype norm
      powmax).fullpows, 0 ≤ x) :
    sortedByPower (search_fft env kc fft numfft lobin numharmsum numbetween interptype norm
      sigmacutoff numcands powmax).cands ∧
    ∀ (i j : ℕ) (ci cj : fftcand),
      (search_fft env kc fft numfft lobin numharmsum numbetween interptype norm
        sigmacutoff numcands powmax).cands[i]? = some ci →
      (search_fft env kc fft numfft lobin numharmsum numbetween interptype norm
        sigmacutoff numcands powmax).cands[j]? = some cj →
      ci.p = 0 → 0 < cj.p → j < i := by
  have hsorted : sortedByPower (search_fft env kc fft numfft lobin numharmsum numbetween
      interptype norm sigmacutoff numcands powmax).cands :=
    fft_finish_sorted _ _ _ (search_fft_scan_sorted env _ numfft lobin numharmsum numbetween
      interptype sigmacutoff numcands hpow)
  refine ⟨hsorted, ?_⟩
  intro i j ci cj hi hj hzero hposj
  rcases Nat.lt_trichotomy j i with h | h | h
  · exact h
  · exfalso
    subst h
    rw [hi] at hj
    have : ci = cj := Option.some.inj hj
    rw [this] at hzero
    rw [hzero] at hposj
    exact lt_irrefl _ hposj
  · exfalso
    rw [List.getElem?_eq_some] at hi hj
    obtain ⟨hi1, hi2⟩ := hi
    obtain ⟨hj1, hj2⟩ := hj
    have := List.pairwise_iff_getElem.1 hsorted i j hi1 hj1 h
    rw [hi2, hj2, hzero] at this
    exact absurd hposj (not_lt.2 this)

/-- C2 at two concrete calls on `sampleFft` with interbinning and three
harmonics, one in the fixed mode (3 slots) and one in the dynamic mode. -/
theorem search_fft_sorted_witness :
    sortedByPower (search_fft toyEnv KernelCache.fresh sampleFft 8 1 3 2
      presto_interptype.INTERBIN 1 0 3 0).cands ∧
    sortedByPower (search_fft toyEnv KernelCache.fresh sampleFft 8 1 3 2
      presto_interptype.INTERBIN 1 0 0 0).cands :=
  ⟨(search_fft_sorted toyEnv KernelCache.fresh sampleFft 8 1 3 2
      presto_interptype.INTERBIN 1 0 3 0 (by decide!)).1,
    (search_fft_sorted toyEnv KernelCache.fresh sampleFft 8 1 3 2
      presto_interptype.INTERBIN 1 0 0 0 (by decide!)).1⟩

/-! ## C3, C4: growth of the dynamic list -/

/-- C3 on the code: a store into a dynamic list of capacity 10 whose 10 slots
hold genuine entries (powers `20, ..., 11`) doubles the capacity to 20 and
counts 11 entries, but the candidate (power 15) has been written over the last
slot before the array grows: the entry of power 11 is gone and the array holds
10 genuine entries followed by 10 zero-filled slots. The same happens in a
whole call of `search_fft` on `rampFft` (11 bins above the cutoff). -/
theorem accept_fftcand_full_list_evicts :
    (accept_fftcand true fullList 99 15).startnc = 20 ∧
    (accept_fftcand true fullList 99 15).nc = 11 ∧
    (accept_fftcand true fullList 99 15).cands.map (fun c => c.p)
      = [20, 19, 18, 17, 16, 15, 15, 14, 13, 12, 0, 0, 0, 0, 0, 0, 0, 0, 0, 0] ∧
    (∀ c ∈ (accept_fftcand true fullList 99 15).cands, c.p ≠ 11) ∧
    ((accept_fftcand true fullList 99 15).cands.filter (fun c => decide (0 < c.p))).length
      = 10 ∧
    (search_fft toyEnv KernelCache.fresh rampFft 16 1 1 2 presto_interptype.INTERPOLATE 1 0 0
      0).capacity = 20 ∧
    (search_fft toyEnv KernelCache.fresh rampFft 16 1 1 2 presto_interptype.INTERPOLATE 1 0 0
      0).written.map (fun w => w.1.p) = [1, 4, 9, 16, 25, 36, 49, 64, 81, 100, 121] ∧
    (search_fft toyEnv KernelCache.fresh rampFft 16 1 1 2 presto_interptype.INTERPOLATE 1 0 0
      0).cands.map (fun c => c.p) = [121, 100, 81, 64, 49, 36, 25, 16, 9, 4, 0] := by
  decide!

/-- C4 on the code: in the dynamic mode, on `rampFft` (11 bins above the
cutoff 0), `search_fft` writes the count 11 back through `numcands` and returns
11 slots, but only 10 of them hold a candidate: the last slot has power 0 and
position 0 and was never stored, and the candidate of power 1 (bin 1) is
missing from the vector. -/
theorem search_fft_dynamic_count_off :
    (search_fft toyEnv KernelCache.fresh rampFft 16 1 1 2 presto_interptype.INTERPOLATE 1 0 0
      0).numcands = 11 ∧
    (search_fft toyEnv KernelCache.fresh rampFft 16 1 1 2 presto_interptype.INTERPOLATE 1 0 0
      0).cands.length = 11 ∧
    (search_fft toyEnv KernelCache.fresh rampFft 16 1 1 2 presto_interptype.INTERPOLATE 1 0 0
      0).cands[10]? = some ⟨0, 0, 1⟩ ∧
    ((search_fft toyEnv KernelCache.fresh rampFft 16 1 1 2 presto_interptype.INTERPOLATE 1 0
      0 0).cands.filter (fun c => decide (0 < c.p))).length = 10 ∧
    (search_fft toyEnv KernelCache.fresh rampFft 16 1 1 2 presto_interptype.INTERPOLATE 1 0 0
      0).written.length = 11 ∧
    (∀ w ∈ (search_fft toyEnv KernelCache.fresh rampFft 16 1 1 2
      presto_interptype.INTERPOLATE 1 0 0 0).written, 0 < w.1.p) ∧
    (∀ c ∈ (search_fft toyEnv KernelCache.fresh rampFft 16 1 1 2
      presto_interptype.INTERPOLATE 1 0 0 0).cands, c.p ≠ 1) := by
  decide!

/-! ## C5: the fixed mode -/

/-- In the fixed mode a store leaves the capacity and the length of the array
as they are. -/
theorem accept_fixed_capacity (s : SearchState) (r p : ℚ)
    (hlen : s.cands.length = s.startnc) (h1 : 1 ≤ s.startnc) :
    (accept_fftcand false s r p).startnc = s.startnc ∧
    (accept_fftcand false s r p).cands.length = s.cands.length := by
  obtain ⟨A, old, hA, hAlen, hc⟩ := accept_cands false s r p hlen h1
  obtain ⟨-, hpp, -⟩ : True ∧ (percolate_fftcands (A ++ [⟨r, p, old.nsum⟩])
      (A.length + 1)).1.Perm (A ++ [⟨r, p, old.nsum⟩]) ∧ True := by
    refine ⟨trivial, ?_, trivial⟩
    have hloop := percolateLoop_full (fun c : fftcand => c.p) A ⟨r, p, old.nsum⟩
    have hperm := percolated_perm
      (fun a : fftcand => decide (a.p < (⟨r, p, old.nsum⟩ : fftcand).p)) ⟨r, p, old.nsum⟩ A
    have hres : (percolate_fftcands (A ++ [⟨r, p, old.nsum⟩]) (A.length + 1)).1
        = percolateLoop (fun c : fftcand => c.p) A.length (A ++ [⟨r, p, old.nsum⟩]) := by
      simp only [percolate_fftcands, Nat.add_sub_cancel]
    rw [hres, hloop]
    exact hperm
  refine ⟨by rw [accept_startnc]; simp, ?_⟩
  rw [hc, hA]
  simp [hpp.length_eq]

/-- C5: in the fixed mode (`numcands = C > 0` on entry) no store resizes the
list, its capacity and the length of the vector returned are `C`, and the
count written back through `numcands` is `min(C, number of stores)`: it
saturates at the capacity. -/
theorem search_fft_fixed_capacity (env : Env) (kc : KernelCache) (fft : List fcomplex)
    (numfft lobin numharmsum numbetween : ℕ) (interptype : presto_interptype)
    (norm sigmacutoff : ℚ) (C : ℕ) (powmax : ℚ) (hC : 0 < C) :
    (∀ (s : SearchState) (r p : ℚ), s.cands.length = s.startnc → 1 ≤ s.startnc →
      (accept_fftcand false s r p).startnc = s.startnc ∧
      (accept_fftcand false s r p).cands.length = s.cands.length) ∧
    (search_fft env kc fft numfft lobin numharmsum numbetween interptype norm sigmacutoff C
      powmax).capacity = C ∧
    (search_fft env kc fft numfft lobin numharmsum numbetween interptype norm sigmacutoff C
      powmax).cands.length = C ∧
    (search_fft env kc fft numfft lobin numharmsum numbetween interptype norm sigmacutoff C
      powmax).numcands
      = min C (search_fft env kc fft numfft lobin numharmsum numbetween interptype norm
          sigmacutoff C powmax).written.length := by
  have hdyn : decide (C = 0) = false := by
    simp; omega
  have h := search_fft_scan_inv
    (fun s => s.startnc = C ∧ s.cands.length = C ∧ s.nc = min C s.written.length)
    (fun _ => True) env
    (search_fft_powers env kc fft numfft lobin numbetween interptype norm powmax).fullpows
    numfft lobin numharmsum numbetween interptype sigmacutoff C
    (fun s r p hs _ => by
      rw [hdyn]
      obtain ⟨h1, h2, h3⟩ := hs
      have hcap := accept_fixed_capacity s r p (by rw [h2, h1]) (by omega)
      refine ⟨by rw [hcap.1, h1], by rw [hcap.2, h2], ?_⟩
      rw [accept_nc, accept_written_length, h3, h1]
      simp only [Bool.false_eq_true, if_false]
      split_ifs with hlt
      · rw [Nat.min_def] at hlt ⊢
        rw [Nat.min_def]
        split_ifs at hlt ⊢ <;> omega
      · rw [Nat.min_def] at hlt ⊢
        rw [Nat.min_def]
        split_ifs at hlt ⊢ <;> omega)
    (fun s m hs => hs)
    trivial (fun _ _ _ _ => trivial) (fun _ _ => trivial)
    (fun m => by
      rw [if_pos hC]
      exact ⟨rfl, by simp, by simp⟩)
  refine ⟨accept_fixed_capacity, h.1, ?_, h.2.2⟩
  show (fft_finish numharmsum C _).length = C
  unfold fft_finish
  simp only []
  rw [if_neg (by omega), List.length_map]
  exact h.2.1

/-- C5 at a concrete call with 3 slots on `sampleFft`: the count written back
is 3 and the vector has 3 slots, while 5 candidates were stored in the raw
search. -/
theorem search_fft_fixed_capacity_witness :
    (search_fft toyEnv KernelCache.fresh sampleFft 8 1 1 2 presto_interptype.INTERPOLATE 1 0
      3 0).numcands = 3 ∧
    (search_fft toyEnv KernelCache.fresh sampleFft 8 1 1 2 presto_interptype.INTERPOLATE 1 0
      3 0).cands.length = 3 ∧
    (search_fft toyEnv KernelCache.fresh sampleFft 8 1 1 2 presto_interptype.INTERPOLATE 1 0
      3 0).written.length = 5 ∧
    (search_fft toyEnv KernelCache.fresh sampleFft 8 1 1 2 presto_interptype.INTERPOLATE 1 0
      3 0).numcands
      = min 3 (search_fft toyEnv KernelCache.fresh sampleFft 8 1 1 2
          presto_interptype.INTERPOLATE 1 0 3 0).written.length :=
  ⟨by decide!, by decide!, by decide!,
    (search_fft_fixed_capacity toyEnv KernelCache.fresh sampleFft 8 1 1 2
      presto_interptype.INTERPOLATE 1 0 3 0 (by decide)).2.2.2⟩

/-! ## C7: harmonic order 1 -/

/-- C7: with `numharmsum = 1` no harmonic pass runs: the harmonic engine run to
the order 1 hands back the summed-power array equal to the raw power array
and the candidate list untouched, and `search_fft` and `search_minifft` return
the candidate list of the raw search alone (stamped and trimmed as at the end
of every call). -/
theorem harmonic_order_one_is_raw (env : Env) (kc : KernelCache) (fft : List fcomplex)
    (numfft lobin numbetween : ℕ) (interptype : presto_interptype) (norm sigmacutoff : ℚ)
    (numcands : ℕ) (powmax : ℚ) (cands : List rawbincand)
    (numfullfft timefullfft lorfullfft : ℚ) (checkaliased : presto_checkaliased)
    (dynamic : Bool) (dr : ℚ) (fullpows : List ℚ) (numtosearch : ℕ) (s : SearchState)
    (ms : MiniState) :
    harm_passes env dynamic sigmacutoff numfft lobin dr fullpows numtosearch 1 s
      = (fullpows, s) ∧
    mini_harm_passes env dr fullpows numcands numtosearch 1 ms = (fullpows, ms) ∧
    search_fft_scan env fullpows numfft lobin 1 numbetween interptype sigmacutoff numcands
      = search_fft_raw env fullpows numfft lobin numbetween interptype sigmacutoff numcands ∧
    (search_fft env kc fft numfft lobin 1 numbetween interptype norm sigmacutoff numcands
      powmax).cands
      = fft_finish 1 numcands
          (search_fft_raw env
            (search_fft_powers env kc fft numfft lobin numbetween interptype norm
              powmax).fullpows
            numfft lobin numbetween interptype sigmacutoff numcands) ∧
    search_minifft_scan env fullpows numtosearch cands numcands 1 numbetween interptype
      = search_minifft_raw env fullpows numtosearch cands numcands numbetween interptype ∧
    (search_minifft env kc fft numfft cands numcands 1 numbetween numfullfft timefullfft
      lorfullfft interptype checkaliased).cands
      = minifft_finish numfft (numfft * eff_numbetween interptype numbetween) numcands
          numfullfft timefullfft lorfullfft
          (search_minifft_raw env
            (search_minifft_powers env kc fft numfft numbetween interptype checkaliased).1
            (mini_numtosearch checkaliased (numfft * eff_numbetween interptype numbetween))
            cands numcands numbetween interptype).cands := by
  refine ⟨rfl, rfl, ?_, ?_, ?_, ?_⟩
  · unfold search_fft_scan
    simp
  · unfold search_fft search_fft_scan
    simp
  · unfold search_minifft_scan
    simp
  · unfold search_minifft search_minifft_scan
    simp

/-! ## Percolation is a permutation -/

theorem swapAdj_perm {α : Type} (l : List α) (ii : ℕ) : (swapAdj l ii).Perm l := by
  unfold swapAdj
  cases h1 : l[ii]? with
  | none => simp
  | some a =>
    cases h2 : l[ii + 1]? with
    | none => simp
    | some b =>
      simp only []
      rw [List.getElem?_eq_some] at h1 h2
      obtain ⟨hi, h1⟩ := h1
      obtain ⟨hi', h2⟩ := h2
      have e : l = l.take ii ++ a :: b :: l.drop (ii + 2) := by
        conv_lhs => rw [← List.take_append_drop ii l]
        rw [List.drop_eq_getElem_cons hi, List.drop_eq_getElem_cons hi', h1, h2]
      have hlen : (l.take ii).length = ii := by
        rw [List.length_take]; omega
      have hsw := swapAdj_append (l.take ii) (l.drop (ii + 2)) a b
      rw [hlen] at hsw
      unfold swapAdj at hsw
      rw [← e] at hsw
      have h1' : l[ii]? = some a := by rw [List.getElem?_eq_some]; exact ⟨hi, h1⟩
      have h2' : l[ii + 1]? = some b := by rw [List.getElem?_eq_some]; exact ⟨hi', h2⟩
      rw [h1', h2'] at hsw
      simp only [] at hsw
      rw [hsw]
      conv_rhs => rw [e]
      exact List.Perm.append_left _ (List.Perm.swap _ _ _)

theorem percolateLoop_perm {α : Type} (key : α → ℚ) (k : ℕ) :
    ∀ l : List α, (percolateLoop key k l).Perm l := by
  induction k with
  | zero => intro l; simp [percolateLoop]
  | succ k ih =>
    intro l
    rw [percolateLoop]
    cases h1 : l[k]? with
    | none => simp
    | some a =>
      cases h2 : l[k + 1]? with
      | none => simp
      | some b =>
        simp only []
        split_ifs
        · exact (ih _).trans (swapAdj_perm l k)
        · exact List.Perm.refl _

/-! ## `search_minifft`: invariants of the scan -/

/-- An invariant of the candidate array that every store at a position
`dr * k` keeps and that does not look at the threshold holds when the search of
`search_minifft` ends. -/
theorem search_minifft_scan_inv (Inv : MiniState → Prop) (env : Env) (fullpows : List ℚ)
    (numtosearch : ℕ) (cands : List rawbincand) (numcands numharmsum numbetween : ℕ)
    (interptype : presto_interptype)
    (hstore : ∀ (s : MiniState) (k : ℕ) (power numsum sigma : ℚ), Inv s →
      Inv (store_rawbincand numcands s
        (1 / ((eff_numbetween interptype numbetween : ℕ) : ℚ) * (k : ℚ)) power numsum sigma))
    (hmin : ∀ s m, Inv s → Inv { s with minpow := m })
    (hinit : Inv ⟨mapFirst numcands
      (fun c => { c with mini_sigma := 0, mini_power := 0 }) cands, 0, []⟩) :
    Inv (search_minifft_scan env fullpows numtosearch cands numcands numharmsum numbetween
      interptype) := by
  have hraw : Inv (search_minifft_raw env fullpows numtosearch cands numcands numbetween
      interptype) := by
    unfold search_minifft_raw
    simp only []
    generalize List.range' 1 (numtosearch - 1) = idx
    generalize (⟨mapFirst numcands
      (fun c => { c with mini_sigma := 0, mini_power := 0 }) cands, 0, []⟩ : MiniState) = s
      at hinit
    induction idx generalizing s with
    | nil => exact hinit
    | cons ii idx ih =>
      rw [List.foldl_cons]
      apply ih
      unfold mini_raw_step
      split_ifs
      · exact hmin _ _ (hstore _ _ _ _ _ hinit)
      · exact hinit
  have hstep : ∀ (ii : ℕ) (idx : List ℕ) (st : List ℚ × MiniState), Inv st.2 →
      Inv (idx.foldl (mini_harm_step env
        (1 / ((eff_numbetween interptype numbetween : ℕ) : ℚ)) fullpows numcands ii) st).2 := by
    intro ii idx
    induction idx with
    | nil => intro st h; exact h
    | cons jj idx ih =>
      intro st h
      rw [List.foldl_cons]
      apply ih
      unfold mini_harm_step
      simp only []
      split_ifs
      · exact hmin _ _ (hstore _ _ _ _ _ h)
      · exact h
  have hpass : ∀ (orders : List ℕ) (st : List ℚ × MiniState), Inv st.2 →
      Inv (orders.foldl (mini_harm_pass env
        (1 / ((eff_numbetween interptype numbetween : ℕ) : ℚ)) fullpows numcands
        numtosearch) st).2 := by
    intro orders
    induction orders with
    | nil => intro st h; exact h
    | cons ii orders ih =>
      intro st h
      rw [List.foldl_cons]
      apply ih
      unfold mini_harm_pass
      exact hstep ii _ _ (hmin _ _ h)
  unfold search_minifft_scan
  simp only []
  by_cases hh : numharmsum > 1
  · rw [if_pos hh]
    exact hpass _ _ hraw
  · rw [if_neg hh]
    exact hraw

/-- What a store does: the new candidate joins the record, and every slot of
the array afterwards is the new candidate or a slot of the array before. -/
theorem store_rawbincand_mem (numcands : ℕ) (s : MiniState) (r power numsum sigma : ℚ) :
    ∃ newc : rawbincand, newc.mini_r = r ∧
      (store_rawbincand numcands s r power numsum sigma).written = s.written ++ [newc] ∧
      ∀ c ∈ (store_rawbincand numcands s r power numsum sigma).cands,
        c = newc ∨ c ∈ s.cands := by
  refine ⟨_, ?_, rfl, ?_⟩
  · rfl
  · intro c hc
    have hc' : c ∈ (percolate_rawbincands (s.cands.set (numcands - 1)
        { s.cands.getD (numcands - 1) rblank with
          mini_r := r, mini_power := power, mini_numsum := numsum, mini_sigma := sigma })
        numcands).1 := hc
    have hperm := percolateLoop_perm (fun c : rawbincand => c.mini_sigma) (numcands - 1)
      (s.cands.set (numcands - 1)
        { s.cands.getD (numcands - 1) rblank with
          mini_r := r, mini_power := power, mini_numsum := numsum, mini_sigma := sigma })
    have hc2 := (hperm.mem_iff).1 hc'
    rcases List.mem_or_eq_of_mem_set hc2 with h | h
    · exact Or.inr h
    · exact Or.inl h

theorem mapFirst_of_length {α : Type} (f : α → α) (l : List α) (n : ℕ)
    (h : l.length = n) : mapFirst n f l = l.map f := by
  subst h
  simp [mapFirst]

/-! ## C6 -/

/-- C6: with `interptype = INTERBIN` the oversampling factor used is 2 whatever
the caller passes: `search_fft` and `search_minifft` give the result of the
call with `numbetween = 2`. In `search_minifft` (on an array of `numcands`
slots) every candidate stored has a position `k / 2`, and every slot left
behind has `mini_N = 2 * numminifft` and is either a stored candidate or a slot
that was never filled (significance and power 0, position as the caller left
it). -/
theorem interbin_forces_two (env : Env) (kc : KernelCache) (fft : List fcomplex)
    (numfft lobin numharmsum numbetween : ℕ) (norm sigmacutoff : ℚ) (numcands : ℕ)
    (powmax : ℚ) (cands : List rawbincand) (numfullfft timefullfft lorfullfft : ℚ)
    (checkaliased : presto_checkaliased) (hlen : cands.length = numcands) :
    search_fft env kc fft numfft lobin numharmsum numbetween presto_interptype.INTERBIN norm
        sigmacutoff numcands powmax
      = search_fft env kc fft numfft lobin numharmsum 2 presto_interptype.INTERBIN norm
          sigmacutoff numcands powmax ∧
    search_minifft env kc fft numfft cands numcands numharmsum numbetween numfullfft
        timefullfft lorfullfft presto_interptype.INTERBIN checkaliased
      = search_minifft env kc fft numfft cands numcands numharmsum 2 numfullfft timefullfft
          lorfullfft presto_interptype.INTERBIN checkaliased ∧
    (∀ w ∈ (search_minifft env kc fft numfft cands numcands numharmsum numbetween numfullfft
        timefullfft lorfullfft presto_interptype.INTERBIN checkaliased).written,
      ∃ k : ℕ, w.mini_r = (k : ℚ) / 2) ∧
    (∀ c ∈ (search_minifft env kc fft numfft cands numcands numharmsum numbetween numfullfft
        timefullfft lorfullfft presto_interptype.INTERBIN checkaliased).cands,
      c.mini_N = 2 * (numfft : ℚ) ∧
      ((∃ w ∈ (search_minifft env kc fft numfft cands numcands numharmsum numbetween
          numfullfft timefullfft lorfullfft presto_interptype.INTERBIN checkaliased).written,
          c.mini_r = w.mini_r ∧ c.mini_power = w.mini_power ∧
            c.mini_sigma = w.mini_sigma) ∨
        (c.mini_sigma = 0 ∧ c.mini_power = 0 ∧ ∃ c0 ∈ cands, c.mini_r = c0.mini_r))) := by
  have hinv := search_minifft_scan_inv
    (fun s => (∀ w ∈ s.written, ∃ k : ℕ, w.mini_r = (k : ℚ) / 2) ∧
      ∀ c ∈ s.cands, c ∈ s.written ∨
        (c.mini_sigma = 0 ∧ c.mini_power = 0 ∧ ∃ c0 ∈ cands, c.mini_r = c0.mini_r))
    env
    (search_minifft_powers env kc fft numfft numbetween presto_interptype.INTERBIN
      checkaliased).1
    (mini_numtosearch checkaliased (numfft * eff_numbetween presto_interptype.INTERBIN
      numbetween))
    cands numcands numharmsum numbetween presto_interptype.INTERBIN
    (fun s k power numsum sigma hs => by
      obtain ⟨newc, hr, hw, hc⟩ := store_rawbincand_mem numcands s
        (1 / ((eff_numbetween presto_interptype.INTERBIN numbetween : ℕ) : ℚ) * (k : ℚ))
        power numsum sigma
      constructor
      · intro w hw'
        rw [hw] at hw'
        rcases List.mem_append.1 hw' with h | h
        · exact hs.1 w h
        · rw [List.mem_singleton.1 h, hr]
          refine ⟨k, ?_⟩
          simp only [eff_numbetween]
          push_cast
          ring
      · intro c hc'
        rcases hc c hc' with h | h
        · left; rw [hw, h]; simp
        · rcases hs.2 c h with h' | h'
          · left; rw [hw]; exact List.mem_append_left _ h'
          · right; exact h')
    (fun s m hs => hs)
    (by
      refine ⟨by simp, ?_⟩
      intro c hc
      right
      rw [mapFirst_of_length _ _ _ hlen] at hc
      obtain ⟨c0, hc0, rfl⟩ := List.mem_map.1 hc
      exact ⟨rfl, rfl, c0, hc0, rfl⟩)
  refine ⟨rfl, rfl, hinv.1, ?_⟩
  intro c hc
  have hc' : c ∈ minifft_finish numfft
      (numfft * eff_numbetween presto_interptype.INTERBIN numbetween) numcands numfullfft
      timefullfft lorfullfft
      (search_minifft_scan env
        (search_minifft_powers env kc fft numfft numbetween presto_interptype.INTERBIN
          checkaliased).1
        (mini_numtosearch checkaliased
          (numfft * eff_numbetween presto_interptype.INTERBIN numbetween))
        cands numcands numharmsum numbetween presto_interptype.INTERBIN).cands := hc
  have hperm_len : (search_minifft_scan env
      (search_minifft_powers env kc fft numfft numbetween presto_interptype.INTERBIN
        checkaliased).1
      (mini_numtosearch checkaliased
        (numfft * eff_numbetween presto_interptype.INTERBIN numbetween))
      cands numcands numharmsum numbetween presto_interptype.INTERBIN).cands.length
      = numcands := by
    have hl := search_minifft_scan_inv (fun s => s.cands.length = numcands) env
      (search_minifft_powers env kc fft numfft numbetween presto_interptype.INTERBIN
        checkaliased).1
      (mini_numtosearch checkaliased
        (numfft * eff_numbetween presto_interptype.INTERBIN numbetween))
      cands numcands numharmsum numbetween presto_interptype.INTERBIN
      (fun s k power numsum sigma hs => by
        show (percolate_rawbincands _ numcands).1.length = numcands
        have := (percolateLoop_perm (fun c : rawbincand => c.mini_sigma) (numcands - 1)
          (s.cands.set (numcands - 1)
            { s.cands.getD (numcands - 1) rblank with
              mini_r := 1 / ((eff_numbetween presto_interptype.INTERBIN numbetween : ℕ) : ℚ)
                * (k : ℚ),
              mini_power := power, mini_numsum := numsum, mini_sigma := sigma })).length_eq
        rw [List.length_set] at this
        exact this.trans hs)
      (fun s m hs => hs)
      (by rw [mapFirst_of_length _ _ _ hlen]; simp [hlen])
    exact hl
  unfold minifft_finish at hc'
  rw [mapFirst_of_length _ _ _ hperm_len] at hc'
  obtain ⟨c1, hc1, rfl⟩ := List.mem_map.1 hc'
  refine ⟨?_, ?_⟩
  · simp only [eff_numbetween]
    push_cast
    ring
  · rcases hinv.2 c1 hc1 with h | h
    · left; exact ⟨c1, h, rfl, rfl, rfl⟩
    · right; exact h

/-- C6 at a concrete call: `numbetween = 7` with interbinning on `sampleFft`. -/
theorem interbin_forces_two_witness :
    search_fft toyEnv KernelCache.fresh sampleFft 8 1 2 7 presto_interptype.INTERBIN 1 0 4 0
      = search_fft toyEnv KernelCache.fresh sampleFft 8 1 2 2 presto_interptype.INTERBIN 1 0
          4 0 ∧
    search_minifft toyEnv KernelCache.fresh sampleFft 8 (List.replicate 4 rblank) 4 2 7 100
        10 5 presto_interptype.INTERBIN presto_checkaliased.CHECK_ALIASED
      = search_minifft toyEnv KernelCache.fresh sampleFft 8 (List.replicate 4 rblank) 4 2 2
          100 10 5 presto_interptype.INTERBIN presto_checkaliased.CHECK_ALIASED ∧
    ∀ c ∈ (search_minifft toyEnv KernelCache.fresh sampleFft 8 (List.replicate 4 rblank) 4 2
        7 100 10 5 presto_interptype.INTERBIN presto_checkaliased.CHECK_ALIASED).cands,
      c.mini_N = 2 * ((8 : ℕ) : ℚ) :=
  ⟨(interbin_forces_two toyEnv KernelCache.fresh sampleFft 8 1 2 7 1 0 4 0
      (List.replicate 4 rblank) 100 10 5 presto_checkaliased.CHECK_ALIASED (by decide)).1,
    (interbin_forces_two toyEnv KernelCache.fresh sampleFft 8 1 2 7 1 0 4 0
      (List.replicate 4 rblank) 100 10 5 presto_checkaliased.CHECK_ALIASED (by decide)).2.1,
    fun c hc =>
      ((interbin_forces_two toyEnv KernelCache.fresh sampleFft 8 1 2 7 1 0 4 0
        (List.replicate 4 rblank) 100 10 5 presto_checkaliased.CHECK_ALIASED
        (by decide)).2.2.2 c hc).1⟩

/-! ## C8: the running sum of `search_minifft` -/

theorem mini_harm_step_fst (env : Env) (dr : ℚ) (fullpows : List ℚ) (numcands ii : ℕ)
    (st : List ℚ × MiniState) (jj : ℕ) :
    (mini_harm_step env dr fullpows numcands ii st jj).1
      = st.1.set jj (st.1.getD jj 0 + fullpows.getD ((jj + ii / 2) / ii) 0) := by
  unfold mini_harm_step
  simp only []
  split_ifs <;> rfl

theorem getD_set_rat (l : List ℚ) (i j : ℕ) (v : ℚ) (hi : i < l.length) :
    (l.set i v).getD j 0 = if j = i then v else l.getD j 0 := by
  rw [List.getD_eq_getElem?_getD, List.getD_eq_getElem?_getD, List.getElem?_set]
  by_cases h : i = j
  · subst h; simp [hi]
  · have h' : ¬ j = i := fun e => h e.symm
    simp [h, h']

/-- The scan of a harmonic pass over the indices `0, ..., k - 1` has added the
term of the order `ii` to exactly these entries of the running sum. -/
theorem mini_scan_sumpows (env : Env) (dr : ℚ) (fullpows : List ℚ) (numcands ii : ℕ)
    (sumpows : List ℚ) (s : MiniState) (k : ℕ) (hk : k ≤ sumpows.length) :
    ((List.range k).foldl (mini_harm_step env dr fullpows numcands ii) (sumpows, s)).1.length
      = sumpows.length ∧
    ∀ j, ((List.range k).foldl (mini_harm_step env dr fullpows numcands ii)
        (sumpows, s)).1.getD j 0
      = if j < k then sumpows.getD j 0 + fullpows.getD ((j + ii / 2) / ii) 0
        else sumpows.getD j 0 := by
  induction k with
  | zero => simp
  | succ k ih =>
    obtain ⟨ihl, ihv⟩ := ih (by omega)
    rw [List.range_succ, List.foldl_append, List.foldl_cons, List.foldl_nil,
      mini_harm_step_fst]
    refine ⟨by rw [List.length_set, ihl], ?_⟩
    intro j
    have hkl : k < ((List.range k).foldl (mini_harm_step env dr fullpows numcands ii)
        (sumpows, s)).1.length := by
      rw [ihl]; omega
    rw [getD_set_rat _ _ _ _ hkl, ihv k, ihv j]
    by_cases hjk : j = k
    · subst hjk
      simp
    · have hiff : j < k + 1 ↔ j < k := by omega
      simp only [hjk, if_false, hiff]

theorem harmonic_sum_succ (fullpows : List ℚ) (H j : ℕ) :
    harmonic_sum fullpows (H + 1) j
      = harmonic_sum fullpows H j + fullpows.getD ((j + (H + 1) / 2) / (H + 1)) 0 := by
  unfold harmonic_sum
  rw [List.range'_concat]
  simp [Nat.add_comm]

/-- After the passes `2, ..., H` the running sum holds the harmonic sums of
order `H`, whatever the candidate array went through. -/
theorem mini_harm_passes_sumpows (env : Env) (dr : ℚ) (fullpows : List ℚ)
    (numcands : ℕ) (s : MiniState) (H : ℕ) (hH : 1 ≤ H) :
    (mini_harm_passes env dr fullpows numcands fullpows.length H s).1.length
      = fullpows.length ∧
    ∀ j, j < fullpows.length →
      (mini_harm_passes env dr fullpows numcands fullpows.length H s).1.getD j 0
        = harmonic_sum fullpows H j := by
  induction H, hH using Nat.le_induction with
  | base =>
    refine ⟨rfl, ?_⟩
    intro j _
    simp [mini_harm_passes, harmonic_sum]
  | succ H hH ih =>
    obtain ⟨ihl, ihv⟩ := ih
    have hstep : mini_harm_passes env dr fullpows numcands fullpows.length (H + 1) s
        = mini_harm_pass env dr fullpows numcands fullpows.length
            (mini_harm_passes env dr fullpows numcands fullpows.length H s) (H + 1) := by
      unfold mini_harm_passes
      have e : H + 1 - 1 = (H - 1) + 1 := by omega
      rw [e, List.range'_concat, List.foldl_append, List.foldl_cons, List.foldl_nil]
      have e2 : 2 + 1 * (H - 1) = H + 1 := by omega
      rw [e2]
    rw [hstep]
    unfold mini_harm_pass
    have hscan := mini_scan_sumpows env dr fullpows numcands (H + 1)
      (mini_harm_passes env dr fullpows numcands fullpows.length H s).1
      { (mini_harm_passes env dr fullpows numcands fullpows.length H s).2 with
        minpow :=
          env.power_for_sigma
            ((mini_harm_passes env dr fullpows numcands fullpows.length H s).2.cands.getD
              (numcands - 1) rblank).mini_sigma ((H + 1 : ℕ) : ℤ) 1 }
      fullpows.length (by rw [ihl])
    refine ⟨hscan.1.trans ihl, ?_⟩
    intro j hj
    rw [hscan.2 j, if_pos hj, ihv j hj, harmonic_sum_succ]

theorem foldl_set_length {α β : Type} (f : List α → β → List α)
    (hf : ∀ l b, (f l b).length = l.length) (idx : List β) (l : List α) :
    (idx.foldl f l).length = l.length := by
  induction idx generalizing l with
  | nil => rfl
  | cons b idx ih => rw [List.foldl_cons, ih, hf]

theorem minifft_fullpows_length (spread : List fcomplex) (fftlen : ℕ)
    (checkaliased : presto_checkaliased) :
    (minifft_fullpows spread fftlen checkaliased).length
      = mini_numtosearch checkaliased fftlen := by
  cases checkaliased
  · unfold minifft_fullpows mini_numtosearch
    simp only []
    rw [foldl_set_length _ (fun l b => by simp)]
    simp
  · unfold minifft_fullpows mini_numtosearch
    simp only []
    rw [foldl_set_length _ (fun l b => by simp)]
    simp

/-! ## C8 -/

/-- C8: in `search_minifft`, on a power array of `numtosearch` entries, after
the pass for the harmonic order `H` (`2 ≤ H ≤ numharmsum`) the running sum
satisfies `sumpows[j] = Σ_{h = 1..H} fullpows[(j + h/2) / h]` for every
`j < numtosearch`, from whatever state `s` of the candidate array the passes
started; that state of the sum is the one the passes up to `numharmsum` go
through; and the power array of `search_minifft` has `numtosearch` entries. -/
theorem search_minifft_running_sum (env : Env) (dr : ℚ) (fullpows : List ℚ)
    (numcands numtosearch H numharmsum : ℕ) (s : MiniState) (j : ℕ)
    (hlen : fullpows.length = numtosearch) (hH : 2 ≤ H) (hHn : H ≤ numharmsum)
    (hj : j < numtosearch) :
    (mini_harm_passes env dr fullpows numcands numtosearch H s).1.getD j 0
      = harmonic_sum fullpows H j ∧
    mini_harm_passes env dr fullpows numcands numtosearch numharmsum s
      = (List.range' (H + 1) (numharmsum - H)).foldl
          (mini_harm_pass env dr fullpows numcands numtosearch)
          (mini_harm_passes env dr fullpows numcands numtosearch H s) ∧
    ∀ (kc : KernelCache) (minifft : List fcomplex) (numminifft numbetween : ℕ)
      (interptype : presto_interptype) (checkaliased : presto_checkaliased),
      (search_minifft_powers env kc minifft numminifft numbetween interptype
        checkaliased).1.length
        = mini_numtosearch checkaliased (numminifft * eff_numbetween interptype numbetween) := by
  subst hlen
  refine ⟨(mini_harm_passes_sumpows env dr fullpows numcands s H (by omega)).2 j hj, ?_, ?_⟩
  · unfold mini_harm_passes
    rw [← List.foldl_append]
    congr 1
    have e : numharmsum - 1 = (numharmsum - H) + (H - 1) := by omega
    have e2 : 2 + (H - 1) = H + 1 := by omega
    rw [e, ← List.range'_append_1, e2]
  · intro kc minifft numminifft numbetween interptype checkaliased
    exact minifft_fullpows_length _ _ _

/-- C8 at a concrete power array of 6 entries, for the order 3 of 4, at the
index 4: the running sum is `fullpows[4] + fullpows[2] + fullpows[1]`. -/
theorem search_minifft_running_sum_witness :
    harmonic_sum [1, 5, 2, 7, 3, 4] 3 4 = 3 + 2 + 5 ∧
    (mini_harm_passes toyEnv (1 / 2) [1, 5, 2, 7, 3, 4] 2 6 3
      ⟨[rblank, rblank], 0, []⟩).1.getD 4 0 = harmonic_sum [1, 5, 2, 7, 3, 4] 3 4 :=
  ⟨by decide!,
    (search_minifft_running_sum toyEnv (1 / 2) [1, 5, 2, 7, 3, 4] 2 6 3 4
      ⟨[rblank, rblank], 0, []⟩ 4 (by decide) (by decide) (by decide) (by decide)).1⟩

/-! ## The bounded scan agrees with the scan -/

theorem harm_inner_of_fuel (dynamic : Bool) (dr : ℚ) (fullpows : List ℚ)
    (numtosearch ii : ℕ) (fuel : ℕ) :
    ∀ (jj : ℕ) (sumpows : List ℚ) (s : SearchState) (res : List ℚ × SearchState),
      harm_inner_fuel dynamic dr fullpows numtosearch ii fuel jj sumpows s = some res →
      harm_inner dynamic dr fullpows numtosearch ii jj sumpows s = res := by
  induction fuel with
  | zero => intro jj sumpows s res h; simp [harm_inner_fuel] at h
  | succ fuel ih =>
    intro jj sumpows s res h
    rw [harm_inner]
    rw [harm_inner_fuel] at h
    by_cases hlt : jj < numtosearch
    · rw [if_pos hlt] at h ⊢
      simp only []
      by_cases hgt : (sumpows.set jj
          (sumpows.getD jj 0 + fullpows.getD ((jj + ii / 2) / ii) 0)).getD jj 0 > s.minpow
      · rw [if_pos hgt] at h ⊢
        exact ih _ _ _ _ h
      · rw [if_neg hgt] at h ⊢
        exact ih _ _ _ _ h
    · rw [if_neg hlt] at h ⊢
      exact (Option.some.inj h)

theorem harm_passes_fold_of_fuel (env : Env) (dynamic : Bool) (sigmacutoff : ℚ)
    (numfft lobin : ℕ) (dr : ℚ) (fullpows : List ℚ) (numtosearch fuel : ℕ)
    (orders : List ℕ) :
    ∀ (st res : List ℚ × SearchState),
      harm_passes_fuel env dynamic sigmacutoff numfft lobin dr fullpows numtosearch fuel
        orders st = some res →
      orders.foldl (harm_pass env dynamic sigmacutoff numfft lobin dr fullpows numtosearch)
        st = res := by
  induction orders with
  | nil =>
    intro st res h
    simp only [harm_passes_fuel] at h
    exact Option.some.inj h
  | cons ii orders ih =>
    intro st res h
    rw [harm_passes_fuel] at h
    rw [List.foldl_cons]
    cases hin : harm_inner_fuel dynamic dr fullpows numtosearch ii fuel lobin st.1
        { st.2 with
          minpow :=
            if dynamic then
              env.power_for_sigma sigmacutoff (ii : ℤ) ((numfft : ℤ) - (lobin : ℤ))
            else (st.2.cands.getD (st.2.startnc - 1) blank).p } with
    | none => rw [hin] at h; simp at h
    | some st1 =>
      rw [hin] at h
      simp only [] at h
      have e : harm_pass env dynamic sigmacutoff numfft lobin dr fullpows numtosearch st ii
          = st1 := by
        unfold harm_pass
        exact harm_inner_of_fuel _ _ _ _ _ _ _ _ _ _ hin
      rw [e]
      exact ih _ _ h

/-- A property that the bounded harmonic passes establish holds of the
harmonic passes of `search_fft`. -/
theorem harm_passes_of_fuel (env : Env) (dynamic : Bool) (sigmacutoff : ℚ)
    (numfft lobin : ℕ) (dr : ℚ) (fullpows : List ℚ) (numtosearch H fuel : ℕ)
    (s : SearchState) (p : List ℚ × SearchState → Bool)
    (h : (harm_passes_fuel env dynamic sigmacutoff numfft lobin dr fullpows numtosearch fuel
      (List.range' 2 (H - 1)) (fullpows, s)).any p = true) :
    p (harm_passes env dynamic sigmacutoff numfft lobin dr fullpows numtosearch H s)
      = true := by
  cases hres : harm_passes_fuel env dynamic sigmacutoff numfft lobin dr fullpows numtosearch
      fuel (List.range' 2 (H - 1)) (fullpows, s) with
  | none => rw [hres] at h; simp at h
  | some res =>
    rw [hres] at h
    have := harm_passes_fold_of_fuel env dynamic sigmacutoff numfft lobin dr fullpows
      numtosearch fuel _ _ _ hres
    unfold harm_passes
    rw [this]
    simpa using h

/-- A property that the bounded harmonic passes establish holds of the
candidate list at the end of the search of `search_fft`. -/
theorem search_fft_scan_of_fuel (env : Env) (fullpows : List ℚ) (numfft lobin numharmsum
    numbetween : ℕ) (interptype : presto_interptype) (sigmacutoff : ℚ) (numcands fuel : ℕ)
    (p : SearchState → Bool) (hH : 1 < numharmsum)
    (h : (harm_passes_fuel env (decide (numcands = 0)) sigmacutoff numfft
        (lobin * eff_numbetween interptype numbetween)
        (1 / ((eff_numbetween interptype numbetween : ℕ) : ℚ)) fullpows
        (numfft * eff_numbetween interptype numbetween) fuel
        (List.range' 2 (numharmsum - 1))
        (fullpows, search_fft_raw env fullpows numfft lobin numbetween interptype
          sigmacutoff numcands)).any (fun st => p st.2) = true) :
    p (search_fft_scan env fullpows numfft lobin numharmsum numbetween interptype
      sigmacutoff numcands) = true := by
  unfold search_fft_scan
  simp only []
  rw [if_pos hH]
  exact harm_passes_of_fuel env _ sigmacutoff numfft _ _ fullpows _ numharmsum fuel _
    (fun st => p st.2) h

/-! ## The powers and the statistics of `search_fft` -/

theorem fft_stats_length (fft : List fcomplex) (lobin numfft : ℕ) (norm : ℚ)
    (fullpows : List ℚ) (powmax : ℚ) :
    (fft_stats fft lobin numfft norm fullpows powmax).1.length = fullpows.length := by
  unfold fft_stats
  generalize List.range' lobin (numfft - lobin) = idx
  have key : ∀ (acc : List ℚ × ℚ),
      (idx.foldl (fun (acc : List ℚ × ℚ) ii =>
        (acc.1.set (ii - lobin) (POWER (fft.getD ii czero).r (fft.getD ii czero).i * norm),
          if POWER (fft.getD ii czero).r (fft.getD ii czero).i * norm > acc.2 then
            POWER (fft.getD ii czero).r (fft.getD ii czero).i * norm
          else acc.2)) acc).1.length = acc.1.length := by
    induction idx with
    | nil => intro acc; rfl
    | cons ii idx ih =>
      intro acc
      rw [List.foldl_cons, ih]
      simp
  exact key (fullpows, powmax)

/-- The statistics loop reads the bins `lobin, ..., numfft - 1` only: with
`lobin ≥ 1` it does not look at the DC bin. -/
theorem fft_stats_set_zero (fft : List fcomplex) (z : fcomplex) (lobin numfft : ℕ)
    (norm : ℚ) (fullpows : List ℚ) (powmax : ℚ) (hlo : 1 ≤ lobin) :
    fft_stats (fft.set 0 z) lobin numfft norm fullpows powmax
      = fft_stats fft lobin numfft norm fullpows powmax := by
  unfold fft_stats
  apply List.foldl_ext
  intro acc ii hii
  have h1 : 1 ≤ ii := by
    rw [List.mem_range'_1] at hii
    omega
  have e : (fft.set 0 z).getD ii czero = fft.getD ii czero := by
    rw [List.getD_eq_getElem?_getD, List.getD_eq_getElem?_getD, List.getElem?_set]
    rw [if_neg (by omega)]
  simp only [e]

/-- Closed form of the loop that fills the oversampled powers: the entry 0 is
the placeholder 1, the entry `j ≥ 1` is `POWER(spread[j]) * norm` (with `norm`
the value after line 71). -/
theorem fft_fullpows_getD (spread : List fcomplex) (n : ℕ) (norm : ℚ) (fp0 : List ℚ)
    (hlen : fp0.length = n) :
    (fft_fullpows spread n norm fp0).length = n ∧
    ∀ j, j < n → (fft_fullpows spread n norm fp0).getD j 0
      = if j = 0 then 1
        else POWER (spread.getD j czero).r (spread.getD j czero).i * norm := by
  have key : ∀ m, m + 1 ≤ n →
      ((List.range' 1 m).foldl
        (fun fp ii =>
          fp.set ii (POWER (spread.getD ii czero).r (spread.getD ii czero).i * norm))
        (fp0.set 0 1)).length = n ∧
      ∀ j, j < n → ((List.range' 1 m).foldl
        (fun fp ii =>
          fp.set ii (POWER (spread.getD ii czero).r (spread.getD ii czero).i * norm))
        (fp0.set 0 1)).getD j 0
        = if j = 0 then 1
          else if j ≤ m then POWER (spread.getD j czero).r (spread.getD j czero).i * norm
          else fp0.getD j 0 := by
    intro m
    induction m with
    | zero =>
      intro hm
      refine ⟨by simp [hlen], ?_⟩
      intro j hj
      simp only [List.range'_zero, List.foldl_nil]
      rw [getD_set_rat _ _ _ _ (by omega)]
      by_cases h0 : j = 0
      · simp [h0]
      · rw [if_neg h0, if_neg h0, if_neg (by omega)]
    | succ m ih =>
      intro hm
      obtain ⟨ihl, ihv⟩ := ih (by omega)
      rw [List.range'_concat, List.foldl_append, List.foldl_cons, List.foldl_nil]
      refine ⟨by rw [List.length_set, ihl], ?_⟩
      intro j hj
      rw [getD_set_rat _ _ _ _ (by rw [ihl]; omega), ihv j hj]
      have e1 : 1 + 1 * m = m + 1 := by omega
      rw [e1]
      by_cases hj1 : j = m + 1
      · subst hj1
        simp
      · rw [if_neg hj1]
        by_cases h0 : j = 0
        · simp [h0]
        · rw [if_neg h0, if_neg h0]
          by_cases hle : j ≤ m
          · rw [if_pos hle, if_pos (by omega)]
          · rw [if_neg hle, if_neg (by omega)]
  rcases Nat.eq_zero_or_pos n with hn | hn
  · subst hn
    refine ⟨?_, fun j hj => absurd hj (Nat.not_lt_zero j)⟩
    unfold fft_fullpows
    rw [foldl_set_length _ (fun l b => by simp)]
    simp [hlen]
  · obtain ⟨hl, hv⟩ := key (n - 1) (by omega)
    refine ⟨hl, ?_⟩
    intro j hj
    have := hv j hj
    unfold fft_fullpows
    rw [this]
    by_cases h0 : j = 0
    · simp [h0]
    · rw [if_neg h0, if_neg h0, if_pos (by omega)]

/-- The oversampled power array of `search_fft` has `numtosearch` entries; its
entry 0 is 1 and its entry `j ≥ 1` is `POWER(spread[j]) * (1 / norm)`, `norm`
being the argument of the caller. -/
theorem search_fft_powers_fullpows (env : Env) (kc : KernelCache) (fft : List fcomplex)
    (numfft lobin numbetween : ℕ) (interptype : presto_interptype) (norm powmax : ℚ) :
    (search_fft_powers env kc fft numfft lobin numbetween interptype norm powmax).fullpows.length
      = numfft * eff_numbetween interptype numbetween ∧
    ∃ spread : List fcomplex, ∀ j, j < numfft * eff_numbetween interptype numbetween →
      (search_fft_powers env kc fft numfft lobin numbetween interptype norm
        powmax).fullpows.getD j 0
        = if j = 0 then 1
          else POWER (spread.getD j czero).r (spread.getD j czero).i * (1 / norm) := by
  have h := fft_fullpows_getD
    (spread_stage env
      (match interptype with
        | .INTERPOLATE =>
          prep_kernel env kc numfft (eff_numbetween interptype numbetween)
            (padfftlen env.r_resp_halfwidth_LOWACC numfft
              (eff_numbetween interptype numbetween)).1
            (padfftlen env.r_resp_halfwidth_LOWACC numfft
              (eff_numbetween interptype numbetween)).2
        | .INTERBIN => kc).kernel fft numfft
      (padfftlen env.r_resp_halfwidth_LOWACC numfft (eff_numbetween interptype numbetween)).1
      (eff_numbetween interptype numbetween)
      (numfft * eff_numbetween interptype numbetween) interptype)
    (numfft * eff_numbetween interptype numbetween) (1 / norm)
    (fft_stats fft (lobin * eff_numbetween interptype numbetween) numfft (1 / norm)
      (List.replicate (numfft * eff_numbetween interptype numbetween) 0) powmax).1
    (by rw [fft_stats_length]; simp)
  exact ⟨h.1, _, h.2⟩

/-- With `lobin = 0` the statistics loop starts at the DC bin: the first raw
power stays the true DC power (times `norm`), and `*powmax` ends at least as
large as that power. -/
theorem fft_stats_dc (fft : List fcomplex) (numfft : ℕ) (norm : ℚ) (fullpows : List ℚ)
    (powmax : ℚ) (hn : 1 ≤ numfft) (hl : 1 ≤ fullpows.length) :
    (fft_stats fft 0 numfft norm fullpows powmax).1[0]?
      = some (POWER (fft.getD 0 czero).r (fft.getD 0 czero).i * norm) ∧
    POWER (fft.getD 0 czero).r (fft.getD 0 czero).i * norm
      ≤ (fft_stats fft 0 numfft norm fullpows powmax).2 := by
  have key : ∀ (idx : List ℕ), (∀ ii ∈ idx, 1 ≤ ii) → ∀ (acc : List ℚ × ℚ),
      (idx.foldl (fun (acc : List ℚ × ℚ) ii =>
        (acc.1.set (ii - 0) (POWER (fft.getD ii czero).r (fft.getD ii czero).i * norm),
          if POWER (fft.getD ii czero).r (fft.getD ii czero).i * norm > acc.2 then
            POWER (fft.getD ii czero).r (fft.getD ii czero).i * norm
          else acc.2)) acc).1[0]? = acc.1[0]? ∧
      acc.2 ≤ (idx.foldl (fun (acc : List ℚ × ℚ) ii =>
        (acc.1.set (ii - 0) (POWER (fft.getD ii czero).r (fft.getD ii czero).i * norm),
          if POWER (fft.getD ii czero).r (fft.getD ii czero).i * norm > acc.2 then
            POWER (fft.getD ii czero).r (fft.getD ii czero).i * norm
          else acc.2)) acc).2 := by
    intro idx
    induction idx with
    | nil => intro _ acc; exact ⟨rfl, le_refl _⟩
    | cons ii idx ih =>
      intro hidx acc
      have hii : 1 ≤ ii := hidx ii (List.mem_cons_self _ _)
      obtain ⟨h1, h2⟩ := ih (fun j hj => hidx j (List.mem_cons_of_mem _ hj))
        (acc.1.set (ii - 0) (POWER (fft.getD ii czero).r (fft.getD ii czero).i * norm),
          if POWER (fft.getD ii czero).r (fft.getD ii czero).i * norm > acc.2 then
            POWER (fft.getD ii czero).r (fft.getD ii czero).i * norm
          else acc.2)
      rw [List.foldl_cons]
      constructor
      · rw [h1, List.getElem?_set]
        have hne : ¬ ii - 0 = 0 := by omega
        rw [if_neg hne]
      · refine le_trans ?_ h2
        show acc.2 ≤ if POWER (fft.getD ii czero).r (fft.getD ii czero).i * norm > acc.2 then
            POWER (fft.getD ii czero).r (fft.getD ii czero).i * norm
          else acc.2
        split_ifs with hc
        · exact le_of_lt hc
        · exact le_refl _
  obtain ⟨m, rfl⟩ : ∃ m, numfft = m + 1 := ⟨numfft - 1, by omega⟩
  unfold fft_stats
  have hr : List.range' 0 (m + 1 - 0) = 0 :: List.range' 1 m := by
    rw [Nat.sub_zero]; rfl
  rw [hr, List.foldl_cons]
  obtain ⟨h1, h2⟩ := key (List.range' 1 m)
    (fun ii hii => by rw [List.mem_range'_1] at hii; omega)
    (fullpows.set (0 - 0) (POWER (fft.getD 0 czero).r (fft.getD 0 czero).i * norm),
      if POWER (fft.getD 0 czero).r (fft.getD 0 czero).i * norm > powmax then
        POWER (fft.getD 0 czero).r (fft.getD 0 czero).i * norm
      else powmax)
  constructor
  · rw [h1]
    show (fullpows.set 0 _)[0]? = _
    rw [List.getElem?_set, if_pos rfl]
    have hlt : 0 < fullpows.length := by omega
    simp [hlt]
  · refine le_trans ?_ h2
    show POWER (fft.getD 0 czero).r (fft.getD 0 czero).i * norm
      ≤ if POWER (fft.getD 0 czero).r (fft.getD 0 czero).i * norm > powmax then
          POWER (fft.getD 0 czero).r (fft.getD 0 czero).i * norm
        else powmax
    split_ifs with hc
    · exact le_refl _
    · exact not_lt.1 hc

/-! ## C11: the DC bin -/

/-- C11, as stated, fails: with `lobin = 0` the raw powers from which the
statistics are taken start with the true DC power (2500 for `sampleFft`), and
`powmax` and `powavg` are that of the DC bin: 2500 and 2535/8, against 9 and
9/2 when the DC bin holds `(1, 0)`. -/
theorem search_fft_statistics_see_dc :
    (fft_stats sampleFft 0 8 1 (List.replicate 16 0) 0).1[0]? = some 2500 ∧
    (search_fft toyEnv KernelCache.fresh sampleFft 8 0 1 2 presto_interptype.INTERBIN 1 0 3
      0).powmax = 2500 ∧
    (search_fft toyEnv KernelCache.fresh sampleFft 8 0 1 2 presto_interptype.INTERBIN 1 0 3
      0).powavg = 2535 / 8 ∧
    (search_fft toyEnv KernelCache.fresh (sampleFft.set 0 ⟨1, 0⟩) 8 0 1 2
      presto_interptype.INTERBIN 1 0 3 0).powmax = 9 ∧
    (search_fft toyEnv KernelCache.fresh (sampleFft.set 0 ⟨1, 0⟩) 8 0 1 2
      presto_interptype.INTERBIN 1 0 3 0).powavg = 9 / 2 := by
  decide!

/-- C11, amended: in every call of `search_fft` with at least one oversampled
bin, the entry 0 of the oversampled power array that is searched is the
placeholder 1, never the true DC power. In the raw powers of the statistics:
with `lobin ≥ 1` (and an oversampling factor of at least 1) the statistics
`powavg`, `powvar` and `powmax` do not depend on the DC bin of the input;
with `lobin = 0` the first of the raw powers handed to `avg_var` is the true
DC power `POWER(fft[0])` times the normalisation factor (`1 / norm`, see
line 71), and `powmax` is at least that power. -/
theorem search_fft_dc_placeholder (env : Env) (kc : KernelCache) (fft : List fcomplex)
    (numfft lobin numharmsum numbetween : ℕ) (interptype : presto_interptype)
    (norm sigmacutoff : ℚ) (numcands : ℕ) (powmax : ℚ) :
    (0 < numfft * eff_numbetween interptype numbetween →
      (search_fft_powers env kc fft numfft lobin numbetween interptype norm
        powmax).fullpows[0]? = some 1) ∧
    (1 ≤ lobin → 1 ≤ eff_numbetween interptype numbetween → ∀ z : fcomplex,
      (search_fft env kc (fft.set 0 z) numfft lobin numharmsum numbetween interptype norm
        sigmacutoff numcands powmax).powavg
        = (search_fft env kc fft numfft lobin numharmsum numbetween interptype norm
            sigmacutoff numcands powmax).powavg ∧
      (search_fft env kc (fft.set 0 z) numfft lobin numharmsum numbetween interptype norm
        sigmacutoff numcands powmax).powvar
        = (search_fft env kc fft numfft lobin numharmsum numbetween interptype norm
            sigmacutoff numcands powmax).powvar ∧
      (search_fft env kc (fft.set 0 z) numfft lobin numharmsum numbetween interptype norm
        sigmacutoff numcands powmax).powmax
        = (search_fft env kc fft numfft lobin numharmsum numbetween interptype norm
            sigmacutoff numcands powmax).powmax) ∧
    (0 < numfft * eff_numbetween interptype numbetween →
      ∃ raw : List ℚ,
        raw[0]? = some (POWER (fft.getD 0 czero).r (fft.getD 0 czero).i * (1 / norm)) ∧
        (search_fft env kc fft numfft 0 numharmsum numbetween interptype norm
          sigmacutoff numcands powmax).powavg = (env.avg_var raw (numfft : ℤ)).1 ∧
        (search_fft env kc fft numfft 0 numharmsum numbetween interptype norm
          sigmacutoff numcands powmax).powvar = (env.avg_var raw (numfft : ℤ)).2 ∧
        POWER (fft.getD 0 czero).r (fft.getD 0 czero).i * (1 / norm)
          ≤ (search_fft env kc fft numfft 0 numharmsum numbetween interptype norm
              sigmacutoff numcands powmax).powmax) := by
  refine ⟨?_, ?_, ?_⟩
  · intro hpos
    obtain ⟨hlen, spread, hv⟩ := search_fft_powers_fullpows env kc fft numfft lobin
      numbetween interptype norm powmax
    have h0 := hv 0 hpos
    rw [if_pos rfl, List.getD_eq_getElem?_getD] at h0
    have hlt : 0 < (search_fft_powers env kc fft numfft lobin numbetween interptype norm
        powmax).fullpows.length := by rw [hlen]; exact hpos
    rw [List.getElem?_eq_getElem hlt] at h0 ⊢
    simpa using h0
  · intro hlob hnb z
    have hlo : 1 ≤ lobin * eff_numbetween interptype numbetween := Nat.mul_pos hlob hnb
    have e := fft_stats_set_zero fft z (lobin * eff_numbetween interptype numbetween) numfft
      (1 / norm) (List.replicate (numfft * eff_numbetween interptype numbetween) 0) powmax hlo
    refine ⟨?_, ?_, ?_⟩
    · show (env.avg_var (fft_stats (fft.set 0 z) _ numfft (1 / norm) _ powmax).1 _).1
        = (env.avg_var (fft_stats fft _ numfft (1 / norm) _ powmax).1 _).1
      rw [e]
    · show (env.avg_var (fft_stats (fft.set 0 z) _ numfft (1 / norm) _ powmax).1 _).2
        = (env.avg_var (fft_stats fft _ numfft (1 / norm) _ powmax).1 _).2
      rw [e]
    · show (fft_stats (fft.set 0 z) _ numfft (1 / norm) _ powmax).2
        = (fft_stats fft _ numfft (1 / norm) _ powmax).2
      rw [e]
  · intro hpos
    have hn : 1 ≤ numfft := Nat.pos_of_mul_pos_right hpos
    have hdc := fft_stats_dc fft numfft (1 / norm)
      (List.replicate (numfft * eff_numbetween interptype numbetween) 0) powmax hn
      (by rw [List.length_replicate]; exact hpos)
    have hz : 0 * eff_numbetween interptype numbetween = 0 := Nat.zero_mul _
    refine ⟨(fft_stats fft 0 numfft (1 / norm)
      (List.replicate (numfft * eff_numbetween interptype numbetween) 0) powmax).1,
      hdc.1, ?_, ?_, ?_⟩
    · show (env.avg_var (fft_stats fft (0 * eff_numbetween interptype numbetween) numfft
          (1 / norm) _ powmax).1
          ((numfft : ℤ) - ((0 * eff_numbetween interptype numbetween : ℕ) : ℤ))).1 = _
      rw [hz]
      simp
    · show (env.avg_var (fft_stats fft (0 * eff_numbetween interptype numbetween) numfft
          (1 / norm) _ powmax).1
          ((numfft : ℤ) - ((0 * eff_numbetween interptype numbetween : ℕ) : ℤ))).2 = _
      rw [hz]
      simp
    · show _ ≤ (fft_stats fft (0 * eff_numbetween interptype numbetween) numfft
          (1 / norm) _ powmax).2
      rw [hz]
      exact hdc.2

/-- C11, amended, at concrete calls on `sampleFft`: with `lobin = 1` the
searched entry 0 is 1 and the statistics are those of the spectrum with the
DC bin replaced by `(1, 0)`; with `lobin = 0` the DC power 2500 bounds
`powmax` from below. -/
theorem search_fft_dc_placeholder_witness :
    (search_fft_powers toyEnv KernelCache.fresh sampleFft 8 1 2 presto_interptype.INTERBIN 1
      0).fullpows[0]? = some 1 ∧
    (search_fft toyEnv KernelCache.fresh (sampleFft.set 0 ⟨1, 0⟩) 8 1 1 2
      presto_interptype.INTERBIN 1 0 3 0).powmax
      = (search_fft toyEnv KernelCache.fresh sampleFft 8 1 1 2 presto_interptype.INTERBIN 1 0
          3 0).powmax ∧
    POWER (sampleFft.getD 0 czero).r (sampleFft.getD 0 czero).i * (1 / 1) = 2500 ∧
    (∃ raw : List ℚ,
      raw[0]? = some (POWER (sampleFft.getD 0 czero).r (sampleFft.getD 0 czero).i * (1 / 1)) ∧
      (search_fft toyEnv KernelCache.fresh sampleFft 8 0 1 2 presto_interptype.INTERBIN 1 0 3
        0).powavg = (toyEnv.avg_var raw ((8 : ℕ) : ℤ)).1 ∧
      (search_fft toyEnv KernelCache.fresh sampleFft 8 0 1 2 presto_interptype.INTERBIN 1 0 3
        0).powvar = (toyEnv.avg_var raw ((8 : ℕ) : ℤ)).2 ∧
      POWER (sampleFft.getD 0 czero).r (sampleFft.getD 0 czero).i * (1 / 1)
        ≤ (search_fft toyEnv KernelCache.fresh sampleFft 8 0 1 2 presto_interptype.INTERBIN 1
            0 3 0).powmax) :=
  ⟨(search_fft_dc_placeholder toyEnv KernelCache.fresh sampleFft 8 1 1 2
      presto_interptype.INTERBIN 1 0 3 0).1 (by decide),
    ((search_fft_dc_placeholder toyEnv KernelCache.fresh sampleFft 8 1 1 2
      presto_interptype.INTERBIN 1 0 3 0).2.1 (by decide) (by decide) ⟨1, 0⟩).2.2,
    by decide!,
    (search_fft_dc_placeholder toyEnv KernelCache.fresh sampleFft 8 1 1 2
      presto_interptype.INTERBIN 1 0 3 0).2.2 (by decide)⟩

/-! ## C12, C13, C14: the statistics -/

/-- C12 on the code: for `stepFft` (raw powers 1, 9, 16, 0, 0, 0, 0 in the bins
1, ..., 7) and `lobin = 1`, the mean of the raw powers of the bins 1, ..., 7
is 26/7 whatever the oversampling; `search_fft` reports `powavg = 25/6` with
`numbetween = 2` (the bins 2, ..., 7) and `powavg = 0` with `numbetween = 4`
(the bins 4, ..., 7), and the maximum 16 of the band becomes `powmax = 0` with
`numbetween = 4`. -/
theorem search_fft_statistics_band_scaled :
    (search_fft toyEnv KernelCache.fresh stepFft 8 1 1 2 presto_interptype.INTERPOLATE 1 0 2
      0).powavg = 25 / 6 ∧
    (search_fft toyEnv KernelCache.fresh stepFft 8 1 1 4 presto_interptype.INTERPOLATE 1 0 2
      0).powavg = 0 ∧
    (search_fft toyEnv KernelCache.fresh stepFft 8 1 1 2 presto_interptype.INTERPOLATE 1 0 2
      0).powmax = 16 ∧
    (search_fft toyEnv KernelCache.fresh stepFft 8 1 1 4 presto_interptype.INTERPOLATE 1 0 2
      0).powmax = 0 ∧
    (fft_stats stepFft 2 8 1 (List.replicate 16 0) 0).1.take 6 = [9, 16, 0, 0, 0, 0] ∧
    (toyEnv.avg_var [1, 9, 16, 0, 0, 0, 0] 7).1 = 26 / 7 := by
  decide!

/-- C13 on the code: with the argument `norm = 2` the bin `(3, 0)` of
`stepFft` gets the power `9 / 2` in the oversampled array (index 4) and in the
raw powers of the statistics, and `powmax` is `16 / 2 = 8`: the powers are
divided by the argument, where the claim has `9 * 2 = 18` and `16 * 2 = 32`. -/
theorem search_fft_divides_by_norm :
    (search_fft_powers toyEnv KernelCache.fresh stepFft 8 1 2 presto_interptype.INTERPOLATE 2
      0).fullpows[4]? = some (9 / 2) ∧
    (fft_stats stepFft 2 8 (1 / 2) (List.replicate 16 0) 0).1[0]? = some (9 / 2) ∧
    (search_fft toyEnv KernelCache.fresh stepFft 8 1 1 2 presto_interptype.INTERPOLATE 2 0 2
      0).powmax = 8 ∧
    POWER 3 0 * 2 = 18 ∧ POWER 4 0 * 2 = 32 := by
  decide!

/-- C14 on the code: `*powmax` is read before it is ever written. On `stepFft`
the largest raw power of the band is 16, and that is what comes back when
`*powmax` holds 0 on entry; when it holds 1000 on entry, 1000 comes back. -/
theorem search_fft_powmax_keeps_entry_value :
    (search_fft toyEnv KernelCache.fresh stepFft 8 1 1 2 presto_interptype.INTERPOLATE 1 0 2
      0).powmax = 16 ∧
    (search_fft toyEnv KernelCache.fresh stepFft 8 1 1 2 presto_interptype.INTERPOLATE 1 0 2
      1000).powmax = 1000 := by
  decide!

/-! ## C15: the kernel cache -/

theorem search_fft_cache (env : Env) (kc : KernelCache) (fft : List fcomplex)
    (numfft lobin numharmsum numbetween : ℕ) (norm sigmacutoff : ℚ) (numcands : ℕ)
    (powmax : ℚ) :
    (search_fft env kc fft numfft lobin numharmsum numbetween presto_interptype.INTERPOLATE
      norm sigmacutoff numcands powmax).cache
      = prep_kernel env kc numfft numbetween
          (padfftlen env.r_resp_halfwidth_LOWACC numfft numbetween).1
          (padfftlen env.r_resp_halfwidth_LOWACC numfft numbetween).2 := rfl

theorem search_minifft_cache (env : Env) (kc : KernelCache) (minifft : List fcomplex)
    (numminifft : ℕ) (cands : List rawbincand) (numcands numharmsum numbetween : ℕ)
    (numfullfft timefullfft lorfullfft : ℚ) (checkaliased : presto_checkaliased) :
    (search_minifft env kc minifft numminifft cands numcands numharmsum numbetween numfullfft
      timefullfft lorfullfft presto_interptype.INTERPOLATE checkaliased).cache
      = prep_kernel env kc numminifft numbetween
          (padfftlen env.r_resp_halfwidth_LOWACC numminifft numbetween).1
          (padfftlen env.r_resp_halfwidth_LOWACC numminifft numbetween).2 := rfl

/-- C15 on the code: the cache is keyed by the input length alone. After a
first interpolating call with the oversampling factor `nb1`, a second call
with the same length and any other factor `nb2` leaves the cache as it is and
correlates with the kernel built for `nb1` (in the model the kernel a call
uses is the kernel of the cache it leaves behind), for `search_fft` and for
`search_minifft`. With `toyEnv`, length 8 and the factors 2 then 4, the kernel
used by the second call has 18 entries, the kernel built for its own key 36. -/
theorem kernel_cache_ignores_numbetween (env : Env) (fft : List fcomplex)
    (numfft lobin numharmsum nb1 nb2 : ℕ) (norm sigmacutoff : ℚ) (numcands : ℕ) (powmax : ℚ)
    (cands : List rawbincand) (numfullfft timefullfft lorfullfft : ℚ)
    (checkaliased : presto_checkaliased) :
    (search_fft env
      (search_fft env KernelCache.fresh fft numfft lobin numharmsum nb1
        presto_interptype.INTERPOLATE norm sigmacutoff numcands powmax).cache
      fft numfft lobin numharmsum nb2 presto_interptype.INTERPOLATE norm sigmacutoff numcands
      powmax).cache.kernel
      = env.gen_kernel nb1 (2 * nb1 * (padfftlen env.r_resp_halfwidth_LOWACC numfft nb1).2)
          (padfftlen env.r_resp_halfwidth_LOWACC numfft nb1).1 ∧
    (search_minifft env
      (search_minifft env KernelCache.fresh fft numfft cands numcands numharmsum nb1
        numfullfft timefullfft lorfullfft presto_interptype.INTERPOLATE checkaliased).cache
      fft numfft cands numcands numharmsum nb2 numfullfft timefullfft lorfullfft
      presto_interptype.INTERPOLATE checkaliased).cache.kernel
      = env.gen_kernel nb1 (2 * nb1 * (padfftlen env.r_resp_halfwidth_LOWACC numfft nb1).2)
          (padfftlen env.r_resp_halfwidth_LOWACC numfft nb1).1 ∧
    (search_fft toyEnv
      (search_fft toyEnv KernelCache.fresh stepFft 8 1 1 2 presto_interptype.INTERPOLATE 1 0
        2 0).cache
      stepFft 8 1 1 4 presto_interptype.INTERPOLATE 1 0 2 0).cache.kernel.length = 18 ∧
    (toyEnv.gen_kernel 4 (2 * 4 * (padfftlen toyEnv.r_resp_halfwidth_LOWACC 8 4).2)
      (padfftlen toyEnv.r_resp_halfwidth_LOWACC 8 4).1).length = 36 := by
  refine ⟨?_, ?_, by decide!, by decide!⟩
  · rw [search_fft_cache, search_fft_cache]
    simp [prep_kernel, KernelCache.fresh]
  · rw [search_minifft_cache, search_minifft_cache]
    simp [prep_kernel, KernelCache.fresh]

/-! ## C16: the power array of `search_minifft` -/

theorem getElem?_of_getD (l : List ℚ) (j : ℕ) (hj : j < l.length) :
    l[j]? = some (l.getD j 0) := by
  rw [List.getD_eq_getElem?_getD, List.getElem?_eq_getElem hj]
  rfl

/-- The aliased power array after the first `m` turns of the mirroring loop. -/
theorem minifft_fullpows_aliased_prefix (spread : List fcomplex) (L : ℕ) :
    ∀ m, m + 1 ≤ L →
      ((List.range' 1 m).foldl
        (fun fp ii =>
          (fp.set (2 * L - ii)
            (POWER (spread.getD ii czero).r (spread.getD ii czero).i)).set
            ii (POWER (spread.getD ii czero).r (spread.getD ii czero).i))
        (((List.replicate (2 * L) 0).set 0 1).set L 1)).length = 2 * L ∧
      ∀ j, j < 2 * L → ((List.range' 1 m).foldl
        (fun fp ii =>
          (fp.set (2 * L - ii)
            (POWER (spread.getD ii czero).r (spread.getD ii czero).i)).set
            ii (POWER (spread.getD ii czero).r (spread.getD ii czero).i))
        (((List.replicate (2 * L) 0).set 0 1).set L 1)).getD j 0
        = if 1 ≤ j ∧ j ≤ m then POWER (spread.getD j czero).r (spread.getD j czero).i
          else if 2 * L - m ≤ j then
            POWER (spread.getD (2 * L - j) czero).r (spread.getD (2 * L - j) czero).i
          else if j = 0 ∨ j = L then 1 else 0 := by
  intro m
  induction m with
  | zero =>
    intro hm
    refine ⟨by simp, ?_⟩
    intro j hj
    simp only [List.range'_zero, List.foldl_nil]
    rw [getD_set_rat _ _ _ _ (by simp; omega), getD_set_rat _ _ _ _ (by simp; omega)]
    have hrep : (List.replicate (2 * L) (0 : ℚ)).getD j 0 = 0 := by
      rw [List.getD_eq_getElem?_getD]
      simp [hj]
    have h1 : ¬ (1 ≤ j ∧ j ≤ 0) := by omega
    have h2 : ¬ (2 * L - 0 ≤ j) := by omega
    rw [hrep, if_neg h1, if_neg h2]
    by_cases hL : j = L
    · simp [hL]
    · by_cases h0 : j = 0
      · simp [h0]
      · simp [hL, h0]
  | succ m ih =>
    intro hm
    obtain ⟨ihl, ihv⟩ := ih (by omega)
    rw [List.range'_concat, List.foldl_append, List.foldl_cons, List.foldl_nil]
    have e1 : 1 + 1 * m = m + 1 := by omega
    rw [e1]
    refine ⟨by rw [List.length_set, List.length_set, ihl], ?_⟩
    intro j hj
    have hlen1 : 2 * L - (m + 1) < ((List.range' 1 m).foldl
        (fun fp ii =>
          (fp.set (2 * L - ii)
            (POWER (spread.getD ii czero).r (spread.getD ii czero).i)).set
            ii (POWER (spread.getD ii czero).r (spread.getD ii czero).i))
        (((List.replicate (2 * L) 0).set 0 1).set L 1)).length := by
      rw [ihl]; omega
    have hlen2 : m + 1 < (((List.range' 1 m).foldl
        (fun fp ii =>
          (fp.set (2 * L - ii)
            (POWER (spread.getD ii czero).r (spread.getD ii czero).i)).set
            ii (POWER (spread.getD ii czero).r (spread.getD ii czero).i))
        (((List.replicate (2 * L) 0).set 0 1).set L 1)).set (2 * L - (m + 1))
        (POWER (spread.getD (m + 1) czero).r (spread.getD (m + 1) czero).i)).length := by
      rw [List.length_set, ihl]; omega
    rw [getD_set_rat _ _ _ _ hlen2, getD_set_rat _ _ _ _ hlen1, ihv j hj]
    by_cases hj1 : j = m + 1
    · have ha : 1 ≤ j ∧ j ≤ m + 1 := by omega
      rw [if_pos hj1, if_pos ha, hj1]
    · rw [if_neg hj1]
      by_cases hj2 : j = 2 * L - (m + 1)
      · have ha : ¬ (1 ≤ j ∧ j ≤ m + 1) := by omega
        have hb : 2 * L - (m + 1) ≤ j := by omega
        have e2 : 2 * L - j = m + 1 := by omega
        rw [if_pos hj2, if_neg ha, if_pos hb, e2]
      · rw [if_neg hj2]
        by_cases ha : 1 ≤ j ∧ j ≤ m
        · have ha' : 1 ≤ j ∧ j ≤ m + 1 := by omega
          rw [if_pos ha, if_pos ha']
        · have ha' : ¬ (1 ≤ j ∧ j ≤ m + 1) := by omega
          rw [if_neg ha, if_neg ha']
          by_cases hb : 2 * L - m ≤ j
          · have hb' : 2 * L - (m + 1) ≤ j := by omega
            rw [if_pos hb, if_pos hb']
          · have hb' : ¬ (2 * L - (m + 1) ≤ j) := by omega
            rw [if_neg hb, if_neg hb']

theorem minifft_fullpows_plain (spread : List fcomplex) (L : ℕ) :
    minifft_fullpows spread L presto_checkaliased.NO_CHECK_ALIASED
      = fft_fullpows spread L 1 (List.replicate L 0) := by
  unfold minifft_fullpows fft_fullpows
  simp only [mul_one]

/-- C16: in `search_minifft`, with `L = numminifft * numbetween` (the factor in
force), the power array is `minifft_fullpows` of the spread buffer. With
`CHECK_ALIASED` it has `2 * L` entries, the entries 0 and `L` are the
placeholder 1 (for `L ≥ 1`), and for `1 ≤ k < L` the entries `k` and
`2 * L - k` are both `re(spread[k])^2 + im(spread[k])^2`. With
`NO_CHECK_ALIASED` it has `L` entries and the entry `k` is that power for
`1 ≤ k < L`. -/
theorem minifft_fullpows_mirror (env : Env) (kc : KernelCache) (minifft : List fcomplex)
    (numminifft numbetween : ℕ) (interptype : presto_interptype) (spread : List fcomplex)
    (L : ℕ) (hL : 1 ≤ L) :
    (∀ checkaliased,
      (search_minifft_powers env kc minifft numminifft numbetween interptype checkaliased).1
        = minifft_fullpows
            (spread_stage env
              (search_minifft_powers env kc minifft numminifft numbetween interptype
                checkaliased).2.kernel
              minifft numminifft
              (padfftlen env.r_resp_halfwidth_LOWACC numminifft
                (eff_numbetween interptype numbetween)).1
              (eff_numbetween interptype numbetween)
              (numminifft * eff_numbetween interptype numbetween) interptype)
            (numminifft * eff_numbetween interptype numbetween) checkaliased) ∧
    (minifft_fullpows spread L presto_checkaliased.CHECK_ALIASED).length = 2 * L ∧
    (minifft_fullpows spread L presto_checkaliased.CHECK_ALIASED)[0]? = some 1 ∧
    (minifft_fullpows spread L presto_checkaliased.CHECK_ALIASED)[L]? = some 1 ∧
    (minifft_fullpows spread L presto_checkaliased.NO_CHECK_ALIASED).length = L ∧
    ∀ k, 1 ≤ k → k < L →
      (minifft_fullpows spread L presto_checkaliased.CHECK_ALIASED)[k]?
        = some (POWER (spread.getD k czero).r (spread.getD k czero).i) ∧
      (minifft_fullpows spread L presto_checkaliased.CHECK_ALIASED)[2 * L - k]?
        = some (POWER (spread.getD k czero).r (spread.getD k czero).i) ∧
      (minifft_fullpows spread L presto_checkaliased.NO_CHECK_ALIASED)[k]?
        = some (POWER (spread.getD k czero).r (spread.getD k czero).i) := by
  obtain ⟨hl, hv⟩ := minifft_fullpows_aliased_prefix spread L (L - 1) (by omega)
  have hdef : minifft_fullpows spread L presto_checkaliased.CHECK_ALIASED
      = (List.range' 1 (L - 1)).foldl
        (fun fp ii =>
          (fp.set (2 * L - ii)
            (POWER (spread.getD ii czero).r (spread.getD ii czero).i)).set
            ii (POWER (spread.getD ii czero).r (spread.getD ii czero).i))
        (((List.replicate (2 * L) 0).set 0 1).set L 1) := rfl
  rw [← hdef] at hl hv
  obtain ⟨hpl, hpv⟩ := fft_fullpows_getD spread L 1 (List.replicate L 0) (by simp)
  rw [← minifft_fullpows_plain] at hpl hpv
  refine ⟨fun checkaliased => rfl, hl, ?_, ?_, hpl, ?_⟩
  · have h1 : ¬ (1 ≤ 0 ∧ 0 ≤ L - 1) := by omega
    have h2 : ¬ (2 * L - (L - 1) ≤ 0) := by omega
    rw [getElem?_of_getD _ _ (by rw [hl]; omega), hv 0 (by omega), if_neg h1, if_neg h2,
      if_pos (Or.inl rfl)]
  · have h1 : ¬ (1 ≤ L ∧ L ≤ L - 1) := by omega
    have h2 : ¬ (2 * L - (L - 1) ≤ L) := by omega
    rw [getElem?_of_getD _ _ (by rw [hl]; omega), hv L (by omega), if_neg h1, if_neg h2,
      if_pos (Or.inr rfl)]
  · intro k hk1 hkL
    refine ⟨?_, ?_, ?_⟩
    · have h1 : 1 ≤ k ∧ k ≤ L - 1 := by omega
      rw [getElem?_of_getD _ _ (by rw [hl]; omega), hv k (by omega), if_pos h1]
    · have h1 : ¬ (1 ≤ 2 * L - k ∧ 2 * L - k ≤ L - 1) := by omega
      have h2 : 2 * L - (L - 1) ≤ 2 * L - k := by omega
      have e : 2 * L - (2 * L - k) = k := by omega
      rw [getElem?_of_getD _ _ (by rw [hl]; omega), hv (2 * L - k) (by omega), if_neg h1,
        if_pos h2, e]
    · have h1 : ¬ k = 0 := by omega
      rw [getElem?_of_getD _ _ (by rw [hpl]; omega), hpv k hkL, if_neg h1, mul_one]

/-- C16 at a concrete spread buffer with `L = 4`: the array is
`[1, 5, 9, 1, 1, 1, 9, 5]`. -/
theorem minifft_fullpows_mirror_witness :
    minifft_fullpows [⟨9, 9⟩, ⟨1, 2⟩, ⟨3, 0⟩, ⟨0, 1⟩, ⟨7, 7⟩] 4
      presto_checkaliased.CHECK_ALIASED = [1, 5, 9, 1, 1, 1, 9, 5] ∧
    (minifft_fullpows [⟨9, 9⟩, ⟨1, 2⟩, ⟨3, 0⟩, ⟨0, 1⟩, ⟨7, 7⟩] 4
      presto_checkaliased.CHECK_ALIASED)[4]? = some 1 ∧
    (minifft_fullpows [⟨9, 9⟩, ⟨1, 2⟩, ⟨3, 0⟩, ⟨0, 1⟩, ⟨7, 7⟩] 4
      presto_checkaliased.CHECK_ALIASED)[2 * 4 - 1]?
      = some (POWER ((([⟨9, 9⟩, ⟨1, 2⟩, ⟨3, 0⟩, ⟨0, 1⟩, ⟨7, 7⟩] : List fcomplex).getD 1
          czero).r)
        ((([⟨9, 9⟩, ⟨1, 2⟩, ⟨3, 0⟩, ⟨0, 1⟩, ⟨7, 7⟩] : List fcomplex).getD 1 czero).i)) :=
  ⟨by decide!,
    (minifft_fullpows_mirror toyEnv KernelCache.fresh sampleFft 8 2
      presto_interptype.INTERBIN [⟨9, 9⟩, ⟨1, 2⟩, ⟨3, 0⟩, ⟨0, 1⟩, ⟨7, 7⟩] 4
      (by decide)).2.2.2.1,
    ((minifft_fullpows_mirror toyEnv KernelCache.fresh sampleFft 8 2
      presto_interptype.INTERBIN [⟨9, 9⟩, ⟨1, 2⟩, ⟨3, 0⟩, ⟨0, 1⟩, ⟨7, 7⟩] 4
      (by decide)).2.2.2.2.2 1 (by decide) (by decide)).2.1⟩

/-! ## C17: the order of the binary candidates -/

/-- A store keeps an array of `numcands ≥ 1` slots in non-increasing order of
significance, whatever the significance of the new candidate. -/
theorem store_rawbincand_sorted (numcands : ℕ) (s : MiniState) (r power numsum sigma : ℚ)
    (h1 : 1 ≤ numcands) (hlen : s.cands.length = numcands) (hs : sortedBySigma s.cands) :
    (store_rawbincand numcands s r power numsum sigma).cands.length = numcands ∧
    sortedBySigma (store_rawbincand numcands s r power numsum sigma).cands := by
  obtain ⟨old, hold, hA⟩ := eq_take_append_last s.cands numcands h1 hlen
  generalize s.cands.take (numcands - 1) = A at hold hA
  have e1 : numcands - 1 = A.length := hA.symm
  have hAsort : A.Pairwise (fun a b : rawbincand => b.mini_sigma ≤ a.mini_sigma) := by
    unfold sortedBySigma at hs
    rw [hold, List.pairwise_append] at hs
    exact hs.1
  have hc : (store_rawbincand numcands s r power numsum sigma).cands
      = percolateLoop (fun c : rawbincand => c.mini_sigma) A.length
          (A ++ [{ old with
            mini_r := r, mini_power := power, mini_numsum := numsum,
            mini_sigma := sigma }]) := by
    unfold store_rawbincand percolate_rawbincands
    simp only [e1, hold, set_append_last, getD_append_last]
  rw [hc, percolateLoop_full]
  constructor
  · rw [(percolated_perm _ _ A).length_eq]
    simp
    omega
  · exact percolated_pairwise (fun c : rawbincand => c.mini_sigma) _ A hAsort

/-- C17: for every input with `numcands ≥ 1` slots and for arbitrary
significance functions `candidate_sigma` and `power_for_sigma` (the fields of
`env`), the array that `search_minifft` leaves behind is in non-increasing
order of `mini_sigma`, and every slot of it is a stored candidate or a slot
that was never filled, with `mini_sigma = 0` and `mini_power = 0`. -/
theorem search_minifft_sorted (env : Env) (kc : KernelCache) (minifft : List fcomplex)
    (numminifft : ℕ) (cands : List rawbincand) (numcands numharmsum numbetween : ℕ)
    (numfullfft timefullfft lorfullfft : ℚ) (interptype : presto_interptype)
    (checkaliased : presto_checkaliased) (h1 : 1 ≤ numcands)
    (hlen : cands.length = numcands) :
    sortedBySigma (search_minifft env kc minifft numminifft cands numcands numharmsum
      numbetween numfullfft timefullfft lorfullfft interptype checkaliased).cands ∧
    (search_minifft env kc minifft numminifft cands numcands numharmsum numbetween numfullfft
      timefullfft lorfullfft interptype checkaliased).cands.length = numcands ∧
    ∀ c ∈ (search_minifft env kc minifft numminifft cands numcands numharmsum numbetween
        numfullfft timefullfft lorfullfft interptype checkaliased).cands,
      (∃ w ∈ (search_minifft env kc minifft numminifft cands numcands numharmsum numbetween
          numfullfft timefullfft lorfullfft interptype checkaliased).written,
          c.mini_sigma = w.mini_sigma ∧ c.mini_power = w.mini_power ∧
            c.mini_r = w.mini_r ∧ c.mini_numsum = w.mini_numsum) ∨
        (c.mini_sigma = 0 ∧ c.mini_power = 0) := by
  have hinv := search_minifft_scan_inv
    (fun s => s.cands.length = numcands ∧ sortedBySigma s.cands ∧
      ∀ c ∈ s.cands, c ∈ s.written ∨ (c.mini_sigma = 0 ∧ c.mini_power = 0))
    env
    (search_minifft_powers env kc minifft numminifft numbetween interptype checkaliased).1
    (mini_numtosearch checkaliased (numminifft * eff_numbetween interptype numbetween))
    cands numcands numharmsum numbetween interptype
    (fun s k power numsum sigma hs => by
      obtain ⟨hl, hsorted, hmem⟩ := hs
      obtain ⟨hl', hsorted'⟩ := store_rawbincand_sorted numcands s
        (1 / ((eff_numbetween interptype numbetween : ℕ) : ℚ) * (k : ℚ)) power numsum sigma
        h1 hl hsorted
      obtain ⟨newc, -, hw, hc⟩ := store_rawbincand_mem numcands s
        (1 / ((eff_numbetween interptype numbetween : ℕ) : ℚ) * (k : ℚ)) power numsum sigma
      refine ⟨hl', hsorted', ?_⟩
      intro c hc'
      rcases hc c hc' with h | h
      · left; rw [hw, h]; simp
      · rcases hmem c h with h' | h'
        · left; rw [hw]; exact List.mem_append_left _ h'
        · right; exact h')
    (fun s m hs => hs)
    (by
      rw [mapFirst_of_length _ _ _ hlen]
      refine ⟨by simp [hlen], ?_, ?_⟩
      · unfold sortedBySigma
        rw [List.pairwise_map]
        exact List.pairwise_of_forall (fun _ _ => le_refl _)
      · intro c hc
        right
        obtain ⟨c0, -, rfl⟩ := List.mem_map.1 hc
        exact ⟨rfl, rfl⟩)
  obtain ⟨hl, hsorted, hmem⟩ := hinv
  have hres : (search_minifft env kc minifft numminifft cands numcands numharmsum numbetween
      numfullfft timefullfft lorfullfft interptype checkaliased).cands
      = (search_minifft_scan env
          (search_minifft_powers env kc minifft numminifft numbetween interptype
            checkaliased).1
          (mini_numtosearch checkaliased (numminifft * eff_numbetween interptype numbetween))
          cands numcands numharmsum numbetween interptype).cands.map
          (fun c =>
            { c with
              full_N := numfullfft,
              full_T := timefullfft,
              full_lo_r := lorfullfft,
              mini_N := ((numminifft * eff_numbetween interptype numbetween : ℕ) : ℚ),
              psr_p := timefullfft / (lorfullfft + (numminifft : ℚ)),
              orb_p := timefullfft * c.mini_r /
                ((numminifft * eff_numbetween interptype numbetween : ℕ) : ℚ) }) := by
    show minifft_finish _ _ _ _ _ _ _ = _
    unfold minifft_finish
    rw [mapFirst_of_length _ _ _ hl]
  rw [hres]
  refine ⟨?_, by rw [List.length_map]; exact hl, ?_⟩
  · unfold sortedBySigma at hsorted ⊢
    rw [List.pairwise_map]
    exact hsorted
  · intro c hc
    obtain ⟨c1, hc1, rfl⟩ := List.mem_map.1 hc
    rcases hmem c1 hc1 with h | h
    · left; exact ⟨c1, h, rfl, rfl, rfl, rfl⟩
    · right; exact h

/-- C17 at a concrete call on `sampleFft` with 4 slots, two harmonics and the
aliased search. -/
theorem search_minifft_sorted_witness :
    sortedBySigma (search_minifft toyEnv KernelCache.fresh sampleFft 8
      (List.replicate 4 rblank) 4 2 2 100 10 5 presto_interptype.INTERBIN
      presto_checkaliased.CHECK_ALIASED).cands ∧
    (search_minifft toyEnv KernelCache.fresh sampleFft 8 (List.replicate 4 rblank) 4 2 2 100
      10 5 presto_interptype.INTERBIN presto_checkaliased.CHECK_ALIASED).cands.length = 4 :=
  ⟨(search_minifft_sorted toyEnv KernelCache.fresh sampleFft 8 (List.replicate 4 rblank) 4 2
      2 100 10 5 presto_interptype.INTERBIN presto_checkaliased.CHECK_ALIASED (by decide)
      (by decide)).1,
    (search_minifft_sorted toyEnv KernelCache.fresh sampleFft 8 (List.replicate 4 rblank) 4 2
      2 100 10 5 presto_interptype.INTERBIN presto_checkaliased.CHECK_ALIASED (by decide)
      (by decide)).2.1⟩

/-! ## C18: the scan of a harmonic pass in the dynamic mode -/

/-- C18 on the code: the dynamic call of `search_fft` on `rampFft` with two
harmonics (`numfft = 16`, `lobin = 1`, `numbetween = 2`, cutoff 0). The raw
search stores 11 candidates and the capacity is 20. In the pass for the order
2 the scan starts at `jj = 2`; the store at `jj = 14` finds the list full, the
growth loop leaves `jj = 40`, and the scan ends: the entries 2, ..., 14 of the
running sum have received their term, the entries 15, ..., 31 have not been
visited at all, so that `sumpows[16]` is `fullpows[16] = 64` and not the
harmonic sum `64 + fullpows[8] = 80`. -/
theorem harmonic_scan_skips_after_growth :
    (search_fft_raw toyEnv
      (search_fft_powers toyEnv KernelCache.fresh rampFft 16 1 2
        presto_interptype.INTERPOLATE 1 0).fullpows
      16 1 2 presto_interptype.INTERPOLATE 0 0).startnc = 20 ∧
    (harm_passes toyEnv true 0 16 2 (1 / 2)
      (search_fft_powers toyEnv KernelCache.fresh rampFft 16 1 2
        presto_interptype.INTERPOLATE 1 0).fullpows
      32 2
      (search_fft_raw toyEnv
        (search_fft_powers toyEnv KernelCache.fresh rampFft 16 1 2
          presto_interptype.INTERPOLATE 1 0).fullpows
        16 1 2 presto_interptype.INTERPOLATE 0 0)).1.getD 16 0 = 64 ∧
    harmonic_sum
      (search_fft_powers toyEnv KernelCache.fresh rampFft 16 1 2
        presto_interptype.INTERPOLATE 1 0).fullpows 2 16 = 80 ∧
    (∀ j ∈ List.range' 2 13,
      (harm_passes toyEnv true 0 16 2 (1 / 2)
        (search_fft_powers toyEnv KernelCache.fresh rampFft 16 1 2
          presto_interptype.INTERPOLATE 1 0).fullpows
        32 2
        (search_fft_raw toyEnv
          (search_fft_powers toyEnv KernelCache.fresh rampFft 16 1 2
            presto_interptype.INTERPOLATE 1 0).fullpows
          16 1 2 presto_interptype.INTERPOLATE 0 0)).1.getD j 0
        = harmonic_sum
            (search_fft_powers toyEnv KernelCache.fresh rampFft 16 1 2
              presto_interptype.INTERPOLATE 1 0).fullpows 2 j) ∧
    (∀ j ∈ List.range' 15 17,
      (harm_passes toyEnv true 0 16 2 (1 / 2)
        (search_fft_powers toyEnv KernelCache.fresh rampFft 16 1 2
          presto_interptype.INTERPOLATE 1 0).fullpows
        32 2
        (search_fft_raw toyEnv
          (search_fft_powers toyEnv KernelCache.fresh rampFft 16 1 2
            presto_interptype.INTERPOLATE 1 0).fullpows
          16 1 2 presto_interptype.INTERPOLATE 0 0)).1.getD j 0
        = (search_fft_powers toyEnv KernelCache.fresh rampFft 16 1 2
            presto_interptype.INTERPOLATE 1 0).fullpows.getD j 0) ∧
    (harm_passes toyEnv true 0 16 2 (1 / 2)
      (search_fft_powers toyEnv KernelCache.fresh rampFft 16 1 2
        presto_interptype.INTERPOLATE 1 0).fullpows
      32 2
      (search_fft_raw toyEnv
        (search_fft_powers toyEnv KernelCache.fresh rampFft 16 1 2
          presto_interptype.INTERPOLATE 1 0).fullpows
        16 1 2 presto_interptype.INTERPOLATE 0 0)).2.startnc = 40 ∧
    (search_fft toyEnv KernelCache.fresh rampFft 16 1 2 2 presto_interptype.INTERPOLATE 1 0 0
      0).capacity = 40 ∧
    (search_fft toyEnv KernelCache.fresh rampFft 16 1 2 2 presto_interptype.INTERPOLATE 1 0 0
      0).numcands = 21 := by
  have hcall := search_fft_scan_of_fuel toyEnv
    (search_fft_powers toyEnv KernelCache.fresh rampFft 16 1 2
      presto_interptype.INTERPOLATE 1 0).fullpows
    16 1 2 2 presto_interptype.INTERPOLATE 0 0 40
    (fun s => decide (s.startnc = 40 ∧ s.nc = 21)) (by decide) (by decide!)
  have hcall' := of_decide_eq_true hcall
  have h := harm_passes_of_fuel toyEnv true 0 16 2 (1 / 2)
    (search_fft_powers toyEnv KernelCache.fresh rampFft 16 1 2
      presto_interptype.INTERPOLATE 1 0).fullpows
    32 2 40
    (search_fft_raw toyEnv
      (search_fft_powers toyEnv KernelCache.fresh rampFft 16 1 2
        presto_interptype.INTERPOLATE 1 0).fullpows
      16 1 2 presto_interptype.INTERPOLATE 0 0)
    (fun st => decide (st.1.getD 16 0 = 64 ∧
      (∀ j ∈ List.range' 2 13, st.1.getD j 0
        = harmonic_sum
            (search_fft_powers toyEnv KernelCache.fresh rampFft 16 1 2
              presto_interptype.INTERPOLATE 1 0).fullpows 2 j) ∧
      (∀ j ∈ List.range' 15 17, st.1.getD j 0
        = (search_fft_powers toyEnv KernelCache.fresh rampFft 16 1 2
            presto_interptype.INTERPOLATE 1 0).fullpows.getD j 0) ∧
      st.2.startnc = 40))
    (by decide!)
  have h' := of_decide_eq_true h
  exact ⟨by decide!, h'.1, by decide!, h'.2.1, h'.2.2.1, h'.2.2.2, hcall'.1, hcall'.2⟩

/-! ## C19: what a store of a harmonic pass records -/

theorem accept_written (dynamic : Bool) (s : SearchState) (r p : ℚ) :
    (accept_fftcand dynamic s r p).written
      = s.written ++ [({ s.cands.getD (s.startnc - 1) blank with r := r, p := p }, s.minpow)] := by
  unfold accept_fftcand
  cases dynamic <;> by_cases h : s.nc = s.startnc <;> simp [h]

/-- The array after a store of `search_fft`, up to the order of its slots: the
array before with the candidate `(r, p)` in the place of its last slot,
followed in the dynamic mode by the zero-filled slots of the growth. -/
theorem accept_cands_perm (dynamic : Bool) (s : SearchState) (r p : ℚ)
    (hlen : s.cands.length = s.startnc) (h1 : 1 ≤ s.startnc) :
    ∃ A old, s.cands = A ++ [old] ∧
      (accept_fftcand dynamic s r p).cands.Perm
        ((A ++ [⟨r, p, old.nsum⟩]) ++
          (if dynamic = true ∧ s.nc = s.startnc then
            List.replicate (s.startnc * 2 - s.nc) blank else [])) := by
  obtain ⟨A, old, hA, _, hc⟩ := accept_cands dynamic s r p hlen h1
  refine ⟨A, old, hA, ?_⟩
  rw [hc]
  have hp : (percolate_fftcands (A ++ [⟨r, p, old.nsum⟩]) (A.length + 1)).1.Perm
      (A ++ [⟨r, p, old.nsum⟩]) := by
    show (percolateLoop (fun c : fftcand => c.p) (A.length + 1 - 1) _).Perm _
    exact percolateLoop_perm _ _ _
  exact List.Perm.append_right _ hp

/-- The array after a store of `search_minifft`, up to the order of its slots:
the array before with the new candidate in the place of its last slot. -/
theorem store_rawbincand_perm (numcands : ℕ) (s : MiniState) (r power numsum sigma : ℚ)
    (hlen : s.cands.length = numcands) (h1 : 1 ≤ numcands) :
    ∃ B old, s.cands = B ++ [old] ∧
      (store_rawbincand numcands s r power numsum sigma).cands.Perm
        (B ++ [{ old with
          mini_r := r, mini_power := power, mini_numsum := numsum, mini_sigma := sigma }]) := by
  obtain ⟨old, hold, hB⟩ := eq_take_append_last s.cands numcands h1 hlen
  refine ⟨s.cands.take (numcands - 1), old, hold, ?_⟩
  generalize s.cands.take (numcands - 1) = B at hold hB
  have e1 : numcands - 1 = B.length := hB.symm
  have hset : s.cands.set (numcands - 1)
      { s.cands.getD (numcands - 1) rblank with
        mini_r := r, mini_power := power, mini_numsum := numsum, mini_sigma := sigma }
      = B ++ [{ old with
          mini_r := r, mini_power := power, mini_numsum := numsum, mini_sigma := sigma }] := by
    rw [e1, hold, set_append_last, getD_append_last]
  show (percolateLoop (fun c : rawbincand => c.mini_sigma) (numcands - 1)
    (s.cands.set (numcands - 1)
      { s.cands.getD (numcands - 1) rblank with
        mini_r := r, mini_power := power, mini_numsum := numsum, mini_sigma := sigma })).Perm _
  rw [hset]
  exact percolateLoop_perm _ _ _

/-- C19: in the harmonic pass of `search_fft` for the order `ii`, when the
running sum at the bin `jj` exceeds the threshold, the candidate written to
the list has the position `dr * ii` and the power `sumpows[ii]`, both taken at
the harmonic order (`dr = 1 / numbetween`): the scan goes on from the array
in which that candidate has replaced the last slot (and was percolated), and
it is a slot of that array. `search_minifft` in the same situation writes the
position `dr * jj` and the power `sumpows[jj]` of the bin to its array.
`sumpows1` is the array of the sums after the update of the entry `jj`. -/
theorem harmonic_store_indexing (env : Env) (dynamic : Bool) (dr : ℚ) (fullpows : List ℚ)
    (numtosearch numcands ii jj : ℕ) (sumpows sumpows1 : List ℚ) (s : SearchState)
    (ms : MiniState)
    (hs1 : sumpows1
      = sumpows.set jj (sumpows.getD jj 0 + fullpows.getD ((jj + ii / 2) / ii) 0))
    (hjj : jj < numtosearch)
    (hpass : sumpows1.getD jj 0 > s.minpow)
    (hmpass : sumpows1.getD jj 0 > ms.minpow)
    (hlen : s.cands.length = s.startnc) (h1 : 1 ≤ s.startnc)
    (hmlen : ms.cands.length = numcands) (hm1 : 1 ≤ numcands) :
    harm_inner dynamic dr fullpows numtosearch ii jj sumpows s
      = harm_inner dynamic dr fullpows numtosearch ii (jj_after dynamic s jj + 1) sumpows1
          (accept_fftcand dynamic s (dr * (ii : ℚ)) (sumpows1.getD ii 0)) ∧
    (∃ A old, s.cands = A ++ [old] ∧
      (accept_fftcand dynamic s (dr * (ii : ℚ)) (sumpows1.getD ii 0)).cands.Perm
        ((A ++ [⟨dr * (ii : ℚ), sumpows1.getD ii 0, old.nsum⟩]) ++
          (if dynamic = true ∧ s.nc = s.startnc then
            List.replicate (s.startnc * 2 - s.nc) blank else [])) ∧
      (⟨dr * (ii : ℚ), sumpows1.getD ii 0, old.nsum⟩ : fftcand)
        ∈ (accept_fftcand dynamic s (dr * (ii : ℚ)) (sumpows1.getD ii 0)).cands) ∧
    (∃ B old, ms.cands = B ++ [old] ∧
      (mini_harm_step env dr fullpows numcands ii (sumpows, ms) jj).2.cands.Perm
        (B ++ [{ old with
          mini_r := dr * (jj : ℚ),
          mini_power := sumpows1.getD jj 0,
          mini_numsum := (ii : ℚ),
          mini_sigma := env.candidate_sigma (sumpows1.getD jj 0) (ii : ℤ) 1 }]) ∧
      ({ old with
          mini_r := dr * (jj : ℚ),
          mini_power := sumpows1.getD jj 0,
          mini_numsum := (ii : ℚ),
          mini_sigma := env.candidate_sigma (sumpows1.getD jj 0) (ii : ℤ) 1 } : rawbincand)
        ∈ (mini_harm_step env dr fullpows numcands ii (sumpows, ms) jj).2.cands) ∧
    (accept_fftcand dynamic s (dr * (ii : ℚ)) (sumpows1.getD ii 0)).written
      = s.written ++
          [({ s.cands.getD (s.startnc - 1) blank with
              r := dr * (ii : ℚ), p := sumpows1.getD ii 0 }, s.minpow)] ∧
    (mini_harm_step env dr fullpows numcands ii (sumpows, ms) jj).2.written
      = ms.written ++
          [{ ms.cands.getD (numcands - 1) rblank with
              mini_r := dr * (jj : ℚ),
              mini_power := sumpows1.getD jj 0,
              mini_numsum := (ii : ℚ),
              mini_sigma := env.candidate_sigma (sumpows1.getD jj 0) (ii : ℤ) 1 }] := by
  subst hs1
  have hstep : (mini_harm_step env dr fullpows numcands ii (sumpows, ms) jj).2.cands
      = (store_rawbincand numcands ms (dr * (jj : ℚ))
          ((sumpows.set jj
            (sumpows.getD jj 0 + fullpows.getD ((jj + ii / 2) / ii) 0)).getD jj 0) (ii : ℚ)
          (env.candidate_sigma
            ((sumpows.set jj
              (sumpows.getD jj 0 + fullpows.getD ((jj + ii / 2) / ii) 0)).getD jj 0)
            (ii : ℤ) 1)).cands := by
    unfold mini_harm_step
    simp only []
    rw [if_pos hmpass]
  refine ⟨?_, ?_, ?_, accept_written _ _ _ _, ?_⟩
  · rw [harm_inner, if_pos hjj]
    simp only []
    rw [if_pos hpass]
  · obtain ⟨A, old, hA, hperm⟩ := accept_cands_perm dynamic s (dr * (ii : ℚ))
      ((sumpows.set jj
        (sumpows.getD jj 0 + fullpows.getD ((jj + ii / 2) / ii) 0)).getD ii 0) hlen h1
    refine ⟨A, old, hA, hperm, ?_⟩
    rw [hperm.mem_iff]
    simp
  · obtain ⟨B, old, hB, hperm⟩ := store_rawbincand_perm numcands ms (dr * (jj : ℚ))
      ((sumpows.set jj
        (sumpows.getD jj 0 + fullpows.getD ((jj + ii / 2) / ii) 0)).getD jj 0) (ii : ℚ)
      (env.candidate_sigma
        ((sumpows.set jj
          (sumpows.getD jj 0 + fullpows.getD ((jj + ii / 2) / ii) 0)).getD jj 0)
        (ii : ℤ) 1) hmlen hm1
    rw [hstep]
    refine ⟨B, old, hB, hperm, ?_⟩
    rw [hperm.mem_iff]
    simp
  · unfold mini_harm_step
    simp only []
    rw [if_pos hmpass]
    rfl

/-- C19 at the order 2 and the bin 4 of the powers `stepPows` with `dr = 1/2`
and the threshold 9: the running sum at the bin is `9 + 1 = 10`. The array of
`search_fft`, `[(3, 16), (2, 9)]` before, holds `(1, 1)` afterwards: the
position `2 / 2 = 1` and the power `sumpows[2] = 1`. The array of
`search_minifft` holds the position `4 / 2 = 2` and the power 10. In the whole
call of `search_fft` on `stepFft` (2 slots, two harmonics, `numbetween = 2`)
the vector returned ends with that candidate `(1, 1)`. -/
theorem harmonic_store_indexing_witness :
    (stepPows.set 4 (stepPows.getD 4 0 + stepPows.getD ((4 + 2 / 2) / 2) 0)).getD 4 0 = 10 ∧
    (stepPows.set 4 (stepPows.getD 4 0 + stepPows.getD ((4 + 2 / 2) / 2) 0)).getD 2 0 = 1 ∧
    (accept_fftcand false pairList (1 / 2 * ((2 : ℕ) : ℚ))
      ((stepPows.set 4
        (stepPows.getD 4 0 + stepPows.getD ((4 + 2 / 2) / 2) 0)).getD 2 0)).cands
      = [⟨3, 16, 0⟩, ⟨1, 1, 0⟩] ∧
    (mini_harm_step toyEnv (1 / 2) stepPows 2 2 (stepPows, ⟨[rblank, rblank], 9, []⟩)
      4).2.cands.map (fun w => (w.mini_r, w.mini_power)) = [(2, 10), (0, 0)] ∧
    (∃ A old, pairList.cands = A ++ [old] ∧
      (accept_fftcand false pairList (1 / 2 * ((2 : ℕ) : ℚ))
        ((stepPows.set 4
          (stepPows.getD 4 0 + stepPows.getD ((4 + 2 / 2) / 2) 0)).getD 2 0)).cands.Perm
        ((A ++ [⟨1 / 2 * ((2 : ℕ) : ℚ),
          (stepPows.set 4
            (stepPows.getD 4 0 + stepPows.getD ((4 + 2 / 2) / 2) 0)).getD 2 0, old.nsum⟩]) ++
          (if false = true ∧ pairList.nc = pairList.startnc then
            List.replicate (pairList.startnc * 2 - pairList.nc) blank else [])) ∧
      (⟨1 / 2 * ((2 : ℕ) : ℚ),
        (stepPows.set 4
          (stepPows.getD 4 0 + stepPows.getD ((4 + 2 / 2) / 2) 0)).getD 2 0, old.nsum⟩ :
          fftcand)
        ∈ (accept_fftcand false pairList (1 / 2 * ((2 : ℕ) : ℚ))
            ((stepPows.set 4
              (stepPows.getD 4 0 + stepPows.getD ((4 + 2 / 2) / 2) 0)).getD 2 0)).cands) ∧
    (search_fft toyEnv KernelCache.fresh stepFft 8 1 2 2 presto_interptype.INTERPOLATE 1 0 2
      0).cands.map (fun c => (c.r, c.p)) = [(3, 16), (1, 1)] :=
  ⟨by decide!, by decide!, by decide!, by decide!,
    (harmonic_store_indexing toyEnv false (1 / 2) stepPows 8 2 2 4 stepPows
      (stepPows.set 4 (stepPows.getD 4 0 + stepPows.getD ((4 + 2 / 2) / 2) 0)) pairList
      ⟨[rblank, rblank], 9, []⟩ rfl (by decide) (by decide!) (by decide!) (by decide)
      (by decide) (by decide) (by decide)).2.1,
    of_decide_eq_true (search_fft_scan_of_fuel toyEnv
      (search_fft_powers toyEnv KernelCache.fresh stepFft 8 1 2
        presto_interptype.INTERPOLATE 1 0).fullpows 8 1 2 2 presto_interptype.INTERPOLATE 0 2
      40
      (fun s => decide ((fft_finish 2 2 s).map (fun c => (c.r, c.p)) = [(3, 16), (1, 1)]))
      (by decide) (by decide!))⟩

/-! ## C20: the threshold of the fixed mode -/

/-- C20 on the code: the fixed call of `search_fft` on `stepFft` with 2 slots
and two harmonics (`numfft = 8`, `lobin = 1`, `numbetween = 2`). The record
lists the power of every candidate stored with the threshold it was tested
against. After the raw search the list holds the powers 16 and 9 and the
threshold is 9. In the pass for the order 2 the running sum 10 at the bin 4
exceeds 9, and the candidate stored has the power `sumpows[2] = 1`, below the
threshold: it replaces the entry of power 9, and the weakest retained power
falls from 9 to 1. The vector returned holds the powers 16 and 1. -/
theorem search_fft_fixed_threshold_broken :
    (search_fft toyEnv KernelCache.fresh stepFft 8 1 1 2 presto_interptype.INTERPOLATE 1 0 2
      0).cands.map (fun c => c.p) = [16, 9] ∧
    (search_fft toyEnv KernelCache.fresh stepFft 8 1 2 2 presto_interptype.INTERPOLATE 1 0 2
      0).cands.map (fun c => c.p) = [16, 1] ∧
    (search_fft toyEnv KernelCache.fresh stepFft 8 1 2 2 presto_interptype.INTERPOLATE 1 0 2
      0).written.map (fun w => (w.1.p, w.2))
      = [(1, 0), (9, 0), (16, 1), (1, 9), (1, 1), (1, 1), (1, 1), (1, 1), (1, 1)] := by
  have h := search_fft_scan_of_fuel toyEnv
    (search_fft_powers toyEnv KernelCache.fresh stepFft 8 1 2 presto_interptype.INTERPOLATE 1
      0).fullpows 8 1 2 2 presto_interptype.INTERPOLATE 0 2 40
    (fun s => decide ((fft_finish 2 2 s).map (fun c => c.p) = [16, 1] ∧
      s.written.map (fun w => (w.1.p, w.2))
        = [(1, 0), (9, 0), (16, 1), (1, 9), (1, 1), (1, 1), (1, 1), (1, 1), (1, 1)]))
    (by decide) (by decide!)
  have h' := of_decide_eq_true h
  exact ⟨by decide!, h'.1, h'.2⟩

/-! ## C21: where percolation puts the candidate -/

/-- In a list in non-increasing order of `key`, `rdropWhile` keeps exactly the
entries whose metric is at least that of `x`. -/
theorem length_rdropWhile_eq_countP {α : Type} (key : α → ℚ) (x : α) (A : List α)
    (hA : A.Pairwise (fun a b => key b ≤ key a)) :
    (A.rdropWhile (fun a => decide (key a < key x))).length
      = A.countP (fun a => decide (key x ≤ key a)) := by
  have hsplit := rdropWhile_append_rtakeWhile (fun a => decide (key a < key x)) A
  have hD : (A.rdropWhile (fun a => decide (key a < key x))).countP
      (fun a => decide (key x ≤ key a))
      = (A.rdropWhile (fun a => decide (key a < key x))).length := by
    rw [List.countP_eq_length]
    intro d hd
    simpa using le_of_mem_rdropWhile key x A hA d hd
  have hT : (A.rtakeWhile (fun a => decide (key a < key x))).countP
      (fun a => decide (key x ≤ key a)) = 0 := by
    rw [List.countP_eq_zero]
    intro t ht
    have := lt_of_mem_rtakeWhile key x A t ht
    simpa using this
  conv_rhs => rw [← hsplit]
  rw [List.countP_append, hD, hT, Nat.add_zero]

/-- The percolation loop on an array of `n ≥ 1` slots whose first `n - 1` slots
`A` are in non-increasing order of `key`: with `x` the last slot, the result
is `D ++ x :: T` where `D ++ T = A`, `D` has as many slots as `A` has entries
of metric at least that of `x`, these are the slots of `D`, and the slots of
`T` have a strictly smaller metric. -/
theorem percolateLoop_position {α : Type} (key : α → ℚ) (cands : List α) (n : ℕ)
    (hn : 1 ≤ n) (hlen : cands.length = n)
    (hsorted : (cands.take (n - 1)).Pairwise (fun a b => key b ≤ key a)) :
    ∃ x D T, cands = cands.take (n - 1) ++ [x] ∧ D ++ T = cands.take (n - 1) ∧
      percolateLoop key (n - 1) cands = D ++ x :: T ∧
      D.length = (cands.take (n - 1)).countP (fun a => decide (key x ≤ key a)) ∧
      (∀ d ∈ D, key x ≤ key d) ∧ (∀ t ∈ T, key t < key x) := by
  obtain ⟨x, hx, hA⟩ := eq_take_append_last cands n hn hlen
  refine ⟨x, (cands.take (n - 1)).rdropWhile (fun a => decide (key a < key x)),
    (cands.take (n - 1)).rtakeWhile (fun a => decide (key a < key x)), hx,
    rdropWhile_append_rtakeWhile _ _, ?_, length_rdropWhile_eq_countP key x _ hsorted,
    le_of_mem_rdropWhile key x _ hsorted, lt_of_mem_rtakeWhile key x _⟩
  have h := percolateLoop_full key (cands.take (n - 1)) x
  rw [hA, ← hx] at h
  exact h

/-- C21: `percolate_fftcands` (on the power) and `percolate_rawbincands` (on
`mini_sigma`), run on an array of `n ≥ 1` slots whose first `n - 1` slots are
in non-increasing order of the metric, move the candidate `x` of the last slot
to the index that equals the number of slots of the prefix with a metric at
least its own; the result is `D ++ x :: T` with `D ++ T` the prefix, so the
other entries keep their order; every slot ahead of `x` has a metric at least
that of `x` (an equal one stays ahead) and every slot behind it a strictly
smaller one. -/
theorem percolate_final_position (cands : List fftcand) (n : ℕ) (hn : 1 ≤ n)
    (hlen : cands.length = n) (hsorted : sortedByPower (cands.take (n - 1)))
    (rcands : List rawbincand) (m : ℕ) (hm : 1 ≤ m) (hrlen : rcands.length = m)
    (hrsorted : sortedBySigma (rcands.take (m - 1))) :
    (∃ x D T, cands[n - 1]? = some x ∧ D ++ T = cands.take (n - 1) ∧
      (percolate_fftcands cands n).1 = D ++ x :: T ∧
      D.length = (cands.take (n - 1)).countP (fun a => decide (x.p ≤ a.p)) ∧
      (percolate_fftcands cands n).1[(cands.take (n - 1)).countP
        (fun a => decide (x.p ≤ a.p))]? = some x ∧
      (∀ d ∈ D, x.p ≤ d.p) ∧ (∀ t ∈ T, t.p < x.p)) ∧
    (∃ x D T, rcands[m - 1]? = some x ∧ D ++ T = rcands.take (m - 1) ∧
      (percolate_rawbincands rcands m).1 = D ++ x :: T ∧
      D.length = (rcands.take (m - 1)).countP (fun a => decide (x.mini_sigma ≤ a.mini_sigma)) ∧
      (percolate_rawbincands rcands m).1[(rcands.take (m - 1)).countP
        (fun a => decide (x.mini_sigma ≤ a.mini_sigma))]? = some x ∧
      (∀ d ∈ D, x.mini_sigma ≤ d.mini_sigma) ∧ (∀ t ∈ T, t.mini_sigma < x.mini_sigma)) := by
  constructor
  · obtain ⟨x, D, T, hx, hDT, hres, hcount, hD, hT⟩ :=
      percolateLoop_position (fun c : fftcand => c.p) cands n hn hlen hsorted
    have hres' : (percolate_fftcands cands n).1 = D ++ x :: T := hres
    refine ⟨x, D, T, ?_, hDT, hres', hcount, ?_, hD, hT⟩
    · have hl : (cands.take (n - 1)).length = n - 1 := by
        rw [List.length_take]; omega
      have e : cands[n - 1]?
          = (cands.take (n - 1) ++ [x])[(cands.take (n - 1)).length]? := by
        rw [← hx, hl]
      rw [e, getElem?_append_cons_length]
    · rw [hres', ← hcount, getElem?_append_cons_length]
  · obtain ⟨x, D, T, hx, hDT, hres, hcount, hD, hT⟩ :=
      percolateLoop_position (fun c : rawbincand => c.mini_sigma) rcands m hm hrlen hrsorted
    have hres' : (percolate_rawbincands rcands m).1 = D ++ x :: T := hres
    refine ⟨x, D, T, ?_, hDT, hres', hcount, ?_, hD, hT⟩
    · have hl : (rcands.take (m - 1)).length = m - 1 := by
        rw [List.length_take]; omega
      have e : rcands[m - 1]?
          = (rcands.take (m - 1) ++ [x])[(rcands.take (m - 1)).length]? := by
        rw [← hx, hl]
      rw [e, getElem?_append_cons_length]
    · rw [hres', ← hcount, getElem?_append_cons_length]

/-- C21 at the list of powers `[10, 8, 7, 4]` followed by a candidate of power
7: three entries of the prefix have a power at least 7, the existing entry of
power 7 stays ahead, and the candidate lands at the index 3. -/
theorem percolate_final_position_witness :
    (percolate_fftcands [⟨1, 10, 1⟩, ⟨2, 8, 1⟩, ⟨3, 7, 1⟩, ⟨4, 4, 1⟩, ⟨5, 7, 1⟩] 5).1
      = [⟨1, 10, 1⟩, ⟨2, 8, 1⟩, ⟨3, 7, 1⟩, ⟨5, 7, 1⟩, ⟨4, 4, 1⟩] ∧
    ∃ x D T,
      ([⟨1, 10, 1⟩, ⟨2, 8, 1⟩, ⟨3, 7, 1⟩, ⟨4, 4, 1⟩, ⟨5, 7, 1⟩] : List fftcand)[5 - 1]?
        = some x ∧
      D ++ T
        = ([⟨1, 10, 1⟩, ⟨2, 8, 1⟩, ⟨3, 7, 1⟩, ⟨4, 4, 1⟩, ⟨5, 7, 1⟩] : List fftcand).take
            (5 - 1) ∧
      (percolate_fftcands [⟨1, 10, 1⟩, ⟨2, 8, 1⟩, ⟨3, 7, 1⟩, ⟨4, 4, 1⟩, ⟨5, 7, 1⟩] 5).1
        = D ++ x :: T ∧
      D.length
        = (([⟨1, 10, 1⟩, ⟨2, 8, 1⟩, ⟨3, 7, 1⟩, ⟨4, 4, 1⟩, ⟨5, 7, 1⟩] : List fftcand).take
            (5 - 1)).countP (fun a => decide (x.p ≤ a.p)) :=
  ⟨by decide,
    match (percolate_final_position
      [⟨1, 10, 1⟩, ⟨2, 8, 1⟩, ⟨3, 7, 1⟩, ⟨4, 4, 1⟩, ⟨5, 7, 1⟩] 5 (by decide) (by decide)
      (by decide) [rblank, rblank] 2 (by decide) (by decide) (by decide)).1 with
    | ⟨x, D, T, h1, h2, h3, h4, _⟩ => ⟨x, D, T, h1, h2, h3, h4⟩⟩

/-! ## C22: the index of the harmonic lookup -/

theorem harmonic_index_le (h j : ℕ) (hh : 1 ≤ h) : (j + h / 2) / h ≤ j := by
  have hpos : 0 < h := hh
  have h1 : h / 2 < h := Nat.div_lt_self hpos (by decide)
  have h2 : j ≤ j * h := Nat.le_mul_of_pos_right j hpos
  have h3 : (j + h / 2) / h < j + 1 := by
    rw [Nat.div_lt_iff_lt_mul hpos]
    have e : (j + 1) * h = j * h + h := by ring
    omega
  omega

/-- C22: for every harmonic order `h ≥ 1` and every index `j < n` the lookup
index `(j + h/2) / h` (integer divisions) is at most `j`; hence the read
`fullpows[(jj + offset) / ii]` of a harmonic pass hits an entry of a power
array of length `n`, and so it does in the power arrays of `search_fft` (of
length `numfft * numbetween`) and of `search_minifft` (of length
`numtosearch`), where the model reads with a default that is never used. -/
theorem harmonic_index_in_bounds (h j n : ℕ) (hh : 1 ≤ h) (hj : j < n) :
    (j + h / 2) / h ≤ j ∧
    (∀ fullpows : List ℚ, fullpows.length = n →
      fullpows[(j + h / 2) / h]? = some (fullpows.getD ((j + h / 2) / h) 0)) ∧
    (∀ (env : Env) (kc : KernelCache) (fft : List fcomplex) (numfft lobin numbetween : ℕ)
      (interptype : presto_interptype) (norm powmax : ℚ),
      n = numfft * eff_numbetween interptype numbetween →
      (j + h / 2) / h
        < (search_fft_powers env kc fft numfft lobin numbetween interptype norm
            powmax).fullpows.length) ∧
    (∀ (env : Env) (kc : KernelCache) (minifft : List fcomplex) (numminifft numbetween : ℕ)
      (interptype : presto_interptype) (checkaliased : presto_checkaliased),
      n = mini_numtosearch checkaliased (numminifft * eff_numbetween interptype numbetween) →
      (j + h / 2) / h
        < (search_minifft_powers env kc minifft numminifft numbetween interptype
            checkaliased).1.length) := by
  have hle := harmonic_index_le h j hh
  refine ⟨hle, ?_, ?_, ?_⟩
  · intro fullpows hlen
    exact getElem?_of_getD _ _ (by omega)
  · intro env kc fft numfft lobin numbetween interptype norm powmax hn
    rw [(search_fft_powers_fullpows env kc fft numfft lobin numbetween interptype norm
      powmax).1]
    omega
  · intro env kc minifft numminifft numbetween interptype checkaliased hn
    have hl : (search_minifft_powers env kc minifft numminifft numbetween interptype
        checkaliased).1.length
        = mini_numtosearch checkaliased
            (numminifft * eff_numbetween interptype numbetween) :=
      minifft_fullpows_length _ _ _
    rw [hl]
    omega

/-- C22 at the order 3 and the index 5 of an array of 6 entries: the lookup
index is `(5 + 1) / 3 = 2`. -/
theorem harmonic_index_in_bounds_witness :
    (5 + 3 / 2) / 3 = 2 ∧ (5 + 3 / 2) / 3 ≤ 5 ∧
    stepPows.take 6 = [1, 0, 1, 0, 9, 0] ∧
    (stepPows.take 6)[(5 + 3 / 2) / 3]?
      = some ((stepPows.take 6).getD ((5 + 3 / 2) / 3) 0) :=
  ⟨by decide, (harmonic_index_in_bounds 3 5 6 (by decide) (by decide)).1, by decide,
    (harmonic_index_in_bounds 3 5 6 (by decide) (by decide)).2.1 (stepPows.take 6)
      (by decide)⟩

/-! ## C23: the room behind the oversampled bins -/

/-- The length `padfftlen` returns is never below the requirement `newlen`. -/
theorem padfftlen_newlen_le (W minifftlen numbetween : ℕ) :
    padfftlen_newlen W minifftlen numbetween ≤ (padfftlen W minifftlen numbetween).1 := by
  by_cases h1 : padfftlen_newlen W minifftlen numbetween ≤ 144
  · rw [padfftlen_fst, if_pos h1]
  · by_cases h2 : padfftlen_newlen W minifftlen numbetween ≤ 1050000
    · obtain ⟨a, b, _, _, hb, he⟩ :=
        padfftlen_fst_step W minifftlen numbetween (not_le.1 h1) h2
      rw [he]
      exact hb
    · rw [padfftlen_fst]
      generalize padfftlen_newlen W minifftlen numbetween = n at h1 h2 ⊢
      have e1 : ¬ n ≤ 144 := by omega
      have e2 : ¬ n ≤ 288 := by omega
      have e3 : ¬ n ≤ 540 := by omega
      have e4 : ¬ n ≤ 1080 := by omega
      have e5 : ¬ n ≤ 2100 := by omega
      have e6 : ¬ n ≤ 4200 := by omega
      have e7 : ¬ n ≤ 8232 := by omega
      have e8 : ¬ n ≤ 16464 := by omega
      have e9 : ¬ n ≤ 32805 := by omega
      have e10 : ¬ n ≤ 65610 := by omega
      have e11 : ¬ n ≤ 131220 := by omega
      have e12 : ¬ n ≤ 262440 := by omega
      have e13 : ¬ n ≤ 525000 := by omega
      rw [if_neg e1, if_neg e2, if_neg e3, if_neg e4, if_neg e5, if_neg e6, if_neg e7,
        if_neg e8, if_neg e9, if_neg e10, if_neg e11, if_neg e12, if_neg e13, if_neg h2]
      omega

/-- Where there is room: with a low-accuracy half-width of at least 1, an
input of at least 8 bins and an oversampling factor of at least 2 the pad is
at least 1 and the length returned exceeds `minifftlen * numbetween`. -/
theorem padfftlen_room (W minifftlen numbetween : ℕ) (hW : 1 ≤ W) (h8 : 8 ≤ minifftlen)
    (h2 : 2 ≤ numbetween) :
    1 ≤ (padfftlen W minifftlen numbetween).2 ∧
    minifftlen * numbetween < (padfftlen W minifftlen numbetween).1 := by
  have hp : 1 ≤ (padfftlen W minifftlen numbetween).2 := by
    show 1 ≤ (if minifftlen / 8 > W * (numbetween / 2) then W * (numbetween / 2)
      else minifftlen / 8)
    have hb : 1 ≤ numbetween / 2 := by omega
    have hm : 1 ≤ minifftlen / 8 := by omega
    have hw : 1 ≤ W * (numbetween / 2) := Nat.mul_pos hW hb
    split_ifs
    · exact hw
    · exact hm
  refine ⟨hp, lt_of_lt_of_le ?_ (padfftlen_newlen_le W minifftlen numbetween)⟩
  show minifftlen * numbetween
    < (minifftlen + (padfftlen W minifftlen numbetween).2) * numbetween
  have : (minifftlen + 1) * numbetween
      ≤ (minifftlen + (padfftlen W minifftlen numbetween).2) * numbetween :=
    Nat.mul_le_mul_right _ (by omega)
  have e : (minifftlen + 1) * numbetween = minifftlen * numbetween + numbetween := by ring
  omega

/-- C23 on the code: for the power-of-two length 4 with the oversampling
factor 2 (the factor of interbinning), and for the length 16 with the factor
1, the pad is 0 whatever the low-accuracy half-width `W`, and `padfftlen`
returns `numfft * numbetween` itself: the buffer `spread` has exactly
`numtosearch` entries, so that `spread[numtosearch]` is one past its end (in
the model, with `toyEnv`, the buffer has 8 entries and no entry 8). -/
theorem padfftlen_leaves_no_room (W : ℕ) :
    padfftlen W 4 2 = (4 * 2, 0) ∧ padfftlen W 16 1 = (16 * 1, 0) ∧
    (spread_stage toyEnv [] (sampleFft.take 4) 4
      (padfftlen toyEnv.r_resp_halfwidth_LOWACC 4 2).1 2 (4 * 2)
      presto_interptype.INTERBIN).length = 4 * 2 ∧
    (spread_stage toyEnv [] (sampleFft.take 4) 4
      (padfftlen toyEnv.r_resp_halfwidth_LOWACC 4 2).1 2 (4 * 2)
      presto_interptype.INTERBIN)[4 * 2]? = none := by
  refine ⟨?_, ?_, by decide!, by decide!⟩
  · simp [padfftlen]
  · simp [padfftlen]

/-! ## C24: `not_already_there_rawbin` -/

/-! ### Rounding to `double` -/

/-- With enough fuel the halving count is the integer logarithm. -/
theorem log2_fuel_spec : ∀ (fuel n : ℕ), 1 ≤ n → n ≤ fuel →
    2 ^ log2_fuel fuel n ≤ n ∧ n < 2 ^ (log2_fuel fuel n + 1) := by
  intro fuel
  induction fuel with
  | zero => intro n h1 h2; omega
  | succ fuel ih =>
    intro n h1 h2
    rw [log2_fuel]
    by_cases h : 2 ≤ n
    · rw [if_pos h]
      obtain ⟨ih1, ih2⟩ := ih (n / 2) (by omega) (by omega)
      constructor
      · rw [pow_succ]; omega
      · rw [pow_succ]; omega
    · rw [if_neg h]
      have : n = 1 := by omega
      subst this
      simp

theorem ilog2_spec (n : ℕ) (h : 1 ≤ n) : 2 ^ ilog2 n ≤ n ∧ n < 2 ^ (ilog2 n + 1) :=
  log2_fuel_spec n n h (le_refl n)

/-- The binade of a positive rational `q`: `2^e ≤ q < 2^(e+1)`. -/
theorem binade_spec (q : ℚ) (hq : 0 < q) :
    (2 : ℚ) ^ binade q ≤ q ∧ q < (2 : ℚ) ^ (binade q + 1) := by
  have hnum : 0 < q.num := Rat.num_pos.2 hq
  have hn1 : 1 ≤ q.num.natAbs := by omega
  have hd1 : 1 ≤ q.den := q.den_pos
  obtain ⟨na, nb⟩ := ilog2_spec q.num.natAbs hn1
  obtain ⟨da, db⟩ := ilog2_spec q.den hd1
  have hcast : (q.num : ℚ) = (q.num.natAbs : ℚ) := by
    have h : ((q.num.natAbs : ℕ) : ℤ) = q.num := Int.natAbs_of_nonneg (le_of_lt hnum)
    calc (q.num : ℚ) = (((q.num.natAbs : ℕ) : ℤ) : ℚ) := by rw [h]
      _ = (q.num.natAbs : ℚ) := Int.cast_natCast _
  have hqe : (q.num.natAbs : ℚ) / (q.den : ℚ) = q := by
    rw [← hcast]
    exact Rat.num_div_den q
  have hdpos : (0 : ℚ) < (q.den : ℚ) := by exact_mod_cast hd1
  have na' : (2 : ℚ) ^ ilog2 q.num.natAbs ≤ (q.num.natAbs : ℚ) := by exact_mod_cast na
  have nb' : (q.num.natAbs : ℚ) < (2 : ℚ) ^ (ilog2 q.num.natAbs + 1) := by exact_mod_cast nb
  have da' : (2 : ℚ) ^ ilog2 q.den ≤ (q.den : ℚ) := by exact_mod_cast da
  have db' : (q.den : ℚ) < (2 : ℚ) ^ (ilog2 q.den + 1) := by exact_mod_cast db
  have two0 : (2 : ℚ) ≠ 0 := by norm_num
  have lower : (2 : ℚ) ^ ((ilog2 q.num.natAbs : ℤ) - (ilog2 q.den : ℤ) - 1) ≤ q := by
    have e : (2 : ℚ) ^ ((ilog2 q.num.natAbs : ℤ) - (ilog2 q.den : ℤ) - 1)
        = (2 : ℚ) ^ ilog2 q.num.natAbs / (2 : ℚ) ^ (ilog2 q.den + 1) := by
      rw [show ((ilog2 q.num.natAbs : ℤ) - (ilog2 q.den : ℤ) - 1)
        = (ilog2 q.num.natAbs : ℤ) - ((ilog2 q.den + 1 : ℕ) : ℤ) by push_cast; ring]
      rw [zpow_sub₀ two0, zpow_natCast, zpow_natCast]
    have h : (2 : ℚ) ^ ilog2 q.num.natAbs / (2 : ℚ) ^ (ilog2 q.den + 1)
        ≤ (q.num.natAbs : ℚ) / (q.den : ℚ) := by
      rw [div_le_div_iff₀ (by positivity) hdpos]
      calc (2 : ℚ) ^ ilog2 q.num.natAbs * (q.den : ℚ)
          ≤ (q.num.natAbs : ℚ) * (q.den : ℚ) :=
            mul_le_mul_of_nonneg_right na' (le_of_lt hdpos)
        _ ≤ (q.num.natAbs : ℚ) * (2 : ℚ) ^ (ilog2 q.den + 1) :=
            mul_le_mul_of_nonneg_left (le_of_lt db') (by positivity)
    rw [e]
    exact le_trans h (le_of_eq hqe)
  have upper : q < (2 : ℚ) ^ ((ilog2 q.num.natAbs : ℤ) - (ilog2 q.den : ℤ) + 1) := by
    have e : (2 : ℚ) ^ ((ilog2 q.num.natAbs : ℤ) - (ilog2 q.den : ℤ) + 1)
        = (2 : ℚ) ^ (ilog2 q.num.natAbs + 1) / (2 : ℚ) ^ ilog2 q.den := by
      rw [show ((ilog2 q.num.natAbs : ℤ) - (ilog2 q.den : ℤ) + 1)
        = ((ilog2 q.num.natAbs + 1 : ℕ) : ℤ) - (ilog2 q.den : ℤ) by push_cast; ring]
      rw [zpow_sub₀ two0, zpow_natCast, zpow_natCast]
    have h : (q.num.natAbs : ℚ) / (q.den : ℚ)
        < (2 : ℚ) ^ (ilog2 q.num.natAbs + 1) / (2 : ℚ) ^ ilog2 q.den := by
      rw [div_lt_div_iff₀ hdpos (by positivity)]
      calc (q.num.natAbs : ℚ) * (2 : ℚ) ^ ilog2 q.den
          < (2 : ℚ) ^ (ilog2 q.num.natAbs + 1) * (2 : ℚ) ^ ilog2 q.den :=
            mul_lt_mul_of_pos_right nb' (by positivity)
        _ ≤ (2 : ℚ) ^ (ilog2 q.num.natAbs + 1) * (q.den : ℚ) :=
            mul_le_mul_of_nonneg_left da' (by positivity)
    rw [e]
    exact lt_of_le_of_lt (le_of_eq hqe.symm) h
  unfold binade
  split_ifs with hc
  · refine ⟨lower, ?_⟩
    rw [show ((ilog2 q.num.natAbs : ℤ) - (ilog2 q.den : ℤ) - 1 + 1)
      = (ilog2 q.num.natAbs : ℤ) - (ilog2 q.den : ℤ) by ring]
    exact hc
  · exact ⟨not_lt.1 hc, upper⟩

theorem round_half_even_cases (z : ℚ) :
    round_half_even z = ⌊z⌋ ∨ (round_half_even z = ⌊z⌋ + 1 ∧ 1 / 2 ≤ z - ⌊z⌋) := by
  unfold round_half_even
  split_ifs with h1 h2 h3
  · left; rfl
  · right; exact ⟨rfl, le_of_lt h2⟩
  · left; rfl
  · right; exact ⟨rfl, not_lt.1 h1⟩

/-- Rounding to the nearest integer does not cross an integer. -/
theorem round_half_even_le (z : ℚ) (N : ℤ) (h : z ≤ (N : ℚ)) : round_half_even z ≤ N := by
  have hf : ((⌊z⌋ : ℤ) : ℚ) ≤ z := Int.floor_le z
  rcases round_half_even_cases z with e | ⟨e, hd⟩
  · rw [e]
    exact_mod_cast le_trans hf h
  · rw [e]
    have : ((⌊z⌋ : ℤ) : ℚ) < (N : ℚ) := by linarith
    have : ⌊z⌋ < N := by exact_mod_cast this
    omega

theorem le_round_half_even (z : ℚ) (N : ℤ) (h : (N : ℚ) ≤ z) : N ≤ round_half_even z := by
  have hf : N ≤ ⌊z⌋ := Int.le_floor.2 h
  rcases round_half_even_cases z with e | ⟨e, _⟩
  · rw [e]; exact hf
  · rw [e]; omega

/-- Below an odd integer `M`, rounding to the nearest integer with ties to
even stays below `M` exactly for the arguments up to `M - 1/2`: the tie goes
to the even neighbour `M - 1`. -/
theorem round_half_even_lt_odd (z : ℚ) (M : ℤ) (hM : M % 2 = 1) :
    round_half_even z < M ↔ z ≤ (M : ℚ) - 1 / 2 := by
  have hf1 : ((⌊z⌋ : ℤ) : ℚ) ≤ z := Int.floor_le z
  have hf2 : z < ((⌊z⌋ : ℤ) : ℚ) + 1 := Int.lt_floor_add_one z
  constructor
  · intro h
    by_contra hcon
    have hz : (M : ℚ) - 1 / 2 < z := not_le.1 hcon
    have h1 : ((M - 1 : ℤ) : ℚ) ≤ z := by push_cast; linarith
    have hfl : M - 1 ≤ ⌊z⌋ := Int.le_floor.2 h1
    have hge : ⌊z⌋ ≤ round_half_even z := by
      rcases round_half_even_cases z with e | ⟨e, _⟩ <;> omega
    have hfe : ⌊z⌋ = M - 1 := by omega
    have hd : 1 / 2 < z - ((⌊z⌋ : ℤ) : ℚ) := by
      rw [hfe]; push_cast; linarith
    have : round_half_even z = ⌊z⌋ + 1 := by
      unfold round_half_even
      rw [if_neg (not_lt.2 (le_of_lt hd)), if_pos hd]
    omega
  · intro h
    have hfl : ((⌊z⌋ : ℤ) : ℚ) < (M : ℚ) := by linarith
    have hfl' : ⌊z⌋ < M := by exact_mod_cast hfl
    rcases lt_or_eq_of_le (show ⌊z⌋ ≤ M - 1 by omega) with hlt | heq
    · rcases round_half_even_cases z with e | ⟨e, _⟩ <;> omega
    · have hd : z - ((⌊z⌋ : ℤ) : ℚ) ≤ 1 / 2 := by
        rw [heq]; push_cast; linarith
      have heven : ⌊z⌋ % 2 = 0 := by omega
      have : round_half_even z = ⌊z⌋ := by
        unfold round_half_even
        by_cases hlt : z - ((⌊z⌋ : ℤ) : ℚ) < 1 / 2
        · rw [if_pos hlt]
        · rw [if_neg hlt, if_neg (not_lt.2 hd), if_pos heven]
      omega

theorem round_nonneg_nonneg (y : ℚ) (hy : 0 ≤ y) : 0 ≤ round_nonneg y := by
  unfold round_nonneg
  have hz : (0 : ℚ) ≤ y / (2 : ℚ) ^ (max (binade y) (-1022) - 52) :=
    div_nonneg hy (le_of_lt (zpow_pos (by norm_num) _))
  have h := le_round_half_even _ 0 (by simpa using hz)
  have h' : (0 : ℚ) ≤ (round_half_even (y / (2 : ℚ) ^ (max (binade y) (-1022) - 52)) : ℚ) := by
    exact_mod_cast h
  exact mul_nonneg h' (le_of_lt (zpow_pos (by norm_num) _))

theorem abs_round_double (x : ℚ) : |round_double x| = round_nonneg |x| := by
  unfold round_double
  by_cases hx : x < 0
  · rw [if_pos hx, abs_neg, abs_of_neg hx,
      abs_of_nonneg (round_nonneg_nonneg _ (by linarith))]
  · rw [if_neg hx, abs_of_nonneg (not_lt.1 hx),
      abs_of_nonneg (round_nonneg_nonneg _ (not_lt.1 hx))]

theorem round_nonneg_zero : round_nonneg 0 = 0 := by
  simp [round_nonneg, round_half_even]

/-- The rounded value stays in the binade of its argument (closed above), and
below the least normal number for an argument below it. -/
theorem round_nonneg_bounds (y : ℚ) (hy : 0 < y) :
    round_nonneg y ≤ (2 : ℚ) ^ (max (binade y) (-1022) + 1) ∧
    (-1022 ≤ binade y → (2 : ℚ) ^ binade y ≤ round_nonneg y) := by
  obtain ⟨hb1, hb2⟩ := binade_spec y hy
  have two1 : (1 : ℚ) ≤ 2 := by norm_num
  have two0 : (2 : ℚ) ≠ 0 := by norm_num
  have hkpos : (0 : ℚ) < (2 : ℚ) ^ (max (binade y) (-1022) - 52) := zpow_pos (by norm_num) _
  constructor
  · have h1 : y ≤ (2 : ℚ) ^ (max (binade y) (-1022) + 1) :=
      le_trans (le_of_lt hb2) (zpow_le_zpow_right₀ two1 (by omega))
    have h2 : y / (2 : ℚ) ^ (max (binade y) (-1022) - 52) ≤ (((2 : ℤ) ^ 53 : ℤ) : ℚ) := by
      rw [div_le_iff₀ hkpos]
      have e : ((((2 : ℤ) ^ 53 : ℤ) : ℚ)) * (2 : ℚ) ^ (max (binade y) (-1022) - 52)
          = (2 : ℚ) ^ (max (binade y) (-1022) + 1) := by
        rw [show (max (binade y) (-1022) + 1) = (53 : ℤ) + (max (binade y) (-1022) - 52) by ring,
          zpow_add₀ two0]
        norm_num
      rw [e]
      exact h1
    have h3 := round_half_even_le _ _ h2
    have h4 : (round_half_even (y / (2 : ℚ) ^ (max (binade y) (-1022) - 52)) : ℚ)
        ≤ (((2 : ℤ) ^ 53 : ℤ) : ℚ) := by exact_mod_cast h3
    unfold round_nonneg
    calc (round_half_even (y / (2 : ℚ) ^ (max (binade y) (-1022) - 52)) : ℚ)
          * (2 : ℚ) ^ (max (binade y) (-1022) - 52)
        ≤ (((2 : ℤ) ^ 53 : ℤ) : ℚ) * (2 : ℚ) ^ (max (binade y) (-1022) - 52) :=
          mul_le_mul_of_nonneg_right h4 (le_of_lt hkpos)
      _ = (2 : ℚ) ^ (max (binade y) (-1022) + 1) := by
        rw [show (max (binade y) (-1022) + 1) = (53 : ℤ) + (max (binade y) (-1022) - 52) by ring,
          zpow_add₀ two0]
        norm_num
  · intro hn
    have hmax : max (binade y) (-1022) = binade y := max_eq_left hn
    have e : (((2 : ℤ) ^ 52 : ℤ) : ℚ) * (2 : ℚ) ^ (binade y - 52) = (2 : ℚ) ^ binade y := by
      rw [show binade y = (52 : ℤ) + (binade y - 52) by ring, zpow_add₀ two0]
      rw [show (52 : ℤ) + (binade y - 52) - 52 = binade y - 52 by ring]
      norm_num
    have hkpos' : (0 : ℚ) < (2 : ℚ) ^ (binade y - 52) := zpow_pos (by norm_num) _
    have h2 : (((2 : ℤ) ^ 52 : ℤ) : ℚ) ≤ y / (2 : ℚ) ^ (binade y - 52) := by
      rw [le_div_iff₀ hkpos', e]
      exact hb1
    have h3 := le_round_half_even _ _ h2
    have h4 : (((2 : ℤ) ^ 52 : ℤ) : ℚ)
        ≤ (round_half_even (y / (2 : ℚ) ^ (binade y - 52)) : ℚ) := by exact_mod_cast h3
    unfold round_nonneg
    rw [hmax]
    calc (2 : ℚ) ^ binade y
        = (((2 : ℤ) ^ 52 : ℤ) : ℚ) * (2 : ℚ) ^ (binade y - 52) := e.symm
      _ ≤ (round_half_even (y / (2 : ℚ) ^ (binade y - 52)) : ℚ)
            * (2 : ℚ) ^ (binade y - 52) :=
          mul_le_mul_of_nonneg_right h4 (le_of_lt hkpos')

/-- The double test `x < 0.6` on a rounded non-negative value, in exact
terms: the value rounds below the double `0.6 = 5404319552844595 / 2^53`
exactly when it is at most half a unit in the last place below it. -/
theorem round_nonneg_lt_0_6 (y : ℚ) (hy : 0 ≤ y) :
    round_nonneg y < 5404319552844595 / 9007199254740992
      ↔ y ≤ 10808639105689189 / 18014398509481984 := by
  rcases eq_or_lt_of_le hy with h0 | hpos
  · rw [← h0, round_nonneg_zero]
    constructor <;> intro _ <;> norm_num
  obtain ⟨hb1, hb2⟩ := binade_spec y hpos
  obtain ⟨hr1, hr2⟩ := round_nonneg_bounds y hpos
  have two1 : (1 : ℚ) ≤ 2 := by norm_num
  by_cases hA : y < 1 / 2
  · -- below the binade of 0.6
    have he : binade y ≤ -2 := by
      by_contra hcon
      have h : (2 : ℚ) ^ (-1 : ℤ) ≤ (2 : ℚ) ^ binade y :=
        zpow_le_zpow_right₀ two1 (by omega)
      have h12 : (2 : ℚ) ^ (-1 : ℤ) = 1 / 2 := by norm_num
      rw [h12] at h
      exact absurd (lt_of_le_of_lt (le_trans h hb1) hA) (lt_irrefl _)
    have hle : round_nonneg y ≤ 1 / 2 := by
      have h : (2 : ℚ) ^ (max (binade y) (-1022) + 1) ≤ (2 : ℚ) ^ (-1 : ℤ) :=
        zpow_le_zpow_right₀ two1 (by omega)
      have h12 : (2 : ℚ) ^ (-1 : ℤ) = 1 / 2 := by norm_num
      rw [h12] at h
      exact le_trans hr1 h
    constructor
    · intro _; linarith
    · intro _; linarith
  · by_cases hC : 1 ≤ y
    · have he : 0 ≤ binade y := by
        by_contra hcon
        have h : (2 : ℚ) ^ (binade y + 1) ≤ (2 : ℚ) ^ (0 : ℤ) :=
          zpow_le_zpow_right₀ two1 (by omega)
        rw [zpow_zero] at h
        exact absurd (lt_of_lt_of_le hb2 h) (not_lt.2 hC)
      have hge : 1 ≤ round_nonneg y := by
        have h1 : (2 : ℚ) ^ (0 : ℤ) ≤ (2 : ℚ) ^ binade y := zpow_le_zpow_right₀ two1 he
        rw [zpow_zero] at h1
        exact le_trans h1 (hr2 (by omega))
      constructor
      · intro h
        exfalso
        have : (5404319552844595 : ℚ) / 9007199254740992 < 1 := by norm_num
        linarith
      · intro h
        exfalso
        have : (10808639105689189 : ℚ) / 18014398509481984 < 1 := by norm_num
        linarith
    · -- the binade of 0.6
      have hy1 : 1 / 2 ≤ y := not_lt.1 hA
      have hy2 : y < 1 := not_le.1 hC
      have he : binade y = -1 := by
        have h1 : binade y < 0 := by
          by_contra hcon
          have h : (2 : ℚ) ^ (0 : ℤ) ≤ (2 : ℚ) ^ binade y :=
            zpow_le_zpow_right₀ two1 (by omega)
          rw [zpow_zero] at h
          exact absurd (lt_of_le_of_lt (le_trans h hb1) hy2) (lt_irrefl _)
        have h2 : -2 < binade y := by
          by_contra hcon
          have h : (2 : ℚ) ^ (binade y + 1) ≤ (2 : ℚ) ^ (-1 : ℤ) :=
            zpow_le_zpow_right₀ two1 (by omega)
          have h12 : (2 : ℚ) ^ (-1 : ℤ) = 1 / 2 := by norm_num
          rw [h12] at h
          exact absurd (lt_of_lt_of_le hb2 h) (not_lt.2 hy1)
        omega
      have hk : max (binade y) (-1022) - 52 = -53 := by
        rw [he]; decide
      have hpow : (2 : ℚ) ^ (-53 : ℤ) = 1 / 9007199254740992 := by norm_num
      have hround : round_nonneg y
          = (round_half_even (y * 9007199254740992) : ℚ) / 9007199254740992 := by
        unfold round_nonneg
        rw [hk, hpow]
        rw [show y / (1 / 9007199254740992 : ℚ) = y * 9007199254740992 by field_simp]
        ring
      rw [hround, div_lt_div_iff_of_pos_right (by norm_num)]
      have hodd := round_half_even_lt_odd (y * 9007199254740992) 5404319552844595
        (by decide)
      have hcast : (round_half_even (y * 9007199254740992) : ℚ) < 5404319552844595
          ↔ round_half_even (y * 9007199254740992) < 5404319552844595 := by
        constructor
        · intro h; exact_mod_cast h
        · intro h; exact_mod_cast h
      rw [hcast, hodd]
      constructor
      · intro h
        have h' : y * 9007199254740992 ≤ 5404319552844595 - 1 / 2 := by exact_mod_cast h
        linarith
      · intro h
        have h' : y * 9007199254740992 ≤ 5404319552844595 - 1 / 2 := by linarith
        exact_mod_cast h'

theorem double_0_6_eq : double_0_6 = 5404319552844595 / 9007199254740992 := by
  decide!

/-- The test `fabs(a - b) < 0.6` in double arithmetic, in exact terms: it
holds exactly when the distance of the two doubles is at most
`0.6 - 2^-54` (`0.6` the double constant); such a distance is below `6/10`. -/
theorem double_sub_lt_0_6 (a b : ℚ) :
    (|double_sub a b| < double_0_6
      ↔ |round_double a - round_double b| ≤ 10808639105689189 / 18014398509481984) ∧
    (|double_sub a b| < double_0_6 → |round_double a - round_double b| < 6 / 10) := by
  have h : |double_sub a b| < double_0_6
      ↔ |round_double a - round_double b| ≤ 10808639105689189 / 18014398509481984 := by
    unfold double_sub
    rw [abs_round_double, double_0_6_eq]
    exact round_nonneg_lt_0_6 _ (abs_nonneg _)
  refine ⟨h, fun ht => lt_of_le_of_lt (h.1 ht) (by norm_num)⟩

theorem round_half_even_intCast (n : ℤ) : round_half_even (n : ℚ) = n := by
  unfold round_half_even
  have h : (n : ℚ) - ((⌊(n : ℚ)⌋ : ℤ) : ℚ) < 1 / 2 := by
    rw [Int.floor_intCast]; norm_num
  rw [if_pos h, Int.floor_intCast]

theorem binade_unique (q : ℚ) (hq : 0 < q) (e : ℤ) (h1 : (2 : ℚ) ^ e ≤ q)
    (h2 : q < (2 : ℚ) ^ (e + 1)) : binade q = e := by
  obtain ⟨hb1, hb2⟩ := binade_spec q hq
  have two1 : (1 : ℚ) ≤ 2 := by norm_num
  rcases lt_trichotomy (binade q) e with h | h | h
  · exfalso
    have h3 : (2 : ℚ) ^ (binade q + 1) ≤ (2 : ℚ) ^ e := zpow_le_zpow_right₀ two1 (by omega)
    exact absurd (lt_of_lt_of_le hb2 (le_trans h3 h1)) (lt_irrefl _)
  · exact h
  · exfalso
    have h3 : (2 : ℚ) ^ (e + 1) ≤ (2 : ℚ) ^ binade q := zpow_le_zpow_right₀ two1 (by omega)
    exact absurd (lt_of_lt_of_le h2 (le_trans h3 hb1)) (lt_irrefl _)

/-- A rounded value is a `double`: rounding it again leaves it as it is. -/
theorem round_nonneg_idem (y : ℚ) (hy : 0 ≤ y) :
    round_nonneg (round_nonneg y) = round_nonneg y := by
  rcases eq_or_lt_of_le hy with h0 | hpos
  · rw [← h0, round_nonneg_zero, round_nonneg_zero]
  obtain ⟨hb1, hb2⟩ := binade_spec y hpos
  obtain ⟨hr1, hr2⟩ := round_nonneg_bounds y hpos
  have two1 : (1 : ℚ) ≤ 2 := by norm_num
  have two0 : (2 : ℚ) ≠ 0 := by norm_num
  have hE : -1022 ≤ max (binade y) (-1022) := le_max_right _ _
  have hrdef : round_nonneg y
      = (round_half_even (y / (2 : ℚ) ^ (max (binade y) (-1022) - 52)) : ℚ)
          * (2 : ℚ) ^ (max (binade y) (-1022) - 52) := rfl
  generalize hm : round_half_even (y / (2 : ℚ) ^ (max (binade y) (-1022) - 52)) = m at hrdef
  generalize hEE : max (binade y) (-1022) = E at hrdef hr1 hE
  have hkpos : (0 : ℚ) < (2 : ℚ) ^ (E - 52) := zpow_pos (by norm_num) _
  have hnn := round_nonneg_nonneg y hy
  rcases eq_or_lt_of_le hnn with hz | hrpos
  · rw [← hz, round_nonneg_zero]
  -- the rounded value is positive
  rcases eq_or_lt_of_le hr1 with htop | hlt
  · -- it is the power of two above the binade
    have hb : binade (round_nonneg y) = E + 1 := by
      apply binade_unique _ hrpos
      · rw [htop]
      · rw [htop]
        exact zpow_lt_zpow_right₀ (by norm_num) (by omega)
    have hmax : max (binade (round_nonneg y)) (-1022) = E + 1 := by
      rw [hb]; exact max_eq_left (by omega)
    have hq : round_nonneg y / (2 : ℚ) ^ (E + 1 - 52) = (((2 : ℤ) ^ 52 : ℤ) : ℚ) := by
      rw [htop, div_eq_iff (ne_of_gt (zpow_pos (by norm_num) _))]
      rw [show (E + 1 : ℤ) = (52 : ℤ) + (E + 1 - 52) by ring, zpow_add₀ two0]
      rw [show (52 : ℤ) + (E + 1 - 52) - 52 = E + 1 - 52 by ring]
      norm_num
    have e1 : round_nonneg (round_nonneg y)
        = (round_half_even (round_nonneg y /
            (2 : ℚ) ^ (max (binade (round_nonneg y)) (-1022) - 52)) : ℚ)
          * (2 : ℚ) ^ (max (binade (round_nonneg y)) (-1022) - 52) := rfl
    rw [e1, hmax, hq, round_half_even_intCast, htop]
    rw [show (E + 1 : ℤ) = (52 : ℤ) + (E + 1 - 52) by ring, zpow_add₀ two0]
    rw [show (52 : ℤ) + (E + 1 - 52) - 52 = E + 1 - 52 by ring]
    norm_num
  · -- it stays in the binade
    have hle : binade (round_nonneg y) ≤ E := by
      by_contra hcon
      obtain ⟨h1, _⟩ := binade_spec _ hrpos
      have h3 : (2 : ℚ) ^ (E + 1) ≤ (2 : ℚ) ^ binade (round_nonneg y) :=
        zpow_le_zpow_right₀ two1 (by omega)
      exact absurd (lt_of_lt_of_le hlt (le_trans h3 h1)) (lt_irrefl _)
    have hge : E ≤ max (binade (round_nonneg y)) (-1022) := by
      rcases eq_or_lt_of_le hE with h | h
      · rw [← h]; exact le_max_right _ _
      · have hby : binade y = E := by
          rw [← hEE]
          rcases max_choice (binade y) (-1022) with hc | hc
          · exact hc.symm
          · exfalso; rw [hc] at hEE; omega
        have h2E : (2 : ℚ) ^ E ≤ round_nonneg y := by
          have := hr2 (by omega)
          rw [hby] at this
          exact this
        have : E ≤ binade (round_nonneg y) := by
          by_contra hcon
          obtain ⟨_, h2⟩ := binade_spec _ hrpos
          have h3 : (2 : ℚ) ^ (binade (round_nonneg y) + 1) ≤ (2 : ℚ) ^ E :=
            zpow_le_zpow_right₀ two1 (by omega)
          exact absurd (lt_of_lt_of_le h2 (le_trans h3 h2E)) (lt_irrefl _)
        exact le_trans this (le_max_left _ _)
    have hmax : max (binade (round_nonneg y)) (-1022) = E :=
      le_antisymm (max_le hle hE) hge
    have hq : round_nonneg y / (2 : ℚ) ^ (E - 52) = (m : ℚ) := by
      rw [hrdef, mul_div_assoc, div_self (ne_of_gt hkpos), mul_one]
    have e1 : round_nonneg (round_nonneg y)
        = (round_half_even (round_nonneg y /
            (2 : ℚ) ^ (max (binade (round_nonneg y)) (-1022) - 52)) : ℚ)
          * (2 : ℚ) ^ (max (binade (round_nonneg y)) (-1022) - 52) := rfl
    rw [e1, hmax, hq, round_half_even_intCast, hrdef]

/-- A rounded value is a `double`: `round_double` leaves it as it is. -/
theorem round_double_idem (q : ℚ) : round_double (round_double q) = round_double q := by
  by_cases hq : q < 0
  · have hnn := round_nonneg_nonneg (-q) (by linarith)
    have e : round_double q = - round_nonneg (-q) := by
      unfold round_double; rw [if_pos hq]
    rw [e]
    rcases eq_or_lt_of_le hnn with hz | hpos
    · rw [← hz]
      unfold round_double
      simp [round_nonneg_zero]
    · unfold round_double
      rw [if_pos (by linarith), neg_neg, round_nonneg_idem _ (by linarith)]
  · have hnn := round_nonneg_nonneg q (not_lt.1 hq)
    have e : round_double q = round_nonneg q := by
      unfold round_double; rw [if_neg hq]
    rw [e]
    unfold round_double
    rw [if_neg (not_lt.2 hnn), round_nonneg_idem _ (not_lt.1 hq)]

/-- On operands that are doubles, `double_sub` is the exact difference
rounded once. -/
theorem double_sub_of_doubles (a b : ℚ) (ha : round_double a = a) (hb : round_double b = b) :
    double_sub a b = round_double (a - b) := by
  unfold double_sub
  rw [ha, hb]

/-! ### The routine -/

theorem not_already_there_loop_zero_or_one (newcand : rawbincand) (l : List rawbincand) :
    not_already_there_loop newcand l = 0 ∨ not_already_there_loop newcand l = 1 := by
  induction l with
  | nil => right; rfl
  | cons c rest ih =>
    rw [not_already_there_loop]
    split_ifs
    · right; rfl
    · left; rfl
    · exact ih
    · exact ih
    · exact ih

/-- The loop returns 0 exactly when a slot, with no slot of significance 0 up
to and including it, has the same `mini_N`, a position that passes the test
`fabs(list[ii].mini_r - newcand.mini_r) < 0.6` and a larger significance than
the new candidate. -/
theorem not_already_there_loop_eq_zero (newcand : rawbincand) (l : List rawbincand) :
    not_already_there_loop newcand l = 0 ↔
      ∃ (i : ℕ) (c : rawbincand), l[i]? = some c ∧
        (∀ (k : ℕ) (ck : rawbincand), k ≤ i → l[k]? = some ck → ck.mini_sigma ≠ 0) ∧
        c.mini_N = newcand.mini_N ∧ |double_sub c.mini_r newcand.mini_r| < double_0_6 ∧
        c.mini_sigma > newcand.mini_sigma := by
  induction l with
  | nil => simp [not_already_there_loop]
  | cons c0 rest ih =>
    have hshift : (∃ (i : ℕ) (c : rawbincand), rest[i]? = some c ∧
          (∀ (k : ℕ) (ck : rawbincand), k ≤ i → rest[k]? = some ck → ck.mini_sigma ≠ 0) ∧
          c.mini_N = newcand.mini_N ∧ |double_sub c.mini_r newcand.mini_r| < double_0_6 ∧
          c.mini_sigma > newcand.mini_sigma) →
        c0.mini_sigma ≠ 0 →
        ∃ (i : ℕ) (c : rawbincand), (c0 :: rest)[i]? = some c ∧
          (∀ (k : ℕ) (ck : rawbincand), k ≤ i → (c0 :: rest)[k]? = some ck →
            ck.mini_sigma ≠ 0) ∧
          c.mini_N = newcand.mini_N ∧ |double_sub c.mini_r newcand.mini_r| < double_0_6 ∧
          c.mini_sigma > newcand.mini_sigma := by
      rintro ⟨i, c, hc, hk, hrest⟩ h0
      refine ⟨i + 1, c, by simpa using hc, ?_, hrest⟩
      intro k ck hki hck
      cases k with
      | zero =>
        have : c0 = ck := by simpa using hck
        rw [← this]; exact h0
      | succ k => exact hk k ck (by omega) (by simpa using hck)
    have hback : (∃ (i : ℕ) (c : rawbincand), (c0 :: rest)[i]? = some c ∧
          (∀ (k : ℕ) (ck : rawbincand), k ≤ i → (c0 :: rest)[k]? = some ck →
            ck.mini_sigma ≠ 0) ∧
          c.mini_N = newcand.mini_N ∧ |double_sub c.mini_r newcand.mini_r| < double_0_6 ∧
          c.mini_sigma > newcand.mini_sigma) →
        ¬ (c0.mini_N = newcand.mini_N ∧ |double_sub c0.mini_r newcand.mini_r| < double_0_6 ∧
          c0.mini_sigma > newcand.mini_sigma) →
        ∃ (i : ℕ) (c : rawbincand), rest[i]? = some c ∧
          (∀ (k : ℕ) (ck : rawbincand), k ≤ i → rest[k]? = some ck → ck.mini_sigma ≠ 0) ∧
          c.mini_N = newcand.mini_N ∧ |double_sub c.mini_r newcand.mini_r| < double_0_6 ∧
          c.mini_sigma > newcand.mini_sigma := by
      rintro ⟨i, c, hc, hk, hrest⟩ hno
      cases i with
      | zero =>
        have : c0 = c := by simpa using hc
        rw [← this] at hrest
        exact absurd hrest hno
      | succ i =>
        refine ⟨i, c, by simpa using hc, ?_, hrest⟩
        intro k ck hki hck
        exact hk (k + 1) ck (by omega) (by simpa using hck)
    have hfirst : (∃ (i : ℕ) (c : rawbincand), (c0 :: rest)[i]? = some c ∧
          (∀ (k : ℕ) (ck : rawbincand), k ≤ i → (c0 :: rest)[k]? = some ck →
            ck.mini_sigma ≠ 0) ∧
          c.mini_N = newcand.mini_N ∧ |double_sub c.mini_r newcand.mini_r| < double_0_6 ∧
          c.mini_sigma > newcand.mini_sigma) → c0.mini_sigma ≠ 0 := by
      rintro ⟨i, c, -, hk, -⟩
      exact hk 0 c0 (by omega) (by simp)
    rw [not_already_there_loop]
    by_cases h0 : c0.mini_sigma = 0
    · rw [if_pos h0]
      constructor
      · intro h; exact absurd h (by decide)
      · intro h; exact absurd h0 (hfirst h)
    · rw [if_neg h0]
      by_cases hN : c0.mini_N = newcand.mini_N
      · rw [if_pos hN]
        by_cases hr : |double_sub c0.mini_r newcand.mini_r| < double_0_6
        · rw [if_pos hr]
          by_cases hs : c0.mini_sigma > newcand.mini_sigma
          · rw [if_pos hs]
            constructor
            · intro _
              refine ⟨0, c0, by simp, ?_, hN, hr, hs⟩
              intro k ck hk hck
              have hk0 : k = 0 := by omega
              subst hk0
              have : c0 = ck := by simpa using hck
              rw [← this]; exact h0
            · intro _; rfl
          · rw [if_neg hs, ih]
            exact ⟨fun h => hshift h h0, fun h => hback h (fun hc => hs hc.2.2)⟩
        · rw [if_neg hr, ih]
          exact ⟨fun h => hshift h h0, fun h => hback h (fun hc => hr hc.2.1)⟩
      · rw [if_neg hN, ih]
        exact ⟨fun h => hshift h h0, fun h => hback h (fun hc => hN hc.1)⟩

/-- C24: `not_already_there_rawbin(newcand, list, nlist)` returns 0 if and only
if some slot `list[i]` with `i < nlist`, before the first slot whose
`mini_sigma` is 0, has `mini_N` equal to that of `newcand`, a position within
0.6 of it (the test `fabs(list[i].mini_r - newcand.mini_r) < 0.6` of the
source, in double arithmetic) and a strictly larger `mini_sigma`; otherwise it
returns 1, in particular for `nlist = 0`, for an empty list and for a list
that starts with a slot of significance 0; and the list is left as it was.
In exact terms the test on the positions holds exactly when the distance of
the two doubles is at most `0.6 - 2^-54`, `0.6` being the double constant
`5404319552844595 / 2^53`; a distance that passes is below `6/10`. -/
theorem not_already_there_rawbin_spec (newcand : rawbincand) (list : List rawbincand)
    (nlist : ℕ) :
    ((not_already_there_rawbin newcand list nlist).1 = 0 ↔
      ∃ (i : ℕ) (c : rawbincand), i < nlist ∧ list[i]? = some c ∧
        (∀ (k : ℕ) (ck : rawbincand), k ≤ i → list[k]? = some ck → ck.mini_sigma ≠ 0) ∧
        c.mini_N = newcand.mini_N ∧ |double_sub c.mini_r newcand.mini_r| < double_0_6 ∧
        c.mini_sigma > newcand.mini_sigma) ∧
    ((not_already_there_rawbin newcand list nlist).1 = 0 ∨
      (not_already_there_rawbin newcand list nlist).1 = 1) ∧
    (not_already_there_rawbin newcand list 0).1 = 1 ∧
    (not_already_there_rawbin newcand [] nlist).1 = 1 ∧
    (∀ (c0 : rawbincand) (rest : List rawbincand), c0.mini_sigma = 0 → 1 ≤ nlist →
      (not_already_there_rawbin newcand (c0 :: rest) nlist).1 = 1) ∧
    (not_already_there_rawbin newcand list nlist).2 = list ∧
    (∀ a b : ℚ, |double_sub a b| < double_0_6
      ↔ |round_double a - round_double b| ≤ 10808639105689189 / 18014398509481984) ∧
    (∀ a b : ℚ, |double_sub a b| < double_0_6 → |round_double a - round_double b| < 6 / 10) ∧
    double_0_6 = 5404319552844595 / 9007199254740992 := by
  refine ⟨?_, not_already_there_loop_zero_or_one _ _, ?_, ?_, ?_, rfl,
    fun a b => (double_sub_lt_0_6 a b).1, fun a b => (double_sub_lt_0_6 a b).2,
    double_0_6_eq⟩
  · show not_already_there_loop newcand (list.take nlist) = 0 ↔ _
    rw [not_already_there_loop_eq_zero]
    constructor
    · rintro ⟨i, c, hc, hk, hrest⟩
      rw [List.getElem?_take] at hc
      have hi : i < nlist := by
        by_contra hcon
        rw [if_neg hcon] at hc
        exact absurd hc (by simp)
      rw [if_pos hi] at hc
      refine ⟨i, c, hi, hc, ?_, hrest⟩
      intro k ck hki hck
      apply hk k ck hki
      rw [List.getElem?_take, if_pos (by omega)]
      exact hck
    · rintro ⟨i, c, hi, hc, hk, hrest⟩
      refine ⟨i, c, ?_, ?_, hrest⟩
      · rw [List.getElem?_take, if_pos hi]
        exact hc
      · intro k ck hki hck
        rw [List.getElem?_take, if_pos (by omega)] at hck
        exact hk k ck hki hck
  · show not_already_there_loop newcand (list.take 0) = 1
    simp [not_already_there_loop]
  · show not_already_there_loop newcand (([] : List rawbincand).take nlist) = 1
    simp [not_already_there_loop]
  · intro c0 rest h0 hn
    show not_already_there_loop newcand ((c0 :: rest).take nlist) = 1
    obtain ⟨n', rfl⟩ : ∃ n', nlist = n' + 1 := ⟨nlist - 1, by omega⟩
    rw [List.take_succ_cons, not_already_there_loop, if_pos h0]

/-- C24 on a list of three slots: the second slot matches a new candidate of
the same `mini_N`, position 10.25 and significance 3 (0 is returned); with a
slot of significance 0 in front of it nothing is looked at (1 is returned),
a candidate of larger significance is new (1 is returned), and so is every
candidate when no slot is looked at (`nlist` below the slot). -/
theorem not_already_there_rawbin_examples :
    (not_already_there_rawbin ⟨0, 0, 0, 64, 41 / 4, 0, 0, 3, 0, 0⟩
      [⟨0, 0, 0, 64, 20, 0, 0, 9, 0, 0⟩, ⟨0, 0, 0, 64, 10, 0, 0, 5, 0, 0⟩,
        ⟨0, 0, 0, 32, 10, 0, 0, 4, 0, 0⟩] 3).1 = 0 ∧
    (not_already_there_rawbin ⟨0, 0, 0, 64, 41 / 4, 0, 0, 3, 0, 0⟩
      [⟨0, 0, 0, 64, 20, 0, 0, 0, 0, 0⟩, ⟨0, 0, 0, 64, 10, 0, 0, 5, 0, 0⟩,
        ⟨0, 0, 0, 32, 10, 0, 0, 4, 0, 0⟩] 3).1 = 1 ∧
    (not_already_there_rawbin ⟨0, 0, 0, 64, 41 / 4, 0, 0, 7, 0, 0⟩
      [⟨0, 0, 0, 64, 20, 0, 0, 9, 0, 0⟩, ⟨0, 0, 0, 64, 10, 0, 0, 5, 0, 0⟩,
        ⟨0, 0, 0, 32, 10, 0, 0, 4, 0, 0⟩] 3).1 = 1 ∧
    (not_already_there_rawbin ⟨0, 0, 0, 64, 41 / 4, 0, 0, 3, 0, 0⟩
      [⟨0, 0, 0, 64, 20, 0, 0, 9, 0, 0⟩, ⟨0, 0, 0, 64, 10, 0, 0, 5, 0, 0⟩,
        ⟨0, 0, 0, 32, 10, 0, 0, 4, 0, 0⟩] 1).1 = 1 := by
  decide!

/-- C24 at the edge of the window, where the rounding decides. The positions
`10.0` and `9.4` (the double `5291729562160333 / 2^49`) differ by less than
the double `0.6`, and 0 is returned; the positions `1.0` and `0.4` (the
double `3602879701896397 / 2^53`) differ by the double `0.6` itself, the test
`< 0.6` fails and 1 is returned, although the distance of the two doubles is
below `6/10`. The decimal values `47/5` and `2/5` are read as these doubles. -/
theorem not_already_there_rawbin_edge :
    round_double (47 / 5) = 5291729562160333 / 562949953421312 ∧
    round_double (2 / 5) = 3602879701896397 / 9007199254740992 ∧
    double_sub 10 (47 / 5) = 337769972052787 / 562949953421312 ∧
    double_sub 1 (2 / 5) = double_0_6 ∧
    |(1 : ℚ) - round_double (2 / 5)| < 6 / 10 ∧
    (not_already_there_rawbin ⟨0, 0, 0, 64, 47 / 5, 0, 0, 3, 0, 0⟩
      [⟨0, 0, 0, 64, 10, 0, 0, 5, 0, 0⟩] 1).1 = 0 ∧
    (not_already_there_rawbin ⟨0, 0, 0, 64, 5291729562160333 / 562949953421312, 0, 0, 3, 0, 0⟩
      [⟨0, 0, 0, 64, 10, 0, 0, 5, 0, 0⟩] 1).1 = 0 ∧
    (not_already_there_rawbin ⟨0, 0, 0, 64, 2 / 5, 0, 0, 3, 0, 0⟩
      [⟨0, 0, 0, 64, 1, 0, 0, 5, 0, 0⟩] 1).1 = 1 ∧
    (not_already_there_rawbin ⟨0, 0, 0, 64, 3602879701896397 / 9007199254740992, 0, 0, 3, 0, 0⟩
      [⟨0, 0, 0, 64, 1, 0, 0, 5, 0, 0⟩] 1).1 = 1 := by
  decide!

end Minifft
